import Mathlib

/-!
# A shallow embedding of the `apidae` B-tree (`src/lib.rs`, `src/arrayvec.rs`)

The source is a classical B-tree with compile-time fanout `M` (the crate pins
`const M: usize = 2` for the public `OkBTree` type).  We embed it as follows:

* `NodeArray<T, M>` becomes `Node T`: an inductive with the pivot list and the
  child list.  The Rust child layout `(head, tail[0..len])` is modelled as a
  single list `children` with `children[0] = head` and `children[i+1] = tail[i]`,
  which matches the accessor `Children::get` (index `0` reads `head`, index
  `k ≥ 1` reads `tail[k-1]`).  The Rust `len` field always equals the number of
  initialized pivots, so here `len` is derived: `Node.len n = n.pivots.length`.
* Every node operation takes the `height` argument exactly as in the source and
  recurses on it structurally.
* `DetachedArrayVec` operations become list operations on the initialized
  prefix: `insert` is `List.insertIdx`, `remove` is `List.eraseIdx`,
  `split_off(len, at)` is `take`/`drop` at `at`, `pop` is `dropLast`/`getLast`,
  `push` is appending.
* In-place mutation (`&mut self`) becomes returning the updated node.
* `slice::binary_search_by` is modelled by a linear scan; on a strictly sorted
  slice (which the tree invariant guarantees wherever the source searches) the
  result of Rust's binary search is uniquely determined and agrees with it.
* `unreachable_unchecked` branches (in `rotate_left` / `rotate_right`) are
  totalized by returning the inputs unchanged; the invariants proved below show
  those branches are never taken.
-/

variable {T : Type}

/-- Result of `slice::binary_search_by`: `Ok(i)` (exact match at `i`) or
`Err(i)` (insertion index `i`). -/
inductive BSearch : Type where
  | found (i : Nat)
  | missed (i : Nat)
deriving DecidableEq

/-- The index carried by a `BSearch` result (Rust's `Ok(i) | Err(i) => i`). -/
def BSearch.idx : BSearch → Nat
  | .found i => i
  | .missed i => i

/-- Model of `pivots.binary_search_by(|pivot| q.compare(pivot).reverse())`:
linear scan returning the match index or the insertion index.  On a strictly
sorted list this is exactly the (otherwise unspecified) Rust binary search. -/
def bsearch [LinearOrder T] (q : T) : List T → BSearch
  | [] => .missed 0
  | p :: ps =>
    if q < p then .missed 0
    else if p < q then
      match bsearch q ps with
      | .found i => .found (i + 1)
      | .missed i => .missed (i + 1)
    else .found 0

/-- The three `BinarySearch` probes of the source: `Comp<Q>` (compare against a
key), `First` and `Last`. -/
inductive Probe (T : Type) : Type where
  | comp (q : T)
  | first
  | last

/-- `BinarySearch::binary_search` for each probe.  `Comp` ignores the height;
`Last` answers `Ok(len-1)` at a non-empty leaf and `Err(len)` otherwise;
`First` answers `Ok(0)` at a non-empty leaf and `Err(0)` otherwise. -/
def Probe.search [LinearOrder T] : Probe T → List T → Nat → BSearch
  | .comp q, ps, _ => bsearch q ps
  | .last, [], _ => .missed 0
  | .last, ps, 0 => .found (ps.length - 1)
  | .last, ps, _ + 1 => .missed ps.length
  | .first, [], _ => .missed 0
  | .first, _, 0 => .found 0
  | .first, _, _ + 1 => .missed 0

/-- `NodeArray<T, M>`: pivot array plus child array.  `children` is empty for
leaves; for an internal node with `len` pivots it has `len + 1` entries
(`head` then `tail[0..len]`). -/
inductive Node (T : Type) : Type where
  | mk (pivots : List T) (children : List (Node T)) : Node T

instance : Inhabited (Node T) := ⟨.mk [] []⟩

/-- The initialized pivot prefix `pivots.as_slice(len)`. -/
def Node.pivots : Node T → List T
  | .mk ps _ => ps

/-- The child list, `head :: tail[0..len]` (empty for leaves). -/
def Node.children : Node T → List (Node T)
  | .mk _ cs => cs

/-- The `len` field of `NodeArray` (always the number of initialized pivots). -/
def Node.len (n : Node T) : Nat := n.pivots.length

@[simp] theorem Node.pivots_mk (ps : List T) (cs : List (Node T)) :
    (Node.mk ps cs).pivots = ps := rfl

@[simp] theorem Node.children_mk (ps : List T) (cs : List (Node T)) :
    (Node.mk ps cs).children = cs := rfl

/-- In-order glue: `inorder [c₀, …, c_k] [p₀, …, p_{k-1}] =
c₀ ++ p₀ :: c₁ ++ … ++ p_{k-1} :: c_k` (the shapes used always satisfy
`children = pivots + 1`). -/
def inorder : List (List T) → List T → List T
  | [], _ => []
  | c :: _, [] => c
  | c :: cs, p :: ps => c ++ p :: inorder cs ps

/-- In-order traversal of a node of the given height (the `NodeArrayFmt`
ordering: `[child0, p0, child1, p1, …, p_{len-1}, child_len]`). -/
def Node.toList : Nat → Node T → List T
  | 0, n => n.pivots
  | h + 1, n => inorder (n.children.map (Node.toList h)) n.pivots

/-- `InsertResult<T, M>`. -/
inductive InsertResult (T : Type) : Type where
  | done
  | propagate (pivot : T) (right : Node T)

/-- `RemoveResult<T>`. -/
inductive RemoveResult (T : Type) : Type where
  | underflow (v : T)
  | done (v : T)

/-- The value carried by a `RemoveResult`. -/
def RemoveResult.val : RemoveResult T → T
  | .underflow v => v
  | .done v => v

/-- `RemoveResult::map` (for a value-replacing closure). -/
def RemoveResult.map (f : T → T) : RemoveResult T → RemoveResult T
  | .underflow v => .underflow (f v)
  | .done v => .done (f v)

/-- `NodeArray::insert_split` (`lib.rs:101-172`).  Precondition in the source:
`self.len == M`.  Splits `self` around `m2 = M/2` according to `index ⋄ m2`,
returning the updated (left) node and `Propagate { pivot, right }`.
`split_off(M, k)` keeps `take k` and moves `drop k`; `pop(k)` removes the
element at `k-1`; `insert(len, i, x)` is `insertIdx i x`. -/
def Node.insertSplit (M : Nat) (index : Nat) (value : T) (child : Option (Node T))
    (n : Node T) : Node T × InsertResult T :=
  let m2 := M / 2
  let ps := n.pivots
  if index = m2 then
    -- median = incoming value; left keeps [0, m2), right gets [m2, M)
    match child with
    | none =>
      (⟨ps.take m2, n.children⟩, .propagate value ⟨ps.drop m2, []⟩)
    | some c =>
      -- left children: head :: tail.take m2; right children: c :: tail.drop m2
      (⟨ps.take m2, n.children.take (m2 + 1)⟩,
       .propagate value ⟨ps.drop m2, c :: n.children.drop (m2 + 1)⟩)
  else if index < m2 then
    -- median = original pivot at m2 - 1
    let mid := ps.getD (m2 - 1) value
    match child, n.children with
    | some c, hd :: tl =>
      (⟨(ps.take (m2 - 1)).insertIdx index value,
        hd :: (tl.take (m2 - 1)).insertIdx index c⟩,
       .propagate mid ⟨ps.drop m2, tl.getD (m2 - 1) default :: tl.drop m2⟩)
    | _, _ =>
      (⟨(ps.take (m2 - 1)).insertIdx index value, n.children⟩,
       .propagate mid ⟨ps.drop m2, []⟩)
  else
    -- index > m2; median = original pivot at m2
    let j := index - (m2 + 1)
    let mid := ps.getD m2 value
    match child, n.children with
    | some c, hd :: tl =>
      (⟨ps.take m2, hd :: tl.take m2⟩,
       .propagate mid
         ⟨(ps.drop (m2 + 1)).insertIdx j value,
          tl.getD m2 default :: (tl.drop (m2 + 1)).insertIdx j c⟩)
    | _, _ =>
      (⟨ps.take m2, n.children⟩,
       .propagate mid ⟨(ps.drop (m2 + 1)).insertIdx j value, []⟩)

/-- `NodeArray::insert` (`lib.rs:174-221`).  The source performs the exact-match
test before branching on the height; since `Comp::binary_search` ignores the
height, splitting on the height first is equivalent and keeps the recursion
structural.  Returns the updated node and the `InsertResult`. -/
def Node.insert [LinearOrder T] (M : Nat) (value : T) :
    Nat → Node T → Node T × InsertResult T
  | 0, n =>
    match bsearch value n.pivots with
    | .found i => (⟨n.pivots.set i value, n.children⟩, .done)
    | .missed i =>
      if n.pivots.length = M then
        n.insertSplit M i value none
      else
        (⟨n.pivots.insertIdx i value, n.children⟩, .done)
  | h + 1, n =>
    match bsearch value n.pivots with
    | .found i => (⟨n.pivots.set i value, n.children⟩, .done)
    | .missed i =>
      match Node.insert M value h (n.children.getD i default) with
      | (c', .done) => (⟨n.pivots, n.children.set i c'⟩, .done)
      | (c', .propagate p r) =>
        let n1 : Node T := ⟨n.pivots, n.children.set i c'⟩
        if n1.pivots.length = M then
          n1.insertSplit M i p (some r)
        else
          (⟨n1.pivots.insertIdx i p,
            match n1.children with
            | [] => []
            | hd :: tl => hd :: tl.insertIdx i r⟩, .done)

/-- `NodeArray::search` (`lib.rs:223-243`). -/
def Node.search [LinearOrder T] (b : Probe T) : Nat → Node T → Option T
  | 0, n =>
    match b.search n.pivots 0 with
    | .found i => n.pivots[i]?
    | .missed _ => none
  | h + 1, n =>
    match b.search n.pivots (h + 1) with
    | .found i => n.pivots[i]?
    | .missed i => Node.search b h (n.children.getD i default)

/-- `NodeArray::rotate_left` (`lib.rs:451-487`), called with the parent's
height.  At `height == 1` the siblings are leaves and the source removes the
first pivot of `rhs` through a leaf-level `remove(0, &First)` (inlined here);
otherwise it also moves `rhs`'s head child to the end of `lhs`.  The
`unreachable_unchecked` results of that leaf remove are totalized by returning
the inputs unchanged. -/
def Node.rotateLeft (M hp : Nat) (lhs : Node T) (pivot : T) (rhs : Node T) :
    Node T × T × Node T :=
  if hp = 1 then
    match rhs.pivots with
    | [] => (lhs, pivot, rhs)
    | newp :: rest =>
      if rest.length < M / 2 then (lhs, pivot, rhs)
      else (⟨lhs.pivots ++ [pivot], lhs.children⟩, newp, ⟨rest, rhs.children⟩)
  else
    match rhs.pivots, rhs.children with
    | newp :: rest, c :: cs =>
      (⟨lhs.pivots ++ [pivot], lhs.children ++ [c]⟩, newp, ⟨rest, cs⟩)
    | _, _ => (lhs, pivot, rhs)

/-- `NodeArray::rotate_right` (`lib.rs:411-449`), called with the parent's
height.  At `height == 1` the source removes the last pivot of `lhs` through a
leaf-level `remove(0, &Last)` (inlined); otherwise it also moves `lhs`'s last
child to the front of `rhs`. -/
def Node.rotateRight (M hp : Nat) (lhs : Node T) (pivot : T) (rhs : Node T) :
    Node T × T × Node T :=
  if hp = 1 then
    match lhs.pivots.getLast? with
    | none => (lhs, pivot, rhs)
    | some newp =>
      if lhs.pivots.length - 1 < M / 2 then (lhs, pivot, rhs)
      else
        (⟨lhs.pivots.dropLast, lhs.children⟩, newp,
         ⟨pivot :: rhs.pivots, rhs.children⟩)
  else
    match lhs.pivots.getLast?, lhs.children.getLast? with
    | some newp, some c =>
      (⟨lhs.pivots.dropLast, lhs.children.dropLast⟩, newp,
       ⟨pivot :: rhs.pivots, c :: rhs.children⟩)
    | _, _ => (lhs, pivot, rhs)

/-- `NodeArray::merge_right` (`lib.rs:370-387`): append the separating pivot
and then `rhs`'s pivots (and, when the merged nodes are internal, i.e.
`height > 1`, `rhs`'s children) onto `lhs`.  The source pushes at the fixed
offsets `M/2`, `M/2+1+i`, valid under its precondition
`lhs.len + rhs.len + 1 = M`; under that precondition the pushes are exactly
this concatenation. -/
def Node.mergeRight (_M hp : Nat) (lhs : Node T) (pivot : T) (rhs : Node T) :
    Node T :=
  ⟨lhs.pivots ++ pivot :: rhs.pivots,
   if 1 < hp then lhs.children ++ rhs.children else lhs.children⟩

/-- `NodeArray::merge_left` (`lib.rs:389-409`): move `lhs` into `rhs`'s slot
and append the pivot and the old `rhs` contents.  The resulting node is the
same concatenation as `merge_right` (at `height == 1` the replaced node keeps
`lhs`'s (uninitialized) child storage). -/
def Node.mergeLeft (_M hp : Nat) (lhs : Node T) (pivot : T) (rhs : Node T) :
    Node T :=
  ⟨lhs.pivots ++ pivot :: rhs.pivots,
   if 1 < hp then lhs.children ++ rhs.children else lhs.children⟩

/-- The left-neighbor half of the underflow repair in `NodeArray::remove`
(`lib.rs:330-368`): the underflowed child is at child-array position `j + 1`
(tail index `j`); try `rotate_right` with the left neighbor, else merge into
the left neighbor.  `hp` is the height of `self`. -/
def Node.repairLeft [Inhabited T] (M hp : Nat) (n : Node T) (j : Nat) (v : T) :
    Node T × Option (RemoveResult T) :=
  if M / 2 < (n.children.getD j default).len then
    let r := Node.rotateRight M hp (n.children.getD j default)
      (n.pivots.getD j default) (n.children.getD (j + 1) default)
    (⟨n.pivots.set j r.2.1, (n.children.set j r.1).set (j + 1) r.2.2⟩,
     some (.done v))
  else
    let merged := Node.mergeRight M hp (n.children.getD j default)
      (n.pivots.getD j default) (n.children.getD (j + 1) default)
    let n' : Node T := ⟨n.pivots.eraseIdx j, (n.children.eraseIdx (j + 1)).set j merged⟩
    (n', some (if n'.len < M / 2 then .underflow v else .done v))

/-- The underflow repair inlined in `NodeArray::remove` (`lib.rs:283-368`) for
an underflowed child at child-array position `i`.  At `i = 0` (the `head`
child) only the right neighbor exists: rotate-left from it if it can lend,
else merge with it (`merge_left`).  At `i = j + 1`, check the right neighbor
first (`index + 1 < self.len`), then fall back to the left neighbor.  `hp` is
the height of `self`; `v` the value being removed. -/
def Node.repair [Inhabited T] (M hp : Nat) (n : Node T) (i : Nat) (v : T) :
    Node T × Option (RemoveResult T) :=
  match i with
  | 0 =>
    if M / 2 < (n.children.getD 1 default).len then
      let r := Node.rotateLeft M hp (n.children.getD 0 default)
        (n.pivots.getD 0 default) (n.children.getD 1 default)
      (⟨n.pivots.set 0 r.2.1, (n.children.set 0 r.1).set 1 r.2.2⟩,
       some (.done v))
    else
      let merged := Node.mergeLeft M hp (n.children.getD 0 default)
        (n.pivots.getD 0 default) (n.children.getD 1 default)
      let n' : Node T := ⟨n.pivots.eraseIdx 0, merged :: n.children.drop 2⟩
      (n', some (if n'.len < M / 2 then .underflow v else .done v))
  | j + 1 =>
    if j + 1 < n.pivots.length then
      if M / 2 < (n.children.getD (j + 2) default).len then
        let r := Node.rotateLeft M hp (n.children.getD (j + 1) default)
          (n.pivots.getD (j + 1) default) (n.children.getD (j + 2) default)
        (⟨n.pivots.set (j + 1) r.2.1,
          (n.children.set (j + 1) r.1).set (j + 2) r.2.2⟩,
         some (.done v))
      else Node.repairLeft M hp n j v
    else Node.repairLeft M hp n j v

/-- The tail of `NodeArray::remove` after the recursive call (`lib.rs:278-368`):
`Done` propagates unchanged, `Underflow` triggers the repair.  `n` is the node
with the child (and, on an exact match, the pivot) already updated. -/
def Node.afterChildRemove [Inhabited T] (M hp : Nat) (n : Node T) (i : Nat)
    (rr : RemoveResult T) : Node T × Option (RemoveResult T) :=
  match rr with
  | .done v => (n, some (.done v))
  | .underflow v => Node.repair M hp n i v

/-- `NodeArray::remove` (`lib.rs:247-368`).  At a leaf, remove the matched
pivot and report `Underflow` when the new `len` drops below `M/2`.  At an
internal node, on an exact match recurse with `Last` into `child[i]` to
extract the in-order predecessor, swap it into `pivots[i]` and carry the old
pivot out (`RemoveResult::map`); on a miss recurse with the original probe;
then repair an underflowed child.  Returns the updated node and the optional
result (`None` = not found, propagated unchanged by `?`). -/
def Node.remove [LinearOrder T] [Inhabited T] (M : Nat) :
    Nat → Probe T → Node T → Node T × Option (RemoveResult T)
  | 0, b, n =>
    match b.search n.pivots 0 with
    | .missed _ => (n, none)
    | .found i =>
      let v := n.pivots.getD i default
      let ps' := n.pivots.eraseIdx i
      (⟨ps', n.children⟩,
       some (if ps'.length < M / 2 then .underflow v else .done v))
  | h + 1, b, n =>
    match b.search n.pivots (h + 1) with
    | .found i =>
      let old := n.pivots.getD i default
      match Node.remove M h .last (n.children.getD i default) with
      | (c', none) => (⟨n.pivots, n.children.set i c'⟩, none)
      | (c', some rr) =>
        Node.afterChildRemove M (h + 1)
          ⟨n.pivots.set i rr.val, n.children.set i c'⟩ i (rr.map fun _ => old)
    | .missed i =>
      match Node.remove M h b (n.children.getD i default) with
      | (c', none) => (⟨n.pivots, n.children.set i c'⟩, none)
      | (c', some rr) =>
        Node.afterChildRemove M (h + 1)
          ⟨n.pivots, n.children.set i c'⟩ i rr

/-- `BTreeInner<T>`: depth (the source uses `NonZeroUsize`; well-formedness
records `1 ≤ depth`) and root node. -/
structure BTreeInner (T : Type) : Type where
  depth : Nat
  node : Node T

/-- `OkBTree<T>`: an optional `(depth, root)` pair.  The crate instantiates
`NodeArray<T, M>` at the global `const M: usize = 2`, so every tree-level
operation below passes `M = 2`. -/
structure OkBTree (T : Type) : Type where
  inner : Option (BTreeInner T)

/-- `OkBTree::new`. -/
def OkBTree.new : OkBTree T := ⟨none⟩

/-- `OkBTree::get`. -/
def OkBTree.get [LinearOrder T] (t : OkBTree T) (q : T) : Option T :=
  match t.inner with
  | none => none
  | some i => Node.search (.comp q) (i.depth - 1) i.node

/-- `OkBTree::last`. -/
def OkBTree.last [LinearOrder T] (t : OkBTree T) : Option T :=
  match t.inner with
  | none => none
  | some i => Node.search .last (i.depth - 1) i.node

/-- `OkBTree::first`. -/
def OkBTree.first [LinearOrder T] (t : OkBTree T) : Option T :=
  match t.inner with
  | none => none
  | some i => Node.search .first (i.depth - 1) i.node

/-- `OkBTree::remove_inner` (`lib.rs:644-663`).  Returns the updated tree and
the removed value.  On `Underflow` with an emptied root and depth `> 1`,
re-root to the root's `head` child (`children[0]`) and decrement the depth. -/
def OkBTree.removeInner [LinearOrder T] [Inhabited T] (b : Probe T)
    (t : OkBTree T) : OkBTree T × Option T :=
  match t.inner with
  | none => (t, none)
  | some i =>
    if i.node.len = 0 then (t, none)
    else
      match Node.remove 2 (i.depth - 1) b i.node with
      | (n', none) => (⟨some ⟨i.depth, n'⟩⟩, none)
      | (n', some (.done v)) => (⟨some ⟨i.depth, n'⟩⟩, some v)
      | (n', some (.underflow v)) =>
        if n'.len = 0 ∧ 1 < i.depth then
          (⟨some ⟨i.depth - 1, n'.children.getD 0 default⟩⟩, some v)
        else (⟨some ⟨i.depth, n'⟩⟩, some v)

/-- `OkBTree::remove_last`. -/
def OkBTree.removeLast [LinearOrder T] [Inhabited T] (t : OkBTree T) :
    OkBTree T × Option T :=
  t.removeInner .last

/-- `OkBTree::remove_first`. -/
def OkBTree.removeFirst [LinearOrder T] [Inhabited T] (t : OkBTree T) :
    OkBTree T × Option T :=
  t.removeInner .first

/-- `OkBTree::remove`. -/
def OkBTree.remove [LinearOrder T] [Inhabited T] (q : T) (t : OkBTree T) :
    OkBTree T × Option T :=
  t.removeInner (.comp q)

/-- `OkBTree::insert` (`lib.rs:677-721`).  On an empty tree, allocate a single
leaf with one pivot and depth 1.  On `Propagate { pivot, right }`, install a
new root `⟨[pivot], [old_root, right]⟩` with the depth incremented. -/
def OkBTree.insert [LinearOrder T] (value : T) (t : OkBTree T) : OkBTree T :=
  match t.inner with
  | some i =>
    match Node.insert 2 value (i.depth - 1) i.node with
    | (n', .done) => ⟨some ⟨i.depth, n'⟩⟩
    | (n', .propagate p r) => ⟨some ⟨i.depth + 1, ⟨[p], [n', r]⟩⟩⟩
  | none => ⟨some ⟨1, ⟨[value], []⟩⟩⟩

/-- The tree's depth (`0` for the empty tree). -/
def OkBTree.depth (t : OkBTree T) : Nat :=
  match t.inner with
  | none => 0
  | some i => i.depth

/-- In-order traversal of the whole tree. -/
def OkBTree.toList (t : OkBTree T) : List T :=
  match t.inner with
  | none => []
  | some i => Node.toList (i.depth - 1) i.node

/-- Structural half of the B-tree invariant for a node at height `h`:
leaves (`h = 0`) have no children; an internal node with `len` pivots has
exactly `len + 1` children, each with pivot count in `[M/2, M]` (the non-root
bound; `M` is even in the source so `⌈M/2⌉ = M/2`) and itself well-formed at
height `h - 1`.  Because the height is decremented on every edge and reaches
`0` exactly at the leaves, all leaves sit at the same depth. -/
def Node.balanced (M : Nat) : Nat → Node T → Prop
  | 0, n => n.children = []
  | h + 1, n =>
    n.children.length = n.len + 1 ∧
      ∀ c ∈ n.children, M / 2 ≤ c.len ∧ c.len ≤ M ∧ Node.balanced M h c

/-- Ordering half of the invariant: the in-order traversal is strictly
ascending. -/
def Node.ordered [LinearOrder T] (h : Nat) (n : Node T) : Prop :=
  (Node.toList h n).Sorted (· < ·)

/-- The whole-tree B-tree invariant: a present root has depth `≥ 1`, is
structurally balanced and ordered, has at most `M = 2` pivots, and may only be
empty (`len = 0`) when the tree has depth 1 (the kept empty leaf root); hence
the root has pivot count in `[1, M]` whenever the tree holds any element. -/
def OkBTree.wf [LinearOrder T] (t : OkBTree T) : Prop :=
  match t.inner with
  | none => True
  | some i =>
    1 ≤ i.depth ∧ Node.balanced 2 (i.depth - 1) i.node ∧
      Node.ordered (i.depth - 1) i.node ∧ i.node.len ≤ 2 ∧
      (i.node.len = 0 → i.depth = 1)

/-- Insertion (with replacement on equal) into a sorted list: the
specification-level model of one `insert`. -/
def insKey [LinearOrder T] (v : T) : List T → List T
  | [] => [v]
  | x :: xs =>
    if v < x then v :: x :: xs
    else if x < v then x :: insKey v xs
    else v :: xs

/-- Insert every element of a list, left to right, into an empty tree. -/
def OkBTree.insertAll [LinearOrder T] (l : List T) : OkBTree T :=
  l.foldl (fun t v => t.insert v) OkBTree.new

/-- Call `remove_first` `k` times, collecting the removed values. -/
def OkBTree.drainFirst [LinearOrder T] [Inhabited T] :
    Nat → OkBTree T → List T × OkBTree T
  | 0, t => ([], t)
  | k + 1, t =>
    match t.removeFirst with
    | (t', none) => ([], t')
    | (t', some v) =>
      let r := OkBTree.drainFirst k t'
      (v :: r.1, r.2)

/-- The repair order as §4.2.3 of the specification words it (for the C2
check): rotate-left with the right neighbor if it exists and can lend, else
rotate-right with the left neighbor if it exists and can lend, else merge with
the right neighbor if it exists, else with the left.  This definition follows
the SPECIFICATION, not the source; `Node.repair` above is the source's. -/
def Node.repairClaimed [Inhabited T] (M hp : Nat) (n : Node T) (i : Nat) (v : T) :
    Node T × Option (RemoveResult T) :=
  if i + 1 ≤ n.pivots.length ∧ M / 2 < (n.children.getD (i + 1) default).len then
    let r := Node.rotateLeft M hp (n.children.getD i default)
      (n.pivots.getD i default) (n.children.getD (i + 1) default)
    (⟨n.pivots.set i r.2.1, (n.children.set i r.1).set (i + 1) r.2.2⟩,
     some (.done v))
  else if 1 ≤ i ∧ M / 2 < (n.children.getD (i - 1) default).len then
    let r := Node.rotateRight M hp (n.children.getD (i - 1) default)
      (n.pivots.getD (i - 1) default) (n.children.getD i default)
    (⟨n.pivots.set (i - 1) r.2.1, (n.children.set (i - 1) r.1).set i r.2.2⟩,
     some (.done v))
  else if i + 1 ≤ n.pivots.length then
    let merged := Node.mergeRight M hp (n.children.getD i default)
      (n.pivots.getD i default) (n.children.getD (i + 1) default)
    let n' : Node T := ⟨n.pivots.eraseIdx i, (n.children.eraseIdx (i + 1)).set i merged⟩
    (n', some (if n'.len < M / 2 then .underflow v else .done v))
  else
    let merged := Node.mergeRight M hp (n.children.getD (i - 1) default)
      (n.pivots.getD (i - 1) default) (n.children.getD i default)
    let n' : Node T := ⟨n.pivots.eraseIdx (i - 1), (n.children.eraseIdx i).set (i - 1) merged⟩
    (n', some (if n'.len < M / 2 then .underflow v else .done v))

/-- The pivot-less tail of an interleaving: what follows a child inside
`inorder`. -/
def inorderSuffix : List (List T) → List T → List T
  | _, [] => []
  | mcs, p :: ps => p :: inorder mcs ps

/-! ## List helpers -/

theorem set_eq_take_cons_drop {l : List T} {i : Nat} (a : T) (h : i < l.length) :
    l.set i a = l.take i ++ a :: l.drop (i + 1) := by
  induction l generalizing i with
  | nil => simp at h
  | cons x xs ih =>
    cases i with
    | zero => simp
    | succ j =>
      simp only [List.set_cons_succ, List.take_succ_cons, List.drop_succ_cons,
        List.cons_append, List.cons.injEq, true_and]
      exact ih (by simpa using h)

theorem insertIdx_eq_take_cons_drop {l : List T} {i : Nat} (a : T) (h : i ≤ l.length) :
    l.insertIdx i a = l.take i ++ a :: l.drop i := by
  induction l generalizing i with
  | nil =>
    have hi : i = 0 := Nat.le_zero.mp (by simpa using h)
    subst hi
    simp
  | cons x xs ih =>
    cases i with
    | zero => simp
    | succ j =>
      simp only [List.insertIdx_succ_cons, List.take_succ_cons, List.drop_succ_cons,
        List.cons_append, List.cons.injEq, true_and]
      exact ih (by simpa using h)

theorem set_of_getElem?_eq {l : List T} {i : Nat} {a : T} (h : l[i]? = some a) :
    l.set i a = l := by
  induction l generalizing i with
  | nil => simp at h
  | cons x xs ih =>
    cases i with
    | zero => simp_all
    | succ j =>
      simp only [List.getElem?_cons_succ] at h
      simp [ih h]

theorem getD_eq_of_getElem?_eq {l : List T} {i : Nat} {a d : T} (h : l[i]? = some a) :
    l.getD i d = a := by
  simp [List.getD_eq_getElem?_getD, h]

/-! ## `inorder` lemmas -/

@[simp] theorem inorder_nil (ps : List T) : inorder [] ps = [] := rfl

@[simp] theorem inorder_cons_nil (c : List T) (cs : List (List T)) :
    inorder (c :: cs) [] = c := rfl

@[simp] theorem inorder_cons_cons (c : List T) (cs : List (List T)) (p : T) (ps : List T) :
    inorder (c :: cs) (p :: ps) = c ++ p :: inorder cs ps := rfl

/-- Splitting an interleaving after `|A| = |pA|` child/pivot pairs. -/
theorem inorder_append {A B : List (List T)} {pA pB : List T}
    (h : A.length = pA.length) :
    inorder (A ++ B) (pA ++ pB) = inorder A pA ++ inorder B pB := by
  induction A generalizing pA with
  | nil =>
    have : pA = [] := by
      cases pA with
      | nil => rfl
      | cons p ps => simp at h
    simp [this]
  | cons c A' ih =>
    cases pA with
    | nil => simp at h
    | cons p pA' =>
      simp only [List.cons_append, inorder_cons_cons, List.append_assoc, List.cons_append]
      rw [ih (by simpa using h)]

/-- Splitting an interleaving at a pivot: `A` carries one more child than `pA`
has pivots, so the separating pivot `p` follows the last child of `A`. -/
theorem inorder_glue {A B : List (List T)} {pA pB : List T} {p : T}
    (h : A.length = pA.length + 1) :
    inorder (A ++ B) (pA ++ p :: pB) = inorder A pA ++ p :: inorder B pB := by
  induction pA generalizing A with
  | nil =>
    match A, h with
    | [a], _ => simp
  | cons q pA' ih =>
    match A, h with
    | a :: A', h =>
      simp only [List.cons_append, inorder_cons_cons, List.append_assoc, List.cons_append]
      rw [ih (by simpa using h)]

/-! ## `bsearch` and `Probe.search` characterization -/

theorem bsearch_missed_spec [LinearOrder T] {q : T} {ps : List T} {i : Nat}
    (hs : ps.Sorted (· < ·)) (h : bsearch q ps = .missed i) :
    i ≤ ps.length ∧ (∀ x ∈ ps.take i, x < q) ∧ (∀ x ∈ ps.drop i, q < x) := by
  induction ps generalizing i with
  | nil =>
    cases h
    simp
  | cons p ps' ih =>
    rw [bsearch] at h
    by_cases h1 : q < p
    · rw [if_pos h1] at h
      cases h
      refine ⟨by simp, by simp, ?_⟩
      intro x hx
      rcases List.mem_cons.mp hx with rfl | hx
      · exact h1
      · exact h1.trans (List.rel_of_sorted_cons hs x hx)
    · rw [if_neg h1] at h
      by_cases h2 : p < q
      · rw [if_pos h2] at h
        rcases hrec : bsearch q ps' with j | j <;> rw [hrec] at h
        · cases h
        · cases h
          obtain ⟨hj, hlt, hgt⟩ := ih hs.of_cons hrec
          exact ⟨by simpa using hj,
            by simpa using ⟨h2, hlt⟩,
            by simpa using hgt⟩
      · rw [if_neg h2] at h
        cases h

theorem bsearch_found_spec [LinearOrder T] {q : T} {ps : List T} {i : Nat}
    (hs : ps.Sorted (· < ·)) (h : bsearch q ps = .found i) :
    i < ps.length ∧ ps[i]? = some q ∧
      (∀ x ∈ ps.take i, x < q) ∧ (∀ x ∈ ps.drop (i + 1), q < x) := by
  induction ps generalizing i with
  | nil => cases h
  | cons p ps' ih =>
    rw [bsearch] at h
    by_cases h1 : q < p
    · rw [if_pos h1] at h
      cases h
    · rw [if_neg h1] at h
      by_cases h2 : p < q
      · rw [if_pos h2] at h
        rcases hrec : bsearch q ps' with j | j <;> rw [hrec] at h
        · cases h
          obtain ⟨hj, hget, hlt, hgt⟩ := ih hs.of_cons hrec
          exact ⟨by simpa using hj, by simpa using hget,
            by simpa using ⟨h2, hlt⟩, by simpa using hgt⟩
        · cases h
      · rw [if_neg h2] at h
        cases h
        have : q = p := le_antisymm (not_lt.mp h2) (not_lt.mp h1)
        subst this
        refine ⟨by simp, by simp, by simp, ?_⟩
        intro x hx
        exact List.rel_of_sorted_cons hs x (by simpa using hx)

theorem bsearch_missed_not_mem [LinearOrder T] {q : T} {ps : List T} {i : Nat}
    (hs : ps.Sorted (· < ·)) (h : bsearch q ps = .missed i) : q ∉ ps := by
  obtain ⟨hi, hlt, hgt⟩ := bsearch_missed_spec hs h
  intro hq
  rw [← List.take_append_drop i ps] at hq
  rcases List.mem_append.mp hq with hq | hq
  · exact lt_irrefl q (hlt q hq)
  · exact lt_irrefl q (hgt q hq)

theorem bsearch_found_of_mem [LinearOrder T] {q : T} {ps : List T}
    (hs : ps.Sorted (· < ·)) (hm : q ∈ ps) : ∃ i, bsearch q ps = .found i := by
  rcases h : bsearch q ps with i | i
  · exact ⟨i, rfl⟩
  · exact absurd hm (bsearch_missed_not_mem hs h)

@[simp] theorem probe_search_comp [LinearOrder T] (q : T) (ps : List T) (h : Nat) :
    Probe.search (.comp q) ps h = bsearch q ps := rfl

theorem probe_search_last_leaf [LinearOrder T] {ps : List T} (h : ps ≠ []) :
    Probe.search (T := T) .last ps 0 = .found (ps.length - 1) := by
  cases ps with
  | nil => exact absurd rfl h
  | cons x xs => rfl

@[simp] theorem probe_search_last_internal [LinearOrder T] (ps : List T) (h : Nat) :
    Probe.search (T := T) .last ps (h + 1) = .missed ps.length := by
  cases ps <;> rfl

theorem probe_search_first_leaf [LinearOrder T] {ps : List T} (h : ps ≠ []) :
    Probe.search (T := T) .first ps 0 = .found 0 := by
  cases ps with
  | nil => exact absurd rfl h
  | cons x xs => rfl

@[simp] theorem probe_search_first_internal [LinearOrder T] (ps : List T) (h : Nat) :
    Probe.search (T := T) .first ps (h + 1) = .missed 0 := by
  cases ps <;> rfl

/-! ## `insKey` lemmas -/

@[simp] theorem insKey_nil [LinearOrder T] (v : T) : insKey v [] = [v] := rfl

theorem mem_insKey [LinearOrder T] {x v : T} {l : List T} :
    x ∈ insKey v l ↔ x = v ∨ x ∈ l := by
  induction l with
  | nil => simp
  | cons y ys ih =>
    rw [insKey]
    by_cases h1 : v < y
    · simp [h1]
    · by_cases h2 : y < v
      · rw [if_neg h1, if_pos h2]
        simp only [List.mem_cons, ih]
        tauto
      · have : y = v := le_antisymm (not_lt.mp h1) (not_lt.mp h2)
        subst this
        rw [if_neg h1, if_neg h2]
        simp only [List.mem_cons]
        tauto

theorem insKey_sorted [LinearOrder T] {v : T} {l : List T}
    (hs : l.Sorted (· < ·)) : (insKey v l).Sorted (· < ·) := by
  induction l with
  | nil => simp
  | cons y ys ih =>
    rw [insKey]
    by_cases h1 : v < y
    · rw [if_pos h1]
      exact List.sorted_cons.mpr ⟨fun b hb => by
        rcases List.mem_cons.mp hb with rfl | hb
        · exact h1
        · exact h1.trans (List.rel_of_sorted_cons hs b hb), hs⟩
    · by_cases h2 : y < v
      · rw [if_neg h1, if_pos h2]
        refine List.sorted_cons.mpr ⟨fun b hb => ?_, ih hs.of_cons⟩
        rcases mem_insKey.mp hb with rfl | hb
        · exact h2
        · exact List.rel_of_sorted_cons hs b hb
      · have : y = v := le_antisymm (not_lt.mp h1) (not_lt.mp h2)
        subst this
        rw [if_neg h1, if_neg h2]
        exact hs

theorem insKey_append_left [LinearOrder T] {v : T} {A l : List T}
    (hA : ∀ x ∈ A, x < v) : insKey v (A ++ l) = A ++ insKey v l := by
  induction A with
  | nil => simp
  | cons a A' ih =>
    have ha : a < v := hA a (by simp)
    rw [List.cons_append, insKey, if_neg (asymm ha), if_pos ha,
      ih (fun x hx => hA x (by simp [hx]))]
    rfl

theorem insKey_of_forall_lt [LinearOrder T] {v : T} {B : List T}
    (hB : ∀ y ∈ B, v < y) : insKey v B = v :: B := by
  cases B with
  | nil => rfl
  | cons b B' =>
    rw [insKey, if_pos (hB b (by simp))]

theorem insKey_middle [LinearOrder T] {v : T} {A B : List T}
    (hA : ∀ x ∈ A, x < v) (hB : ∀ y ∈ B, v < y) :
    insKey v (A ++ B) = A ++ v :: B := by
  rw [insKey_append_left hA, insKey_of_forall_lt hB]

theorem insKey_replace [LinearOrder T] {v : T} {A B : List T}
    (hA : ∀ x ∈ A, x < v) :
    insKey v (A ++ v :: B) = A ++ v :: B := by
  rw [insKey_append_left hA, insKey, if_neg (lt_irrefl v), if_neg (lt_irrefl v)]

/-! ## More splitting helpers -/

theorem take_getD_drop {l : List T} {i : Nat} (h : i < l.length) (d : T) :
    l.take i ++ l.getD i d :: l.drop (i + 1) = l := by
  rw [List.getD_eq_getElem?_getD, List.getElem?_eq_getElem h]
  simp only [Option.getD_some]
  rw [← List.drop_eq_getElem_cons h, List.take_append_drop]

theorem take_insertIdx_append {l : List T} {i k : Nat} (v : T)
    (hik : i ≤ k) (hk : k ≤ l.length) :
    (l.take k).insertIdx i v ++ l.drop k = l.insertIdx i v := by
  induction l generalizing i k with
  | nil =>
    have hk0 : k = 0 := Nat.le_zero.mp (by simpa using hk)
    have hi0 : i = 0 := Nat.le_zero.mp (hk0 ▸ hik)
    subst hk0; subst hi0
    rfl
  | cons x xs ih =>
    cases k with
    | zero =>
      have hi0 : i = 0 := Nat.le_zero.mp hik
      subst hi0
      rfl
    | succ k' =>
      cases i with
      | zero =>
        simp [List.insertIdx_zero, List.take_succ_cons, List.drop_succ_cons]
      | succ i' =>
        simp only [List.take_succ_cons, List.insertIdx_succ_cons, List.drop_succ_cons,
          List.cons_append, List.cons.injEq, true_and]
        exact ih (Nat.le_of_succ_le_succ hik) (by simpa using hk)

theorem append_insertIdx_drop {l : List T} {i k : Nat} (v : T)
    (hki : k ≤ i) (hi : i ≤ l.length) :
    l.take k ++ (l.drop k).insertIdx (i - k) v = l.insertIdx i v := by
  induction l generalizing i k with
  | nil =>
    have hi0 : i = 0 := Nat.le_zero.mp (by simpa using hi)
    have hk0 : k = 0 := Nat.le_zero.mp (hi0 ▸ hki)
    subst hi0; subst hk0
    rfl
  | cons x xs ih =>
    cases k with
    | zero => simp
    | succ k' =>
      cases i with
      | zero => exact absurd hki (by omega)
      | succ i' =>
        simp only [List.take_succ_cons, List.drop_succ_cons, List.cons_append,
          Nat.succ_sub_succ, List.insertIdx_succ_cons, List.cons.injEq, true_and]
        exact ih (Nat.le_of_succ_le_succ hki) (by simpa using hi)

@[simp] theorem inorderSuffix_nil_right (mcs : List (List T)) :
    inorderSuffix mcs [] = [] := rfl

@[simp] theorem inorderSuffix_cons_right (mcs : List (List T)) (p : T) (ps : List T) :
    inorderSuffix mcs (p :: ps) = p :: inorder mcs ps := rfl

theorem inorder_eq_append_suffix (c : List T) (mcs : List (List T)) (ps : List T) :
    inorder (c :: mcs) ps = c ++ inorderSuffix mcs ps := by
  cases ps <;> simp

/-! ## `Node.toList` and `Node.balanced` basics -/

@[simp] theorem Node.len_mk (ps : List T) (cs : List (Node T)) :
    (Node.mk ps cs).len = ps.length := rfl

@[simp] theorem Node.toList_zero (n : Node T) : Node.toList 0 n = n.pivots := rfl

theorem Node.toList_succ (h : Nat) (n : Node T) :
    Node.toList (h + 1) n = inorder (n.children.map (Node.toList h)) n.pivots := rfl

theorem Node.balanced_zero {M : Nat} {n : Node T} :
    Node.balanced M 0 n ↔ n.children = [] := Iff.rfl

theorem Node.balanced_succ {M h : Nat} {n : Node T} :
    Node.balanced M (h + 1) n ↔
      n.children.length = n.len + 1 ∧
        ∀ c ∈ n.children, M / 2 ≤ c.len ∧ c.len ≤ M ∧ Node.balanced M h c := Iff.rfl

/-- Decomposition of a traversal around the child at list position `i`, with
the child list given in split form. -/
theorem Node.toList_decomp {A B : List (Node T)} {c : Node T} {ps : List T}
    {h i : Nat} (hA : A.length = i) (hi : i ≤ ps.length) :
    Node.toList (h + 1) (.mk ps (A ++ c :: B)) =
      inorder (A.map (Node.toList h)) (ps.take i) ++
        Node.toList h c ++
        inorderSuffix (B.map (Node.toList h)) (ps.drop i) := by
  rw [Node.toList_succ]
  simp only [Node.children, Node.pivots, List.map_append, List.map_cons]
  conv_lhs => rw [← List.take_append_drop i ps]
  rw [inorder_append (by simp only [List.length_map, List.length_take]; omega),
    inorder_eq_append_suffix, List.append_assoc]

/-- Decomposition of a traversal around two adjacent children at positions
`j`, `j + 1`, exposing the separating pivot. -/
theorem Node.toList_decomp2 [Inhabited T] {A B : List (Node T)} {c d : Node T}
    {ps : List T} {h j : Nat} (hA : A.length = j) (hj : j < ps.length) :
    Node.toList (h + 1) (.mk ps (A ++ c :: d :: B)) =
      inorder (A.map (Node.toList h)) (ps.take j) ++
        Node.toList h c ++
        ps.getD j default ::
          (Node.toList h d ++
            inorderSuffix (B.map (Node.toList h)) (ps.drop (j + 1))) := by
  rw [Node.toList_decomp hA (le_of_lt hj)]
  have hdrop : ps.drop j = ps.getD j default :: ps.drop (j + 1) := by
    rw [List.getD_eq_getElem?_getD, List.getElem?_eq_getElem hj]
    simp only [Option.getD_some]
    exact List.drop_eq_getElem_cons hj
  rw [hdrop]
  simp [inorder_eq_append_suffix]

/-! ## Rotation and merge specifications -/

theorem Node.balanced_children_length {M h : Nat} {n : Node T}
    (hb : Node.balanced M (h + 1) n) : n.children.length = n.len + 1 := hb.1

theorem Node.balanced_child {M h : Nat} {n c : Node T}
    (hb : Node.balanced M (h + 1) n) (hc : c ∈ n.children) :
    M / 2 ≤ c.len ∧ c.len ≤ M ∧ Node.balanced M h c := hb.2 c hc

/-- `rotate_left` at parent height `h + 1`, applied to an underflowed `lhs`
(`len = M/2 - 1`) and a lending `rhs` (`len > M/2`): the rotated pair
preserves the in-order sequence `lhs ++ pivot ++ rhs` exactly, moves one pivot
across, and keeps both nodes well-formed. -/
theorem Node.rotateLeft_spec {M h : Nat} {lhs rhs : Node T} {pivot : T}
    (hM : 2 ≤ M)
    (hbl : Node.balanced M h lhs) (hbr : Node.balanced M h rhs)
    (hll : lhs.len = M / 2 - 1) (hrl : M / 2 < rhs.len) :
    ∃ l' p' r', Node.rotateLeft M (h + 1) lhs pivot rhs = (l', p', r') ∧
      Node.toList h l' ++ p' :: Node.toList h r' =
        Node.toList h lhs ++ pivot :: Node.toList h rhs ∧
      l'.len = lhs.len + 1 ∧ r'.len + 1 = rhs.len ∧
      Node.balanced M h l' ∧ Node.balanced M h r' := by
  obtain ⟨lps, lcs⟩ := lhs
  obtain ⟨rps, rcs⟩ := rhs
  simp only [Node.len_mk] at hll hrl
  have hm2 : 1 ≤ M / 2 := by omega
  cases rps with
  | nil => exact absurd hrl (by simp)
  | cons newp rest =>
    simp only [List.length_cons] at hrl
    cases h with
    | zero =>
      rw [Node.balanced_zero] at hbl hbr
      simp only [Node.children_mk] at hbl hbr
      have hrest : ¬ rest.length < M / 2 := by omega
      refine ⟨⟨lps ++ [pivot], lcs⟩, newp, ⟨rest, rcs⟩, ?_, ?_, ?_, ?_, ?_, ?_⟩
      · simp [Node.rotateLeft, hrest]
      · simp
      · simp [Node.len]
      · simp [Node.len]
      · rw [Node.balanced_zero]; simpa using hbl
      · rw [Node.balanced_zero]; simpa using hbr
    | succ s =>
      have hlcl := Node.balanced_children_length hbl
      have hrcl := Node.balanced_children_length hbr
      simp only [Node.children_mk, Node.len_mk, List.length_cons] at hlcl hrcl
      cases rcs with
      | nil => simp at hrcl
      | cons c cs =>
        simp only [List.length_cons] at hrcl
        refine ⟨⟨lps ++ [pivot], lcs ++ [c]⟩, newp, ⟨rest, cs⟩, ?_, ?_, ?_, ?_, ?_, ?_⟩
        · simp [Node.rotateLeft]
        · have hlc : (lcs.map (Node.toList s)).length = lps.length + 1 := by
            simp [hlcl]
          rw [Node.toList_succ, Node.toList_succ, Node.toList_succ, Node.toList_succ]
          simp only [Node.children_mk, Node.pivots_mk, List.map_append, List.map_cons,
            List.map_nil, inorder_cons_cons]
          rw [inorder_glue hlc]
          simp [List.append_assoc]
        · simp [Node.len]
        · simp [Node.len]
        · refine ⟨by simp [Node.len, hlcl], ?_⟩
          intro x hx
          simp only [Node.children_mk, List.mem_append, List.mem_singleton] at hx
          rcases hx with hx | rfl
          · exact Node.balanced_child hbl hx
          · have := Node.balanced_child hbr (List.mem_cons_self _ cs)
            exact ⟨by omega, this.2.1, this.2.2⟩
        · refine ⟨by simp only [Node.children_mk, Node.len_mk]; omega, ?_⟩
          intro x hx
          exact Node.balanced_child hbr (List.mem_cons_of_mem c (by simpa using hx))

/-- `rotate_right` at parent height `h + 1`, applied to a lending `lhs`
(`len > M/2`) and an underflowed `rhs` (`len = M/2 - 1`). -/
theorem Node.rotateRight_spec {M h : Nat} {lhs rhs : Node T} {pivot : T}
    (hM : 2 ≤ M)
    (hbl : Node.balanced M h lhs) (hbr : Node.balanced M h rhs)
    (hll : M / 2 < lhs.len) (hrl : rhs.len = M / 2 - 1) :
    ∃ l' p' r', Node.rotateRight M (h + 1) lhs pivot rhs = (l', p', r') ∧
      Node.toList h l' ++ p' :: Node.toList h r' =
        Node.toList h lhs ++ pivot :: Node.toList h rhs ∧
      l'.len + 1 = lhs.len ∧ r'.len = rhs.len + 1 ∧
      Node.balanced M h l' ∧ Node.balanced M h r' := by
  obtain ⟨lps, lcs⟩ := lhs
  obtain ⟨rps, rcs⟩ := rhs
  simp only [Node.len_mk] at hll hrl
  have hm2 : 1 ≤ M / 2 := by omega
  have hlne : lps ≠ [] := by
    intro hnil
    rw [hnil] at hll
    simp at hll
  have hlast : lps.getLast? = some (lps.getLast hlne) := List.getLast?_eq_getLast _ hlne
  have hsplit : lps.dropLast ++ [lps.getLast hlne] = lps :=
    List.dropLast_concat_getLast hlne
  cases h with
  | zero =>
    rw [Node.balanced_zero] at hbl hbr
    simp only [Node.children_mk] at hbl hbr
    have hrest : ¬ lps.length - 1 < M / 2 := by omega
    refine ⟨⟨lps.dropLast, lcs⟩, lps.getLast hlne, ⟨pivot :: rps, rcs⟩, ?_, ?_, ?_, ?_, ?_, ?_⟩
    · simp [Node.rotateRight, hlast, hrest]
    · simp only [Node.toList_zero, Node.pivots_mk]
      conv_rhs => rw [← hsplit]
      simp
    · simp only [Node.len_mk, List.length_dropLast]
      omega
    · simp [Node.len, hrl]
    · rw [Node.balanced_zero]; simpa using hbl
    · rw [Node.balanced_zero]; simpa using hbr
  | succ s =>
    have hlcl := Node.balanced_children_length hbl
    have hrcl := Node.balanced_children_length hbr
    simp only [Node.children_mk, Node.len_mk] at hlcl hrcl
    have hlcne : lcs ≠ [] := by
      intro hnil
      rw [hnil] at hlcl
      simp at hlcl
    have hclast : lcs.getLast? = some (lcs.getLast hlcne) := List.getLast?_eq_getLast _ hlcne
    have hcsplit : lcs.dropLast ++ [lcs.getLast hlcne] = lcs :=
      List.dropLast_concat_getLast hlcne
    refine ⟨⟨lps.dropLast, lcs.dropLast⟩, lps.getLast hlne,
      ⟨pivot :: rps, lcs.getLast hlcne :: rcs⟩, ?_, ?_, ?_, ?_, ?_, ?_⟩
    · simp [Node.rotateRight, hlast, hclast]
    · have hlc : (lcs.dropLast.map (Node.toList s)).length = lps.dropLast.length + 1 := by
        simp only [List.length_map, List.length_dropLast]
        omega
      rw [Node.toList_succ, Node.toList_succ, Node.toList_succ, Node.toList_succ]
      simp only [Node.children_mk, Node.pivots_mk, List.map_cons, inorder_cons_cons]
      conv_rhs => rw [← hsplit, ← hcsplit]
      simp only [List.map_append, List.map_cons, List.map_nil]
      rw [inorder_glue hlc]
      simp [List.append_assoc]
    · simp only [Node.len_mk, List.length_dropLast]
      omega
    · simp [Node.len, hrl]
    · refine ⟨by simp only [Node.children_mk, Node.len_mk, List.length_dropLast]; omega, ?_⟩
      intro x hx
      simp only [Node.children_mk] at hx
      exact Node.balanced_child hbl ((List.dropLast_sublist lcs).mem hx)
    · refine ⟨by simp only [Node.children_mk, Node.len_mk, List.length_cons]; omega, ?_⟩
      intro x hx
      simp only [Node.children_mk, List.mem_cons] at hx
      rcases hx with rfl | hx
      · have := Node.balanced_child hbl (List.getLast_mem hlcne)
        exact ⟨by omega, this.2.1, this.2.2⟩
      · exact Node.balanced_child hbr hx

theorem Node.mergeLeft_eq_mergeRight (M hp : Nat) (l : Node T) (p : T) (r : Node T) :
    Node.mergeLeft M hp l p r = Node.mergeRight M hp l p r := rfl

/-- `merge_right` at parent height `h + 1`: concatenates the two siblings
around the separating pivot, preserving the in-order sequence exactly. -/
theorem Node.mergeRight_spec {M h : Nat} {l r : Node T} {p : T}
    (hbl : Node.balanced M h l) (hbr : Node.balanced M h r) :
    Node.toList h (Node.mergeRight M (h + 1) l p r) =
      Node.toList h l ++ p :: Node.toList h r ∧
    (Node.mergeRight M (h + 1) l p r).len = l.len + r.len + 1 ∧
    (l.len + r.len + 1 ≤ M → Node.balanced M h (Node.mergeRight M (h + 1) l p r)) := by
  obtain ⟨lps, lcs⟩ := l
  obtain ⟨rps, rcs⟩ := r
  cases h with
  | zero =>
    rw [Node.balanced_zero] at hbl hbr
    simp only [Node.children_mk] at hbl hbr
    have h1 : ¬ (1 : Nat) < 1 := by omega
    refine ⟨?_, ?_, ?_⟩
    · simp [Node.mergeRight, h1]
    · simp only [Node.mergeRight, Node.len_mk, Node.pivots_mk, List.length_append,
        List.length_cons]
      omega
    · intro _
      rw [Node.balanced_zero]
      simp [Node.mergeRight, h1, hbl]
  | succ s =>
    have hlcl := Node.balanced_children_length hbl
    have hrcl := Node.balanced_children_length hbr
    simp only [Node.children_mk, Node.len_mk] at hlcl hrcl
    have h1 : (1 : Nat) < s + 2 := by omega
    have hlc : (lcs.map (Node.toList s)).length = lps.length + 1 := by simp [hlcl]
    refine ⟨?_, ?_, ?_⟩
    · rw [Node.mergeRight]
      simp only [Node.pivots_mk, Node.children_mk, if_pos h1]
      rw [Node.toList_succ, Node.toList_succ, Node.toList_succ]
      simp only [Node.children_mk, Node.pivots_mk, List.map_append]
      rw [inorder_glue hlc]
    · simp only [Node.mergeRight, Node.len_mk, Node.pivots_mk, List.length_append,
        List.length_cons]
      omega
    · intro hle
      refine ⟨?_, ?_⟩
      · simp only [Node.mergeRight, Node.pivots_mk, Node.children_mk, if_pos h1,
          Node.len, List.length_append, List.length_cons]
        omega
      · intro x hx
        simp only [Node.mergeRight, Node.children_mk, if_pos h1, List.mem_append] at hx
        rcases hx with hx | hx
        · exact Node.balanced_child hbl hx
        · exact Node.balanced_child hbr hx

/-! ## Split specification -/

theorem getD_cons_drop {l : List T} {i : Nat} (h : i < l.length) (d : T) :
    l.getD i d :: l.drop (i + 1) = l.drop i := by
  rw [List.getD_eq_getElem?_getD, List.getElem?_eq_getElem h]
  simp only [Option.getD_some]
  exact (List.drop_eq_getElem_cons h).symm

theorem take_append_getD {l : List T} {i : Nat} (h : i < l.length) (d : T) :
    l.take i ++ [l.getD i d] = l.take (i + 1) := by
  rw [List.getD_eq_getElem?_getD, List.getElem?_eq_getElem h]
  simp only [Option.getD_some]
  rw [List.take_succ, List.getElem?_eq_getElem h]
  rfl

theorem getD_default_eq {l : List T} {i : Nat} (h : i < l.length) (d1 d2 : T) :
    l.getD i d1 = l.getD i d2 := by
  rw [List.getD_eq_getElem?_getD, List.getD_eq_getElem?_getD, List.getElem?_eq_getElem h]
  simp

/-- Contract of `insert_split` on a full node (`len = M`, `index ≤ M`): it
returns `Propagate` with the median chosen by `index` versus `m = M/2` (the
incoming value at `index = m`; the original pivot at `m - 1` below; the
original pivot at `m` above), both sides holding exactly `m` pivots, the
pivots-plus-median concatenation equal to inserting the value into the full
pivot list, and for an internal node (`M + 1` children and a carried child)
the child lists concatenating to the child array with the carried child
inserted at `index + 1`, `m + 1` children on each side. -/
theorem Node.insertSplit_spec [Inhabited T] {M index : Nat} {value : T}
    {child : Option (Node T)} {n : Node T}
    (hM : 2 ≤ M) (hEv : M % 2 = 0) (hlen : n.pivots.length = M) (hi : index ≤ M) :
    ∃ n' mid right, n.insertSplit M index value child = (n', .propagate mid right) ∧
      n'.pivots ++ mid :: right.pivots = n.pivots.insertIdx index value ∧
      n'.pivots.length = M / 2 ∧ right.pivots.length = M / 2 ∧
      (child = none → n'.children = n.children ∧ right.children = []) ∧
      (∀ c, child = some c → n.children.length = M + 1 →
        n'.children ++ right.children = n.children.insertIdx (index + 1) c ∧
        n'.children.length = M / 2 + 1 ∧ right.children.length = M / 2 + 1) ∧
      mid = (if index = M / 2 then value
             else if index < M / 2 then n.pivots.getD (M / 2 - 1) default
             else n.pivots.getD (M / 2) default) := by
  obtain ⟨ps, cs⟩ := n
  simp only [Node.pivots_mk, Node.children_mk] at hlen ⊢
  have hm2 : 1 ≤ M / 2 := by omega
  have hm2M : M / 2 + M / 2 = M := by omega
  by_cases heq : index = M / 2
  · subst heq
    cases child with
    | none =>
      refine ⟨⟨ps.take (M / 2), cs⟩, value, ⟨ps.drop (M / 2), []⟩, ?_, ?_, ?_, ?_, ?_, ?_, ?_⟩
      · simp [Node.insertSplit]
      · simp only [Node.pivots_mk]
        exact (insertIdx_eq_take_cons_drop value (by omega)).symm
      · simp only [Node.pivots_mk, List.length_take]
        omega
      · simp only [Node.pivots_mk, List.length_drop]
        omega
      · intro _
        simp
      · intro c hc
        cases hc
      · simp
    | some c =>
      refine ⟨⟨ps.take (M / 2), cs.take (M / 2 + 1)⟩, value,
        ⟨ps.drop (M / 2), c :: cs.drop (M / 2 + 1)⟩, ?_, ?_, ?_, ?_, ?_, ?_, ?_⟩
      · simp [Node.insertSplit]
      · simp only [Node.pivots_mk]
        exact (insertIdx_eq_take_cons_drop value (by omega)).symm
      · simp only [Node.pivots_mk, List.length_take]
        omega
      · simp only [Node.pivots_mk, List.length_drop]
        omega
      · intro hc
        cases hc
      · intro c' hc hcl
        cases hc
        simp only [Node.children_mk]
        refine ⟨(insertIdx_eq_take_cons_drop c (by omega)).symm, ?_, ?_⟩
        · simp only [List.length_take]
          omega
        · simp only [List.length_cons, List.length_drop]
          omega
      · simp
  · by_cases hlt : index < M / 2
    · -- index < m2: median is the original pivot at m2 - 1
      have hmid : ps.getD (M / 2 - 1) value = ps.getD (M / 2 - 1) default :=
        getD_default_eq (by omega) _ _
      have hpids : (ps.take (M / 2 - 1)).insertIdx index value ++
          ps.getD (M / 2 - 1) value :: ps.drop (M / 2) = ps.insertIdx index value := by
        have h1 : ps.getD (M / 2 - 1) value :: ps.drop (M / 2) = ps.drop (M / 2 - 1) := by
          have := getD_cons_drop (l := ps) (i := M / 2 - 1) (by omega) value
          rwa [show M / 2 - 1 + 1 = M / 2 by omega] at this
        rw [h1]
        exact take_insertIdx_append value (by omega) (by omega)
      have hlple : index ≤ (ps.take (M / 2 - 1)).length := by
        simp only [List.length_take]
        omega
      have hlplen : ((ps.take (M / 2 - 1)).insertIdx index value).length = M / 2 := by
        rw [List.length_insertIdx _ _ hlple]
        simp only [List.length_take]
        omega
      cases child with
      | none =>
        refine ⟨⟨(ps.take (M / 2 - 1)).insertIdx index value, cs⟩,
          ps.getD (M / 2 - 1) value, ⟨ps.drop (M / 2), []⟩, ?_, ?_, ?_, ?_, ?_, ?_, ?_⟩
        · rw [Node.insertSplit]
          simp only [Node.pivots_mk, Node.children_mk, if_neg heq, if_pos hlt]
        · simpa using hpids
        · simpa using hlplen
        · simp only [Node.pivots_mk, List.length_drop]
          omega
        · intro _
          simp
        · intro c hc
          cases hc
        · rw [if_neg heq, if_pos hlt]
          simpa using hmid
      | some c =>
        cases cs with
        | nil =>
          refine ⟨⟨(ps.take (M / 2 - 1)).insertIdx index value, []⟩,
            ps.getD (M / 2 - 1) value, ⟨ps.drop (M / 2), []⟩, ?_, ?_, ?_, ?_, ?_, ?_, ?_⟩
          · rw [Node.insertSplit]
            simp only [Node.pivots_mk, Node.children_mk, if_neg heq, if_pos hlt]
          · simpa using hpids
          · simpa using hlplen
          · simp only [Node.pivots_mk, List.length_drop]
            omega
          · intro hc
            cases hc
          · intro c' hc hcl
            exact absurd hcl (by simp)
          · rw [if_neg heq, if_pos hlt]
            simpa using hmid
        | cons hd tl =>
          refine ⟨⟨(ps.take (M / 2 - 1)).insertIdx index value,
            hd :: (tl.take (M / 2 - 1)).insertIdx index c⟩,
            ps.getD (M / 2 - 1) value,
            ⟨ps.drop (M / 2), tl.getD (M / 2 - 1) default :: tl.drop (M / 2)⟩,
            ?_, ?_, ?_, ?_, ?_, ?_, ?_⟩
          · rw [Node.insertSplit]
            simp only [Node.pivots_mk, Node.children_mk, if_neg heq, if_pos hlt]
          · simpa using hpids
          · simpa using hlplen
          · simp only [Node.pivots_mk, List.length_drop]
            omega
          · intro hc
            cases hc
          · intro c' hc hcl
            cases hc
            simp only [List.length_cons] at hcl
            have htl : tl.length = M := by omega
            have htle : index ≤ (tl.take (M / 2 - 1)).length := by
              simp only [List.length_take]
              omega
            refine ⟨?_, ?_, ?_⟩
            · simp only [Node.children_mk, List.cons_append, List.insertIdx_succ_cons]
              congr 1
              have h1 : tl.getD (M / 2 - 1) default :: tl.drop (M / 2) =
                  tl.drop (M / 2 - 1) := by
                have := getD_cons_drop (l := tl) (i := M / 2 - 1) (by omega) default
                rwa [show M / 2 - 1 + 1 = M / 2 by omega] at this
              rw [h1]
              exact take_insertIdx_append c (by omega) (by omega)
            · simp only [Node.children_mk, List.length_cons,
                List.length_insertIdx _ _ htle, List.length_take]
              omega
            · simp only [Node.children_mk, List.length_cons, List.length_drop]
              omega
          · rw [if_neg heq, if_pos hlt]
            simpa using hmid
    · -- index > m2: median is the original pivot at m2
      have hgt : M / 2 < index := by omega
      have hmid : ps.getD (M / 2) value = ps.getD (M / 2) default :=
        getD_default_eq (by omega) _ _
      have hpids : ps.take (M / 2) ++
          ps.getD (M / 2) value :: (ps.drop (M / 2 + 1)).insertIdx (index - (M / 2 + 1)) value =
          ps.insertIdx index value := by
        have h1 : ps.take (M / 2) ++ [ps.getD (M / 2) value] = ps.take (M / 2 + 1) :=
          take_append_getD (by omega) value
        rw [show ps.take (M / 2) ++
            ps.getD (M / 2) value :: (ps.drop (M / 2 + 1)).insertIdx (index - (M / 2 + 1)) value =
            (ps.take (M / 2) ++ [ps.getD (M / 2) value]) ++
              (ps.drop (M / 2 + 1)).insertIdx (index - (M / 2 + 1)) value by
          simp]
        rw [h1]
        exact append_insertIdx_drop value (by omega) (by omega)
      have hrple : index - (M / 2 + 1) ≤ (ps.drop (M / 2 + 1)).length := by
        simp only [List.length_drop]
        omega
      have hrplen : ((ps.drop (M / 2 + 1)).insertIdx (index - (M / 2 + 1)) value).length =
          M / 2 := by
        rw [List.length_insertIdx _ _ hrple]
        simp only [List.length_drop]
        omega
      cases child with
      | none =>
        refine ⟨⟨ps.take (M / 2), cs⟩, ps.getD (M / 2) value,
          ⟨(ps.drop (M / 2 + 1)).insertIdx (index - (M / 2 + 1)) value, []⟩,
          ?_, ?_, ?_, ?_, ?_, ?_, ?_⟩
        · rw [Node.insertSplit]
          simp only [Node.pivots_mk, Node.children_mk, if_neg heq, if_neg hlt]
        · simpa using hpids
        · simp only [Node.pivots_mk, List.length_take]
          omega
        · simpa using hrplen
        · intro _
          simp
        · intro c hc
          cases hc
        · rw [if_neg heq, if_neg hlt]
          simpa using hmid
      | some c =>
        cases cs with
        | nil =>
          refine ⟨⟨ps.take (M / 2), []⟩, ps.getD (M / 2) value,
            ⟨(ps.drop (M / 2 + 1)).insertIdx (index - (M / 2 + 1)) value, []⟩,
            ?_, ?_, ?_, ?_, ?_, ?_, ?_⟩
          · rw [Node.insertSplit]
            simp only [Node.pivots_mk, Node.children_mk, if_neg heq, if_neg hlt]
          · simpa using hpids
          · simp only [Node.pivots_mk, List.length_take]
            omega
          · simpa using hrplen
          · intro hc
            cases hc
          · intro c' hc hcl
            exact absurd hcl (by simp)
          · rw [if_neg heq, if_neg hlt]
            simpa using hmid
        | cons hd tl =>
          refine ⟨⟨ps.take (M / 2), hd :: tl.take (M / 2)⟩, ps.getD (M / 2) value,
            ⟨(ps.drop (M / 2 + 1)).insertIdx (index - (M / 2 + 1)) value,
             tl.getD (M / 2) default :: (tl.drop (M / 2 + 1)).insertIdx (index - (M / 2 + 1)) c⟩,
            ?_, ?_, ?_, ?_, ?_, ?_, ?_⟩
          · rw [Node.insertSplit]
            simp only [Node.pivots_mk, Node.children_mk, if_neg heq, if_neg hlt]
          · simpa using hpids
          · simp only [Node.pivots_mk, List.length_take]
            omega
          · simpa using hrplen
          · intro hc
            cases hc
          · intro c' hc hcl
            cases hc
            simp only [List.length_cons] at hcl
            have htl : tl.length = M := by omega
            have htle : index - (M / 2 + 1) ≤ (tl.drop (M / 2 + 1)).length := by
              simp only [List.length_drop]
              omega
            refine ⟨?_, ?_, ?_⟩
            · simp only [Node.children_mk, List.cons_append, List.insertIdx_succ_cons]
              congr 1
              have h1 : tl.take (M / 2) ++ [tl.getD (M / 2) default] = tl.take (M / 2 + 1) :=
                take_append_getD (by omega) default
              rw [show tl.take (M / 2) ++
                  tl.getD (M / 2) default :: (tl.drop (M / 2 + 1)).insertIdx (index - (M / 2 + 1)) c =
                  (tl.take (M / 2) ++ [tl.getD (M / 2) default]) ++
                    (tl.drop (M / 2 + 1)).insertIdx (index - (M / 2 + 1)) c by
                simp]
              rw [h1]
              exact append_insertIdx_drop c (by omega) (by omega)
            · simp only [Node.children_mk, List.length_cons, List.length_take]
              omega
            · simp only [Node.children_mk, List.length_cons,
                List.length_insertIdx _ _ htle, List.length_drop]
              omega
          · rw [if_neg heq, if_neg hlt]
            simpa using hmid

/-! ## Ordering helpers for the main inductions -/

theorem insKey_append_right [LinearOrder T] {v : T} {l B : List T}
    (hB : ∀ y ∈ B, v < y) : insKey v (l ++ B) = insKey v l ++ B := by
  induction l with
  | nil => simpa using insKey_of_forall_lt hB
  | cons x l' ih =>
    rw [List.cons_append, insKey, insKey]
    by_cases h1 : v < x
    · rw [if_pos h1, if_pos h1]
      rfl
    · by_cases h2 : x < v
      · rw [if_neg h1, if_pos h2, if_neg h1, if_pos h2, List.cons_append, ih]
      · rw [if_neg h1, if_neg h2, if_neg h1, if_neg h2]
        rfl

/-- Every element of a pivot-terminated interleaving is bounded by one of its
pivots. -/
theorem mem_inorder_le_last [LinearOrder T] {A : List (List T)} {pA : List T}
    (hlen : A.length = pA.length) (hs : (inorder A pA).Sorted (· < ·))
    {x : T} (hx : x ∈ inorder A pA) : ∃ p ∈ pA, x ≤ p := by
  induction A generalizing pA with
  | nil => simp at hx
  | cons a A' ih =>
    cases pA with
    | nil => simp at hlen
    | cons p pA' =>
      rw [inorder_cons_cons] at hx hs
      have hs' := List.pairwise_append.mp hs
      rcases List.mem_append.mp hx with hx | hx
      · exact ⟨p, by simp, le_of_lt (hs'.2.2 x hx p (by simp))⟩
      · rcases List.mem_cons.mp hx with rfl | hx
        · exact ⟨x, by simp, le_refl x⟩
        · obtain ⟨q, hq, hle⟩ := ih (by simpa using hlen) hs'.2.1.of_cons hx
          exact ⟨q, by simp [hq], hle⟩

/-- Every element of an `inorderSuffix` is bounded below by one of its
pivots. -/
theorem mem_inorderSuffix_ge_head [LinearOrder T] {B : List (List T)} {pB : List T}
    (hs : (inorderSuffix B pB).Sorted (· < ·))
    {x : T} (hx : x ∈ inorderSuffix B pB) : ∃ p ∈ pB, p ≤ x := by
  cases pB with
  | nil => simp at hx
  | cons p pB' =>
    rw [inorderSuffix_cons_right] at hx hs
    rcases List.mem_cons.mp hx with rfl | hx
    · exact ⟨x, by simp, le_refl x⟩
    · exact ⟨p, by simp, le_of_lt (List.rel_of_sorted_cons hs x hx)⟩

/-- Gluing two nodes and a median back into one traversal: if the pivot lists
and child lists concatenate to those of a combined node, the traversals do
too. -/
theorem Node.toList_glue {h : Nat} {l r : Node T} {mid : T}
    {Z : List (Node T)} {psZ : List T}
    (hp : l.pivots ++ mid :: r.pivots = psZ)
    (hc : l.children ++ r.children = Z)
    (hlc : l.children.length = l.pivots.length + 1) :
    Node.toList (h + 1) l ++ mid :: Node.toList (h + 1) r =
      Node.toList (h + 1) (.mk psZ Z) := by
  subst hp hc
  rw [Node.toList_succ, Node.toList_succ, Node.toList_succ]
  simp only [Node.children_mk, Node.pivots_mk, List.map_append]
  rw [inorder_glue (by simpa using hlc)]

theorem sorted_append_left [LinearOrder T] {X Y : List T}
    (hs : (X ++ Y).Sorted (· < ·)) : X.Sorted (· < ·) :=
  (List.pairwise_append.mp hs).1

theorem sorted_append_right [LinearOrder T] {X Y : List T}
    (hs : (X ++ Y).Sorted (· < ·)) : Y.Sorted (· < ·) :=
  (List.pairwise_append.mp hs).2.1

theorem sorted_append_rel [LinearOrder T] {X Y : List T}
    (hs : (X ++ Y).Sorted (· < ·)) : ∀ x ∈ X, ∀ y ∈ Y, x < y :=
  (List.pairwise_append.mp hs).2.2

theorem getD_mem {l : List T} {i : Nat} (h : i < l.length) (d : T) :
    l.getD i d ∈ l := by
  rw [List.getD_eq_getElem?_getD, List.getElem?_eq_getElem h]
  exact List.getElem_mem h

theorem append_eq_iff_take_drop {X Y Z : List T} (h : X ++ Y = Z) :
    X = Z.take X.length ∧ Y = Z.drop X.length := by
  subst h
  exact ⟨(List.take_left X Y).symm, (List.drop_left X Y).symm⟩

/-! ## Traversal identities for child updates during insert -/

/-- Replacing the child at position `i` by one whose traversal is
`insKey v` of the old child's traversal performs `insKey v` on the whole
node's traversal (the probe missed the pivots at insertion index `i`). -/
theorem Node.insert_set_toList [LinearOrder T] [Inhabited T] {s i : Nat}
    {ps : List T} {cs : List (Node T)} {v : T} {c c' : Node T}
    (hi : i ≤ ps.length) (hcl : cs.length = ps.length + 1)
    (hc : cs.getD i default = c)
    (hsorted : (Node.toList (s + 1) (.mk ps cs)).Sorted (· < ·))
    (htake : ∀ x ∈ ps.take i, x < v) (hdrop : ∀ x ∈ ps.drop i, v < x)
    (htl : Node.toList s c' = insKey v (Node.toList s c)) :
    Node.toList (s + 1) (.mk ps (cs.set i c')) =
      insKey v (Node.toList (s + 1) (.mk ps cs)) := by
  have hilt : i < cs.length := by omega
  have hA : (cs.take i).length = i := by
    simp only [List.length_take]
    omega
  have hcsplit : cs.take i ++ c :: cs.drop (i + 1) = cs := by
    rw [← hc]
    exact take_getD_drop hilt _
  have hdec : Node.toList (s + 1) (.mk ps cs) =
      inorder ((cs.take i).map (Node.toList s)) (ps.take i) ++
        Node.toList s c ++
        inorderSuffix ((cs.drop (i + 1)).map (Node.toList s)) (ps.drop i) := by
    conv_lhs => rw [← hcsplit]
    exact Node.toList_decomp hA hi
  have hsorted' := hsorted
  rw [hdec] at hsorted'
  have hsPre := sorted_append_left (sorted_append_left hsorted')
  have hsSuf := sorted_append_right hsorted'
  have hPre : ∀ x ∈ inorder ((cs.take i).map (Node.toList s)) (ps.take i), x < v := by
    intro x hx
    obtain ⟨q, hq, hle⟩ := mem_inorder_le_last
      (by simp only [List.length_map, List.length_take]; omega) hsPre hx
    exact lt_of_le_of_lt hle (htake q hq)
  have hSuf : ∀ y ∈ inorderSuffix ((cs.drop (i + 1)).map (Node.toList s)) (ps.drop i),
      v < y := by
    intro y hy
    obtain ⟨q, hq, hle⟩ := mem_inorderSuffix_ge_head hsSuf hy
    exact lt_of_lt_of_le (hdrop q hq) hle
  have hset : cs.set i c' = cs.take i ++ c' :: cs.drop (i + 1) :=
    set_eq_take_cons_drop c' hilt
  rw [hset, Node.toList_decomp hA hi, hdec, insKey_append_right hSuf,
    insKey_append_left hPre, htl]

/-- Inserting a propagated pivot `p` at index `i` together with its right
sibling `r` (child position `i + 1`) performs `insKey v` on the whole node's
traversal, given that the child's split satisfies
`c' ++ p :: r = insKey v c` at the traversal level. -/
theorem Node.insert_glue_toList [LinearOrder T] [Inhabited T] {s i : Nat}
    {ps : List T} {cs : List (Node T)} {v p : T} {c c' r : Node T}
    (hi : i ≤ ps.length) (hcl : cs.length = ps.length + 1)
    (hc : cs.getD i default = c)
    (hsorted : (Node.toList (s + 1) (.mk ps cs)).Sorted (· < ·))
    (htake : ∀ x ∈ ps.take i, x < v) (hdrop : ∀ x ∈ ps.drop i, v < x)
    (hglue : Node.toList s c' ++ p :: Node.toList s r = insKey v (Node.toList s c)) :
    Node.toList (s + 1) (.mk (ps.insertIdx i p) ((cs.set i c').insertIdx (i + 1) r)) =
      insKey v (Node.toList (s + 1) (.mk ps cs)) := by
  have hilt : i < cs.length := by omega
  have hA : (cs.take i).length = i := by
    simp only [List.length_take]
    omega
  have hAp : (ps.take i).length = i := by
    simp only [List.length_take]
    omega
  have hcsplit : cs.take i ++ c :: cs.drop (i + 1) = cs := by
    rw [← hc]
    exact take_getD_drop hilt _
  have hdec : Node.toList (s + 1) (.mk ps cs) =
      inorder ((cs.take i).map (Node.toList s)) (ps.take i) ++
        Node.toList s c ++
        inorderSuffix ((cs.drop (i + 1)).map (Node.toList s)) (ps.drop i) := by
    conv_lhs => rw [← hcsplit]
    exact Node.toList_decomp hA hi
  have hsorted' := hsorted
  rw [hdec] at hsorted'
  have hsPre := sorted_append_left (sorted_append_left hsorted')
  have hsSuf := sorted_append_right hsorted'
  have hPre : ∀ x ∈ inorder ((cs.take i).map (Node.toList s)) (ps.take i), x < v := by
    intro x hx
    obtain ⟨q, hq, hle⟩ := mem_inorder_le_last
      (by simp only [List.length_map, List.length_take]; omega) hsPre hx
    exact lt_of_le_of_lt hle (htake q hq)
  have hSuf : ∀ y ∈ inorderSuffix ((cs.drop (i + 1)).map (Node.toList s)) (ps.drop i),
      v < y := by
    intro y hy
    obtain ⟨q, hq, hle⟩ := mem_inorderSuffix_ge_head hsSuf hy
    exact lt_of_lt_of_le (hdrop q hq) hle
  have hset : cs.set i c' = cs.take i ++ c' :: cs.drop (i + 1) :=
    set_eq_take_cons_drop c' hilt
  have hZ : (cs.set i c').insertIdx (i + 1) r =
      cs.take i ++ c' :: r :: cs.drop (i + 1) := by
    rw [hset]
    have h1 : cs.take i ++ c' :: cs.drop (i + 1) =
        (cs.take i ++ [c']) ++ cs.drop (i + 1) := by simp
    rw [h1, insertIdx_eq_take_cons_drop r
      (by simp only [List.length_append, List.length_take, List.length_singleton]; omega),
      List.take_left' (by simp [hA]), List.drop_left' (by simp [hA])]
    simp
  have hps : ps.insertIdx i p = ps.take i ++ p :: ps.drop i :=
    insertIdx_eq_take_cons_drop p hi
  have hpslen : i < (ps.insertIdx i p).length := by
    rw [List.length_insertIdx _ _ hi]
    omega
  have htake' : (ps.insertIdx i p).take i = ps.take i := by
    rw [hps]
    exact List.take_left' hAp
  have hgetD : (ps.insertIdx i p).getD i default = p := by
    rw [hps, List.getD_append_right _ _ _ _ (by omega)]
    simp [hAp]
  have hdrop' : (ps.insertIdx i p).drop (i + 1) = ps.drop i := by
    rw [hps]
    have h1 : ps.take i ++ p :: ps.drop i = (ps.take i ++ [p]) ++ ps.drop i := by simp
    rw [h1]
    exact List.drop_left' (by simp [hAp])
  rw [hZ, Node.toList_decomp2 hA hpslen, htake', hgetD, hdrop', hdec,
    insKey_append_right hSuf, insKey_append_left hPre, ← hglue]
  simp [List.append_assoc]

theorem pivots_sublist_inorder {A : List (List T)} {pA : List T}
    (h : pA.length < A.length) : List.Sublist pA (inorder A pA) := by
  induction A generalizing pA with
  | nil => simp at h
  | cons c A' ih =>
    cases pA with
    | nil => simp
    | cons p pA' =>
      rw [inorder_cons_cons]
      exact ((ih (by simpa using h)).cons₂ p).trans (List.sublist_append_right c _)

/-- The pivot slice of an internal node is sorted whenever its traversal is. -/
theorem sorted_pivots_of_sorted_toList [LinearOrder T] {s : Nat} {ps : List T}
    {cs : List (Node T)} (hlen : ps.length < cs.length)
    (hs : (Node.toList (s + 1) (.mk ps cs)).Sorted (· < ·)) :
    ps.Sorted (· < ·) := by
  rw [Node.toList_succ] at hs
  exact List.Pairwise.sublist
    (pivots_sublist_inorder (by simpa using hlen)) hs

/-! ## Insert specification -/

/-- Main contract of `NodeArray::insert`, by induction on the height.  On
`Done` the node keeps its balance, gains at most one pivot, and its traversal
becomes `insKey v` of the old traversal.  On `Propagate` the node was full
(`len = M`); the two resulting nodes hold `M/2` pivots each, are balanced, and
their traversals glued around the median equal `insKey v` of the old
traversal. -/
theorem Node.insert_spec [LinearOrder T] [Inhabited T] {M : Nat}
    (hM : 2 ≤ M) (hEv : M % 2 = 0) :
    ∀ (h : Nat) (v : T) (n : Node T),
      Node.balanced M h n →
      (Node.toList h n).Sorted (· < ·) →
      n.len ≤ M →
      (0 < h → 0 < n.len) →
      (∀ n', Node.insert M v h n = (n', .done) →
        Node.balanced M h n' ∧ n.len ≤ n'.len ∧ n'.len ≤ n.len + 1 ∧ n'.len ≤ M ∧
        Node.toList h n' = insKey v (Node.toList h n)) ∧
      (∀ n' p r, Node.insert M v h n = (n', .propagate p r) →
        n.len = M ∧ n'.len = M / 2 ∧ r.len = M / 2 ∧
        Node.balanced M h n' ∧ Node.balanced M h r ∧
        Node.toList h n' ++ p :: Node.toList h r = insKey v (Node.toList h n)) := by
  intro h
  induction h with
  | zero =>
    intro v n hb hs hle _
    obtain ⟨ps, cs⟩ := n
    rw [Node.balanced_zero] at hb
    simp only [Node.children_mk] at hb
    subst hb
    simp only [Node.toList_zero, Node.pivots_mk, Node.len_mk] at hs hle ⊢
    rcases hbs : bsearch v ps with i | i
    · -- exact match at the leaf: overwrite in place
      obtain ⟨hfi, hget, htake, hdrop⟩ := bsearch_found_spec hs hbs
      have hsetid : ps.set i v = ps := set_of_getElem?_eq hget
      have hpsplit : ps.take i ++ v :: ps.drop (i + 1) = ps := by
        have := take_getD_drop hfi v
        rwa [getD_eq_of_getElem?_eq hget] at this
      have hrepl : insKey v ps = ps := by
        conv_lhs => rw [← hpsplit]
        rw [insKey_replace htake, hpsplit]
      constructor
      · intro n' heq
        simp only [Node.insert, Node.pivots_mk, Node.children_mk, hbs] at heq
        obtain ⟨rfl, -⟩ := Prod.mk.injEq .. |>.mp heq
        rw [hsetid]
        exact ⟨by rw [Node.balanced_zero]; rfl, by simp [Node.len],
          by simp [Node.len], by simpa [Node.len] using hle, by simp [hrepl]⟩
      · intro n' p r heq
        simp only [Node.insert, Node.pivots_mk, Node.children_mk, hbs] at heq
        simp at heq
    · -- miss at the leaf: insert here, splitting when full
      obtain ⟨hi, htake, hdrop⟩ := bsearch_missed_spec hs hbs
      have hkey : insKey v ps = ps.take i ++ v :: ps.drop i := by
        conv_lhs => rw [← List.take_append_drop i ps]
        exact insKey_middle htake hdrop
      by_cases hfull : ps.length = M
      · obtain ⟨n2, mid, right, heq2, hpids, hl2, hr2, hnone, _, -⟩ :=
          @Node.insertSplit_spec T _ M i v none (Node.mk ps [])
            hM hEv (by simpa using hfull) (by omega)
        obtain ⟨hch2, hchr⟩ := hnone rfl
        constructor
        · intro n' heq
          simp only [Node.insert, Node.pivots_mk, Node.children_mk, hbs,
            if_pos hfull] at heq
          rw [heq2] at heq
          simp at heq
        · intro n' p r heq
          simp only [Node.insert, Node.pivots_mk, Node.children_mk, hbs,
            if_pos hfull] at heq
          rw [heq2] at heq
          obtain ⟨h1, h2⟩ := Prod.mk.injEq .. |>.mp heq
          obtain ⟨rfl, rfl⟩ : mid = p ∧ right = r := by
            cases h2
            exact ⟨rfl, rfl⟩
          subst h1
          refine ⟨hfull, by simpa [Node.len] using hl2, by simpa [Node.len] using hr2,
            ?_, ?_, ?_⟩
          · rw [Node.balanced_zero, hch2]
            exact Node.children_mk ps []
          · rw [Node.balanced_zero, hchr]
          · show n2.pivots ++ mid :: right.pivots = insKey v ps
            rw [hpids, hkey]
            simp only [Node.pivots_mk]
            exact insertIdx_eq_take_cons_drop v (by omega)
      · constructor
        · intro n' heq
          simp only [Node.insert, Node.pivots_mk, Node.children_mk, hbs,
            if_neg hfull] at heq
          obtain ⟨rfl, -⟩ := Prod.mk.injEq .. |>.mp heq
          have hlen' : (ps.insertIdx i v).length = ps.length + 1 :=
            List.length_insertIdx _ _ (by omega)
          refine ⟨by rw [Node.balanced_zero]; rfl, by simp [Node.len, hlen'],
            by simp [Node.len, hlen'], by simp [Node.len, hlen']; omega, ?_⟩
          simp only [Node.toList_zero, Node.pivots_mk]
          rw [hkey]
          exact insertIdx_eq_take_cons_drop v (by omega)
        · intro n' p r heq
          simp only [Node.insert, Node.pivots_mk, Node.children_mk, hbs,
            if_neg hfull] at heq
          simp at heq
  | succ s IH =>
    intro v n hb hs hle hpos
    obtain ⟨ps, cs⟩ := n
    have hcl : cs.length = ps.length + 1 := by
      simpa using Node.balanced_children_length hb
    have hps_pos : 0 < ps.length := by simpa [Node.len] using hpos (by omega)
    simp only [Node.len_mk] at hle
    have hsp : ps.Sorted (· < ·) := sorted_pivots_of_sorted_toList (by omega) hs
    rcases hbs : bsearch v ps with i | i
    · -- exact match at an internal node: overwrite the pivot in place
      obtain ⟨hfi, hget, -, -⟩ := bsearch_found_spec hsp hbs
      have hsetid : ps.set i v = ps := set_of_getElem?_eq hget
      have hilt : i < cs.length := by omega
      have hA : (cs.take i).length = i := by
        simp only [List.length_take]
        omega
      have hcsplit : cs.take i ++ cs.getD i default :: cs.drop (i + 1) = cs :=
        take_getD_drop hilt _
      have hvdrop : ps.drop i = v :: ps.drop (i + 1) := by
        have h1 := List.drop_eq_getElem_cons hfi
        have h2 : ps[i] = v := by
          have h3 := hget
          rw [List.getElem?_eq_getElem hfi] at h3
          exact Option.some.inj h3
        rw [h1, h2]
      have hdec : Node.toList (s + 1) (.mk ps cs) =
          inorder ((cs.take i).map (Node.toList s)) (ps.take i) ++
            Node.toList s (cs.getD i default) ++
            inorderSuffix ((cs.drop (i + 1)).map (Node.toList s)) (ps.drop i) := by
        conv_lhs => rw [← hcsplit]
        exact Node.toList_decomp hA (by omega)
      have hshape : Node.toList (s + 1) (.mk ps cs) =
          (inorder ((cs.take i).map (Node.toList s)) (ps.take i) ++
            Node.toList s (cs.getD i default)) ++
            v :: inorder ((cs.drop (i + 1)).map (Node.toList s)) (ps.drop (i + 1)) := by
        rw [hdec, hvdrop]
        simp [List.append_assoc]
      have hrepl : insKey v (Node.toList (s + 1) (.mk ps cs)) =
          Node.toList (s + 1) (.mk ps cs) := by
        conv_rhs => rw [hshape]
        rw [hshape]
        refine insKey_replace ?_
        intro x hx
        have hs2 := hs
        rw [hshape] at hs2
        exact sorted_append_rel hs2 x hx v (by simp)
      constructor
      · intro n' heq
        simp only [Node.insert, Node.pivots_mk, Node.children_mk, hbs] at heq
        obtain ⟨rfl, -⟩ := Prod.mk.injEq .. |>.mp heq
        rw [hsetid]
        exact ⟨hb, le_refl _, Nat.le_succ _, hle, hrepl.symm⟩
      · intro n' p r heq
        simp only [Node.insert, Node.pivots_mk, Node.children_mk, hbs] at heq
        simp at heq
    · -- miss: recurse into child i
      obtain ⟨hi, htake, hdropb⟩ := bsearch_missed_spec hsp hbs
      have hilt : i < cs.length := by omega
      set c := cs.getD i default with hc
      have hcmem : c ∈ cs := getD_mem hilt _
      obtain ⟨hclb, hcub, hcbal⟩ := hb.2 c hcmem
      have hA : (cs.take i).length = i := by
        simp only [List.length_take]
        omega
      have hcsplit : cs.take i ++ c :: cs.drop (i + 1) = cs := take_getD_drop hilt _
      have hdec : Node.toList (s + 1) (.mk ps cs) =
          inorder ((cs.take i).map (Node.toList s)) (ps.take i) ++
            Node.toList s c ++
            inorderSuffix ((cs.drop (i + 1)).map (Node.toList s)) (ps.drop i) := by
        conv_lhs => rw [← hcsplit]
        exact Node.toList_decomp hA (by omega)
      have hs' := hs
      rw [hdec] at hs'
      have hsc : (Node.toList s c).Sorted (· < ·) :=
        sorted_append_right (sorted_append_left hs')
      have IHc := IH v c hcbal hsc hcub (fun _ => by omega)
      rcases hrec : Node.insert M v s c with ⟨c', res⟩
      cases res with
      | done =>
        obtain ⟨hbc', hl1, hl2, hlM, htl⟩ := IHc.1 c' hrec
        constructor
        · intro n' heq
          simp only [Node.insert, Node.pivots_mk, Node.children_mk, hbs, hrec] at heq
          obtain ⟨rfl, -⟩ := Prod.mk.injEq .. |>.mp heq
          refine ⟨⟨by simp [Node.len, hcl], ?_⟩, by simp [Node.len],
            by simp [Node.len], by simpa [Node.len] using hle, ?_⟩
          · intro x hx
            rcases List.mem_or_eq_of_mem_set (by simpa using hx) with hx | rfl
            · exact hb.2 x hx
            · exact ⟨by omega, hlM, hbc'⟩
          · exact Node.insert_set_toList hi hcl hc.symm hs htake hdropb htl
        · intro n' p r heq
          simp only [Node.insert, Node.pivots_mk, Node.children_mk, hbs, hrec] at heq
          simp at heq
      | propagate p0 r0 =>
        obtain ⟨hcfull, hc'len, hr0len, hbc', hbr0, hglue⟩ := IHc.2 c' p0 r0 hrec
        have htoZ := Node.insert_glue_toList (s := s) (v := v)
          hi hcl hc.symm hs htake hdropb hglue
        have hsetZ : cs.set i c' = cs.take i ++ c' :: cs.drop (i + 1) :=
          set_eq_take_cons_drop c' hilt
        have hZ : (cs.set i c').insertIdx (i + 1) r0 =
            cs.take i ++ c' :: r0 :: cs.drop (i + 1) := by
          rw [hsetZ]
          have h1 : cs.take i ++ c' :: cs.drop (i + 1) =
              (cs.take i ++ [c']) ++ cs.drop (i + 1) := by simp
          rw [h1, insertIdx_eq_take_cons_drop r0
            (by simp only [List.length_append, List.length_take, List.length_singleton]; omega),
            List.take_left' (by simp [hA]), List.drop_left' (by simp [hA])]
          simp
        have hZmem : ∀ x ∈ (cs.set i c').insertIdx (i + 1) r0,
            M / 2 ≤ x.len ∧ x.len ≤ M ∧ Node.balanced M s x := by
          intro x hx
          rw [hZ] at hx
          rcases List.mem_append.mp hx with hx | hx
          · exact hb.2 x (List.mem_of_mem_take hx)
          · rcases List.mem_cons.mp hx with rfl | hx
            · exact ⟨by omega, by omega, hbc'⟩
            · rcases List.mem_cons.mp hx with rfl | hx
              · exact ⟨by omega, by omega, hbr0⟩
              · exact hb.2 x (List.mem_of_mem_drop hx)
        have hZlen : ((cs.set i c').insertIdx (i + 1) r0).length = ps.length + 2 := by
          rw [List.length_insertIdx _ _ (by simp only [List.length_set]; omega)]
          simp [hcl]
        by_cases hfull : ps.length = M
        · obtain ⟨n2, mid, right, heq2, hpids2, hl2, hr2, -, hsome2, -⟩ :=
            @Node.insertSplit_spec T _ M i p0 (some r0) (Node.mk ps (cs.set i c'))
              hM hEv (by simpa using hfull) (by omega)
          obtain ⟨hcid, hc2l, hcrl⟩ := hsome2 r0 rfl (by simp [hcl, hfull])
          simp only [Node.children_mk] at hcid hc2l hcrl
          constructor
          · intro n' heq
            simp only [Node.insert, Node.pivots_mk, Node.children_mk, hbs, hrec,
              hfull, if_pos] at heq
            rw [heq2] at heq
            simp at heq
          · intro n' p r heq
            simp only [Node.insert, Node.pivots_mk, Node.children_mk, hbs, hrec,
              hfull, if_pos] at heq
            rw [heq2] at heq
            obtain ⟨h1, h2⟩ := Prod.mk.injEq .. |>.mp heq
            obtain ⟨rfl, rfl⟩ : mid = p ∧ right = r := by
              cases h2
              exact ⟨rfl, rfl⟩
            subst h1
            obtain ⟨hn2take, hrdrop⟩ := append_eq_iff_take_drop hcid
            refine ⟨by simpa [Node.len] using hfull, by simpa [Node.len] using hl2,
              by simpa [Node.len] using hr2, ?_, ?_, ?_⟩
            · refine ⟨by simp [Node.len, hc2l, hl2], ?_⟩
              intro x hx
              rw [hn2take] at hx
              exact hZmem x (List.mem_of_mem_take hx)
            · refine ⟨by simp [Node.len, hcrl, hr2], ?_⟩
              intro x hx
              rw [hrdrop] at hx
              exact hZmem x (List.mem_of_mem_drop hx)
            · have hglue2 := @Node.toList_glue T s n2 right mid
                ((cs.set i c').insertIdx (i + 1) r0) (ps.insertIdx i p0)
                (by simpa using hpids2) hcid (by simp [hc2l, hl2])
              rw [hglue2, htoZ]
        · have hne : cs.set i c' ≠ [] := by
            intro h0
            have : (cs.set i c').length = 0 := by rw [h0]; rfl
            simp [hcl] at this
          obtain ⟨hd, tl, hhdtl⟩ := List.exists_cons_of_ne_nil hne
          have hmatch : (hd :: tl.insertIdx i r0) = (cs.set i c').insertIdx (i + 1) r0 := by
            rw [hhdtl]
            rfl
          constructor
          · intro n' heq
            simp only [Node.insert, Node.pivots_mk, Node.children_mk, hbs, hrec,
              hfull, if_neg, hhdtl] at heq
            obtain ⟨rfl, -⟩ := Prod.mk.injEq .. |>.mp heq
            rw [hmatch]
            have hlen' : (ps.insertIdx i p0).length = ps.length + 1 :=
              List.length_insertIdx _ _ hi
            refine ⟨⟨by simp [Node.len, hZlen, hlen'], ?_⟩, by simp [Node.len, hlen'],
              by simp [Node.len, hlen'], by simp [Node.len, hlen']; omega, ?_⟩
            · intro x hx
              exact hZmem x (by simpa using hx)
            · exact htoZ
          · intro n' p r heq
            simp only [Node.insert, Node.pivots_mk, Node.children_mk, hbs, hrec,
              hfull, if_neg, hhdtl] at heq
            simp at heq

/-! ## Adjacent update helpers for the repair step -/

theorem take_getD_getD_drop {l : List T} {j : Nat} (h : j + 1 < l.length) (d : T) :
    l.take j ++ l.getD j d :: l.getD (j + 1) d :: l.drop (j + 2) = l := by
  have h1 : l.getD (j + 1) d :: l.drop (j + 2) = l.drop (j + 1) := getD_cons_drop h d
  rw [h1]
  exact take_getD_drop (by omega) d

theorem set_set_adjacent {l : List T} {j : Nat} (a b : T) (h : j + 1 < l.length) :
    (l.set j a).set (j + 1) b = l.take j ++ a :: b :: l.drop (j + 2) := by
  have hA : (l.take j).length = j := by
    simp only [List.length_take]
    omega
  rw [set_eq_take_cons_drop a (by omega), List.set_append_right _ _ (by omega)]
  have h2 : l.drop (j + 1) = l.getD (j + 1) b :: l.drop (j + 2) := (getD_cons_drop h b).symm
  rw [h2]
  simp [hA, show j + 1 - j = 1 from by omega]

theorem erase_set_adjacent {l : List T} {j : Nat} (m : T) (h : j + 1 < l.length) :
    (l.eraseIdx (j + 1)).set j m = l.take j ++ m :: l.drop (j + 2) := by
  have hA : (l.take j).length = j := by
    simp only [List.length_take]
    omega
  rw [List.eraseIdx_eq_take_drop_succ,
    ← take_append_getD (l := l) (i := j) (by omega) m, List.append_assoc,
    List.set_append_right _ _ (by omega)]
  simp [hA]

theorem getD_eq_getElem' {l : List T} {i : Nat} (h : i < l.length) (d : T) :
    l.getD i d = l[i] := by
  rw [List.getD_eq_getElem?_getD, List.getElem?_eq_getElem h]
  rfl

theorem getD_take {l : List T} {k m : Nat} (hmk : m < k) (d : T) :
    (l.take k).getD m d = l.getD m d := by
  rw [List.getD_eq_getElem?_getD, List.getD_eq_getElem?_getD,
    List.getElem?_take_of_lt hmk]

theorem getD_drop {l : List T} {k m : Nat} (d : T) :
    (l.drop k).getD m d = l.getD (k + m) d := by
  induction k generalizing l with
  | zero => simp
  | succ k' ih =>
    cases l with
    | nil => simp
    | cons x xs =>
      rw [List.drop_succ_cons, ih, show k' + 1 + m = (k' + m) + 1 by omega,
        List.getD_cons_succ]

/-- Transport an index-wise property of a child array to the members of its
prefix before the excluded index. -/
theorem mem_take_of_indexed {P : Node T → Prop} {cs : List (Node T)} {i k : Nat}
    (hlow : ∀ j, j < cs.length → j ≠ i → P (cs.getD j default)) (hk : k ≤ i) :
    ∀ x ∈ cs.take k, P x := by
  intro x hx
  obtain ⟨m, hm, hget⟩ := List.getElem_of_mem hx
  have hmk : m < k := by
    have := hm
    simp only [List.length_take] at this
    omega
  have hml : m < cs.length := by
    have := hm
    simp only [List.length_take] at this
    omega
  have h1 : (cs.take k).getD m default = x := by
    rw [getD_eq_getElem' hm]
    exact hget
  rw [getD_take hmk] at h1
  rw [← h1]
  exact hlow m hml (by omega)

/-- Transport an index-wise property of a child array to the members of its
suffix after the excluded index. -/
theorem mem_drop_of_indexed {P : Node T → Prop} {cs : List (Node T)} {i k : Nat}
    (hlow : ∀ j, j < cs.length → j ≠ i → P (cs.getD j default)) (hk : i < k) :
    ∀ x ∈ cs.drop k, P x := by
  intro x hx
  obtain ⟨m, hm, hget⟩ := List.getElem_of_mem hx
  have hml : k + m < cs.length := by
    have := hm
    simp only [List.length_drop] at this
    omega
  have h1 : (cs.drop k).getD m default = x := by
    rw [getD_eq_getElem' hm]
    exact hget
  rw [getD_drop] at h1
  rw [← h1]
  exact hlow (k + m) hml (by omega)

theorem append_mid_assoc (A B C D : List T) (p : T) :
    A ++ B ++ p :: (C ++ D) = A ++ ((B ++ p :: C) ++ D) := by
  simp [List.append_assoc]

/-- Contract of the left-neighbor repair (`rotate_right` or merge into the
left sibling) for an underflowed child at tail index `j` (child position
`j + 1`): the traversal is preserved exactly, balance is restored, and the
result reports `Underflow` exactly when the pivot count dropped below `M/2`
after a merge. -/
theorem Node.repairLeft_spec [LinearOrder T] [Inhabited T] {M h : Nat}
    (hM : 2 ≤ M) (hEv : M % 2 = 0) {ps : List T} {cs : List (Node T)} {j : Nat} {v : T}
    (hcl : cs.length = ps.length + 1)
    (hj : j + 1 ≤ ps.length)
    (hall : ∀ x ∈ cs, x.len ≤ M ∧ Node.balanced M h x)
    (hlow : ∀ k, k < cs.length → k ≠ j + 1 → M / 2 ≤ (cs.getD k default).len)
    (hchild : (cs.getD (j + 1) default).len = M / 2 - 1) :
    ∃ n' rr, Node.repairLeft M (h + 1) (.mk ps cs) j v = (n', some rr) ∧
      rr.val = v ∧
      Node.toList (h + 1) n' = Node.toList (h + 1) (.mk ps cs) ∧
      Node.balanced M (h + 1) n' ∧
      (n'.len = ps.length ∨ n'.len + 1 = ps.length) ∧
      (∀ w, rr = .done w → n'.len = ps.length ∨ M / 2 ≤ n'.len) ∧
      (∀ w, rr = .underflow w → n'.len + 1 = ps.length ∧ n'.len < M / 2) := by
  have hm2 : 1 ≤ M / 2 := by omega
  have hjc : j + 1 < cs.length := by omega
  have hjp : j < ps.length := by omega
  have hA : (cs.take j).length = j := by
    simp only [List.length_take]
    omega
  obtain ⟨hprevM, hprevbal⟩ := hall _ (getD_mem (l := cs) (i := j) (by omega) default)
  have hCbal := (hall _ (getD_mem (l := cs) (i := j + 1) hjc default)).2
  have hprevlow : M / 2 ≤ (cs.getD j default).len := hlow j (by omega) (by omega)
  have hcs2 : cs.take j ++ cs.getD j default :: cs.getD (j + 1) default ::
      cs.drop (j + 2) = cs := take_getD_getD_drop hjc default
  have hdec_orig : Node.toList (h + 1) (.mk ps cs) =
      inorder ((cs.take j).map (Node.toList h)) (ps.take j) ++
        Node.toList h (cs.getD j default) ++
        ps.getD j default ::
          (Node.toList h (cs.getD (j + 1) default) ++
            inorderSuffix ((cs.drop (j + 2)).map (Node.toList h)) (ps.drop (j + 1))) := by
    conv_lhs => rw [← hcs2]
    exact Node.toList_decomp2 hA hjp
  by_cases hrot : M / 2 < (cs.getD j default).len
  · -- rotate right through the left neighbor
    obtain ⟨l', p', r', heqrot, htl, hll', hrl', hbl', hbr'⟩ :=
      @Node.rotateRight_spec T M h (cs.getD j default) (cs.getD (j + 1) default)
        (ps.getD j default) hM hprevbal hCbal hrot hchild
    refine ⟨⟨ps.set j p', (cs.set j l').set (j + 1) r'⟩, .done v, ?_, rfl, ?_, ?_, ?_, ?_, ?_⟩
    · simp only [Node.repairLeft, Node.children_mk, Node.pivots_mk, if_pos hrot]
      rw [heqrot]
    · have hpsM : ps.set j p' = ps.take j ++ p' :: ps.drop (j + 1) :=
        set_eq_take_cons_drop p' hjp
      have htk : (ps.set j p').take j = ps.take j := by
        rw [hpsM]
        exact List.take_left' (by simp only [List.length_take]; omega)
      have hgd : (ps.set j p').getD j default = p' := by
        rw [hpsM, List.getD_append_right _ _ _ _ (by simp only [List.length_take]; omega)]
        simp only [List.length_take]
        rw [show j - min j ps.length = 0 from by omega]
        exact List.getD_cons_zero
      have hdp : (ps.set j p').drop (j + 1) = ps.drop (j + 1) := by
        rw [hpsM]
        have h1 : ps.take j ++ p' :: ps.drop (j + 1) =
            (ps.take j ++ [p']) ++ ps.drop (j + 1) := by simp
        rw [h1]
        exact List.drop_left' (by simp only [List.length_append, List.length_take,
          List.length_singleton]; omega)
      have hcsM : (cs.set j l').set (j + 1) r' =
          cs.take j ++ l' :: r' :: cs.drop (j + 2) := set_set_adjacent l' r' hjc
      have hdec_new : Node.toList (h + 1)
          (.mk (ps.set j p') ((cs.set j l').set (j + 1) r')) =
          inorder ((cs.take j).map (Node.toList h)) (ps.take j) ++
            Node.toList h l' ++
            p' :: (Node.toList h r' ++
              inorderSuffix ((cs.drop (j + 2)).map (Node.toList h)) (ps.drop (j + 1))) := by
        conv_lhs => rw [hcsM]
        have hd := @Node.toList_decomp2 T _ (cs.take j) (cs.drop (j + 2))
          l' r' (ps.set j p') h j
          hA (by simp only [List.length_set]; omega)
        rw [hd, htk, hgd, hdp]
      rw [hdec_new, hdec_orig, append_mid_assoc, append_mid_assoc, htl]
    · refine ⟨by simp [Node.len, hcl], ?_⟩
      intro x hx
      simp only [Node.children_mk] at hx
      rw [set_set_adjacent l' r' hjc] at hx
      rcases List.mem_append.mp hx with hx | hx
      · exact ⟨mem_take_of_indexed (P := fun c => M / 2 ≤ c.len) (i := j + 1) (k := j) hlow (by omega) x hx,
          (hall x (List.mem_of_mem_take hx)).1, (hall x (List.mem_of_mem_take hx)).2⟩
      · rcases List.mem_cons.mp hx with rfl | hx
        · exact ⟨by omega, by omega, hbl'⟩
        · rcases List.mem_cons.mp hx with rfl | hx
          · exact ⟨by omega, by omega, hbr'⟩
          · exact ⟨mem_drop_of_indexed (P := fun c => M / 2 ≤ c.len) (i := j + 1) (k := j + 2) hlow (by omega) x hx,
              (hall x (List.mem_of_mem_drop hx)).1, (hall x (List.mem_of_mem_drop hx)).2⟩
    · left
      simp [Node.len]
    · intro w _
      left
      simp [Node.len]
    · intro w hw
      cases hw
  · -- merge into the left neighbor
    have hprevexact : (cs.getD j default).len = M / 2 := by omega
    obtain ⟨htlm, hlenm, hbalm⟩ := Node.mergeRight_spec (p := ps.getD j default)
      (M := M) (h := h) hprevbal hCbal
    have hpe : ps.eraseIdx j = ps.take j ++ ps.drop (j + 1) :=
      List.eraseIdx_eq_take_drop_succ ps j
    have hce : (cs.eraseIdx (j + 1)).set j
        (Node.mergeRight M (h + 1) (cs.getD j default) (ps.getD j default)
          (cs.getD (j + 1) default)) =
        cs.take j ++ (Node.mergeRight M (h + 1) (cs.getD j default) (ps.getD j default)
          (cs.getD (j + 1) default)) :: cs.drop (j + 2) :=
      erase_set_adjacent _ hjc
    have hL : (ps.eraseIdx j).length = ps.length - 1 := List.length_eraseIdx_of_lt hjp
    have htk : (ps.eraseIdx j).take j = ps.take j := by
      rw [hpe]
      exact List.take_left' (by simp only [List.length_take]; omega)
    have hdp : (ps.eraseIdx j).drop j = ps.drop (j + 1) := by
      rw [hpe]
      exact List.drop_left' (by simp only [List.length_take]; omega)
    have hdec_new : Node.toList (h + 1) (.mk (ps.eraseIdx j)
        ((cs.eraseIdx (j + 1)).set j
          (Node.mergeRight M (h + 1) (cs.getD j default) (ps.getD j default)
            (cs.getD (j + 1) default)))) =
        inorder ((cs.take j).map (Node.toList h)) (ps.take j) ++
          (Node.toList h (cs.getD j default) ++
            ps.getD j default :: Node.toList h (cs.getD (j + 1) default)) ++
          inorderSuffix ((cs.drop (j + 2)).map (Node.toList h)) (ps.drop (j + 1)) := by
      conv_lhs => rw [hce]
      have hd := @Node.toList_decomp T (cs.take j) (cs.drop (j + 2))
        (Node.mergeRight M (h + 1) (cs.getD j default) (ps.getD j default)
          (cs.getD (j + 1) default)) (ps.eraseIdx j) h j
        hA (by omega)
      rw [hd, htk, hdp, htlm]
    have hbal' : Node.balanced M (h + 1) (.mk (ps.eraseIdx j)
        ((cs.eraseIdx (j + 1)).set j
          (Node.mergeRight M (h + 1) (cs.getD j default) (ps.getD j default)
            (cs.getD (j + 1) default)))) := by
      refine ⟨?_, ?_⟩
      · rw [Node.children_mk, hce]
        simp only [Node.len_mk, List.length_append, List.length_cons,
          List.length_take, List.length_drop, hL]
        omega
      · intro x hx
        simp only [Node.children_mk] at hx
        rw [hce] at hx
        rcases List.mem_append.mp hx with hx | hx
        · exact ⟨mem_take_of_indexed (P := fun c => M / 2 ≤ c.len) (i := j + 1) (k := j) hlow (by omega) x hx,
            (hall x (List.mem_of_mem_take hx)).1, (hall x (List.mem_of_mem_take hx)).2⟩
        · rcases List.mem_cons.mp hx with rfl | hx
          · exact ⟨by omega, by omega, hbalm (by omega)⟩
          · exact ⟨mem_drop_of_indexed (P := fun c => M / 2 ≤ c.len) (i := j + 1) (k := j + 2) hlow (by omega) x hx,
              (hall x (List.mem_of_mem_drop hx)).1, (hall x (List.mem_of_mem_drop hx)).2⟩
    have htolist : Node.toList (h + 1) (.mk (ps.eraseIdx j)
        ((cs.eraseIdx (j + 1)).set j
          (Node.mergeRight M (h + 1) (cs.getD j default) (ps.getD j default)
            (cs.getD (j + 1) default)))) =
        Node.toList (h + 1) (.mk ps cs) := by
      rw [hdec_new, hdec_orig, append_mid_assoc]
      simp [List.append_assoc]
    by_cases hund : (ps.eraseIdx j).length < M / 2
    · refine ⟨_, .underflow v, ?_, rfl, htolist, hbal', ?_, ?_, ?_⟩
      · simp only [Node.repairLeft, Node.children_mk, Node.pivots_mk, if_neg hrot,
          Node.len_mk]
        rw [if_pos hund]
      · right
        simp only [Node.len_mk]
        omega
      · intro w hw
        cases hw
      · intro w _
        exact ⟨by simp only [Node.len_mk]; omega, by simpa [Node.len] using hund⟩
    · refine ⟨_, .done v, ?_, rfl, htolist, hbal', ?_, ?_, ?_⟩
      · simp only [Node.repairLeft, Node.children_mk, Node.pivots_mk, if_neg hrot,
          Node.len_mk]
        rw [if_neg hund]
      · right
        simp only [Node.len_mk]
        omega
      · intro w _
        right
        simp only [Node.len_mk]
        omega
      · intro w hw
        cases hw

/-- Contract of the whole underflow repair for a child at array position `i`:
at `i = 0` only the right neighbor is considered (rotate-left, else merge);
at `i = j + 1` the right neighbor is tried first (rotate-left), then the left
(rotate-right, else merge into the left).  The traversal is preserved exactly;
balance is restored; `Underflow` is reported iff the node dropped below
`M/2` pivots after a merge. -/
theorem Node.repair_spec [LinearOrder T] [Inhabited T] {M h : Nat}
    (hM : 2 ≤ M) (hEv : M % 2 = 0) {ps : List T} {cs : List (Node T)} {i : Nat} {v : T}
    (hcl : cs.length = ps.length + 1)
    (hplen : 1 ≤ ps.length)
    (hi : i ≤ ps.length)
    (hall : ∀ x ∈ cs, x.len ≤ M ∧ Node.balanced M h x)
    (hlow : ∀ k, k < cs.length → k ≠ i → M / 2 ≤ (cs.getD k default).len)
    (hchild : (cs.getD i default).len = M / 2 - 1) :
    ∃ n' rr, Node.repair M (h + 1) (.mk ps cs) i v = (n', some rr) ∧
      rr.val = v ∧
      Node.toList (h + 1) n' = Node.toList (h + 1) (.mk ps cs) ∧
      Node.balanced M (h + 1) n' ∧
      (n'.len = ps.length ∨ n'.len + 1 = ps.length) ∧
      (∀ w, rr = .done w → n'.len = ps.length ∨ M / 2 ≤ n'.len) ∧
      (∀ w, rr = .underflow w → n'.len + 1 = ps.length ∧ n'.len < M / 2) := by
  have hm2 : 1 ≤ M / 2 := by omega
  cases i with
  | zero =>
    obtain ⟨p, ps1, rfl⟩ : ∃ p ps1, ps = p :: ps1 := by
      cases ps with
      | nil => simp at hplen
      | cons p ps1 => exact ⟨p, ps1, rfl⟩
    obtain ⟨a, b, cs2, rfl⟩ : ∃ a b cs2, cs = a :: b :: cs2 := by
      cases cs with
      | nil => simp at hcl
      | cons a cs1 =>
        cases cs1 with
        | nil => simp at hcl
        | cons b cs2 => exact ⟨a, b, cs2, rfl⟩
    simp only [List.getD_cons_zero, List.getD_cons_succ] at hchild
    have hblow : M / 2 ≤ b.len := by
      have := hlow 1 (by simp) (by omega)
      simpa using this
    obtain ⟨haM, habal⟩ := hall a (by simp)
    obtain ⟨hbM, hbbal⟩ := hall b (by simp)
    have hcs2low : ∀ x ∈ cs2, M / 2 ≤ x.len := by
      intro x hx
      exact mem_drop_of_indexed (P := fun c => M / 2 ≤ c.len) (i := 0) (k := 2)
        hlow (by omega) x hx
    by_cases hrotc : M / 2 < b.len
    · obtain ⟨l', p', r', heqrot, htl, hll', hrl', hbl', hbr'⟩ :=
        @Node.rotateLeft_spec T M h a b p hM habal hbbal hchild hrotc
      refine ⟨⟨p' :: ps1, l' :: r' :: cs2⟩, .done v, ?_, rfl, ?_, ?_, ?_, ?_, ?_⟩
      · simp only [Node.repair, Node.children_mk, Node.pivots_mk, List.getD_cons_succ,
          List.getD_cons_zero, if_pos hrotc]
        rw [heqrot]
        rfl
      · rw [Node.toList_succ, Node.toList_succ]
        simp only [Node.children_mk, Node.pivots_mk, List.map_cons, inorder_cons_cons]
        rw [inorder_eq_append_suffix, inorder_eq_append_suffix]
        rw [show Node.toList h l' ++ p' :: (Node.toList h r' ++
            inorderSuffix (cs2.map (Node.toList h)) ps1) =
            (Node.toList h l' ++ p' :: Node.toList h r') ++
              inorderSuffix (cs2.map (Node.toList h)) ps1 from by simp,
          show Node.toList h a ++ p :: (Node.toList h b ++
            inorderSuffix (cs2.map (Node.toList h)) ps1) =
            (Node.toList h a ++ p :: Node.toList h b) ++
              inorderSuffix (cs2.map (Node.toList h)) ps1 from by simp, htl]
      · refine ⟨?_, ?_⟩
        · simp only [Node.children_mk, Node.len_mk, List.length_cons]
          simp only [List.length_cons] at hcl
          omega
        intro x hx
        simp only [Node.children_mk, List.mem_cons] at hx
        rcases hx with rfl | rfl | hx
        · exact ⟨by omega, by omega, hbl'⟩
        · exact ⟨by omega, by omega, hbr'⟩
        · exact ⟨hcs2low x hx, (hall x (by simp [hx])).1, (hall x (by simp [hx])).2⟩
      · left
        simp [Node.len]
      · intro w _
        left
        simp [Node.len]
      · intro w hw
        cases hw
    · have hbexact : b.len = M / 2 := by omega
      obtain ⟨htlm, hlenm, hbalm⟩ := Node.mergeRight_spec (p := p) (M := M) (h := h)
        habal hbbal
      have hbal' : Node.balanced M (h + 1)
          (.mk ps1 (Node.mergeRight M (h + 1) a p b :: cs2)) := by
        refine ⟨?_, ?_⟩
        · simp only [Node.children_mk, Node.len_mk, List.length_cons]
          simp only [List.length_cons] at hcl
          omega
        intro x hx
        simp only [Node.children_mk, List.mem_cons] at hx
        rcases hx with rfl | hx
        · exact ⟨by omega, by omega, hbalm (by omega)⟩
        · exact ⟨hcs2low x hx, (hall x (by simp [hx])).1, (hall x (by simp [hx])).2⟩
      have htolist : Node.toList (h + 1)
          (.mk ps1 (Node.mergeRight M (h + 1) a p b :: cs2)) =
          Node.toList (h + 1) (.mk (p :: ps1) (a :: b :: cs2)) := by
        rw [Node.toList_succ, Node.toList_succ]
        simp only [Node.children_mk, Node.pivots_mk, List.map_cons, inorder_cons_cons]
        rw [inorder_eq_append_suffix, inorder_eq_append_suffix, htlm]
        simp [List.append_assoc]
      by_cases hund : ps1.length < M / 2
      · refine ⟨⟨ps1, Node.mergeRight M (h + 1) a p b :: cs2⟩, .underflow v,
          ?_, rfl, htolist, hbal', ?_, ?_, ?_⟩
        · simp only [Node.repair, Node.children_mk, Node.pivots_mk, List.getD_cons_succ,
            List.getD_cons_zero, if_neg hrotc, Node.mergeLeft_eq_mergeRight,
            List.eraseIdx_zero, List.tail_cons, List.drop_succ_cons, List.drop_zero,
            Node.len_mk]
          rw [if_pos hund]
        · right
          simp [Node.len]
        · intro w hw
          cases hw
        · intro w _
          exact ⟨by simp [Node.len], by simpa [Node.len] using hund⟩
      · refine ⟨⟨ps1, Node.mergeRight M (h + 1) a p b :: cs2⟩, .done v,
          ?_, rfl, htolist, hbal', ?_, ?_, ?_⟩
        · simp only [Node.repair, Node.children_mk, Node.pivots_mk, List.getD_cons_succ,
            List.getD_cons_zero, if_neg hrotc, Node.mergeLeft_eq_mergeRight,
            List.eraseIdx_zero, List.tail_cons, List.drop_succ_cons, List.drop_zero,
            Node.len_mk]
          rw [if_neg hund]
        · right
          simp [Node.len]
        · intro w _
          right
          simp only [Node.len_mk]
          omega
        · intro w hw
          cases hw
  | succ j =>
    have hjp1 : j + 1 ≤ ps.length := hi
    by_cases hR : j + 1 < ps.length
    · by_cases hNx : M / 2 < (cs.getD (j + 2) default).len
      · -- rotate left from the right neighbor
        have hj2c : j + 2 < cs.length := by omega
        have hA : (cs.take (j + 1)).length = j + 1 := by
          simp only [List.length_take]
          omega
        obtain ⟨hCM, hCbal⟩ := hall _ (getD_mem (l := cs) (i := j + 1) (by omega) default)
        obtain ⟨hNM, hNbal⟩ := hall _ (getD_mem (l := cs) (i := j + 2) hj2c default)
        have hcs2 : cs.take (j + 1) ++ cs.getD (j + 1) default ::
            cs.getD (j + 2) default :: cs.drop (j + 3) = cs :=
          take_getD_getD_drop hj2c default
        have hdec_orig : Node.toList (h + 1) (.mk ps cs) =
            inorder ((cs.take (j + 1)).map (Node.toList h)) (ps.take (j + 1)) ++
              Node.toList h (cs.getD (j + 1) default) ++
              ps.getD (j + 1) default ::
                (Node.toList h (cs.getD (j + 2) default) ++
                  inorderSuffix ((cs.drop (j + 3)).map (Node.toList h))
                    (ps.drop (j + 2))) := by
          conv_lhs => rw [← hcs2]
          exact Node.toList_decomp2 hA hR
        obtain ⟨l', p', r', heqrot, htl, hll', hrl', hbl', hbr'⟩ :=
          @Node.rotateLeft_spec T M h (cs.getD (j + 1) default)
            (cs.getD (j + 2) default) (ps.getD (j + 1) default) hM hCbal hNbal
            hchild hNx
        refine ⟨⟨ps.set (j + 1) p', (cs.set (j + 1) l').set (j + 2) r'⟩, .done v,
          ?_, rfl, ?_, ?_, ?_, ?_, ?_⟩
        · simp only [Node.repair, Node.children_mk, Node.pivots_mk, if_pos hR,
            if_pos hNx]
          rw [heqrot]
        · have hpsM : ps.set (j + 1) p' = ps.take (j + 1) ++ p' :: ps.drop (j + 2) :=
            set_eq_take_cons_drop p' hR
          have htk : (ps.set (j + 1) p').take (j + 1) = ps.take (j + 1) := by
            rw [hpsM]
            exact List.take_left' (by simp only [List.length_take]; omega)
          have hgd : (ps.set (j + 1) p').getD (j + 1) default = p' := by
            rw [hpsM, List.getD_append_right _ _ _ _
              (by simp only [List.length_take]; omega)]
            simp only [List.length_take]
            rw [show j + 1 - min (j + 1) ps.length = 0 from by omega]
            exact List.getD_cons_zero
          have hdp : (ps.set (j + 1) p').drop (j + 2) = ps.drop (j + 2) := by
            rw [hpsM]
            have h1 : ps.take (j + 1) ++ p' :: ps.drop (j + 2) =
                (ps.take (j + 1) ++ [p']) ++ ps.drop (j + 2) := by simp
            rw [h1]
            exact List.drop_left' (by simp only [List.length_append, List.length_take,
              List.length_singleton]; omega)
          have hcsM : (cs.set (j + 1) l').set (j + 2) r' =
              cs.take (j + 1) ++ l' :: r' :: cs.drop (j + 3) :=
            set_set_adjacent l' r' hj2c
          have hdec_new : Node.toList (h + 1)
              (.mk (ps.set (j + 1) p') ((cs.set (j + 1) l').set (j + 2) r')) =
              inorder ((cs.take (j + 1)).map (Node.toList h)) (ps.take (j + 1)) ++
                Node.toList h l' ++
                p' :: (Node.toList h r' ++
                  inorderSuffix ((cs.drop (j + 3)).map (Node.toList h))
                    (ps.drop (j + 2))) := by
            conv_lhs => rw [hcsM]
            have hd := @Node.toList_decomp2 T _ (cs.take (j + 1)) (cs.drop (j + 3))
              l' r' (ps.set (j + 1) p') h (j + 1)
              hA (by simp only [List.length_set]; omega)
            rw [hd, htk, hgd, hdp]
          rw [hdec_new, hdec_orig, append_mid_assoc, append_mid_assoc, htl]
        · refine ⟨by simp [Node.len, hcl], ?_⟩
          intro x hx
          simp only [Node.children_mk] at hx
          rw [set_set_adjacent l' r' hj2c] at hx
          rcases List.mem_append.mp hx with hx | hx
          · exact ⟨mem_take_of_indexed (P := fun c => M / 2 ≤ c.len) (i := j + 1)
              (k := j + 1) hlow (by omega) x hx,
              (hall x (List.mem_of_mem_take hx)).1, (hall x (List.mem_of_mem_take hx)).2⟩
          · rcases List.mem_cons.mp hx with rfl | hx
            · exact ⟨by omega, by omega, hbl'⟩
            · rcases List.mem_cons.mp hx with rfl | hx
              · exact ⟨by omega, by omega, hbr'⟩
              · exact ⟨mem_drop_of_indexed (P := fun c => M / 2 ≤ c.len) (i := j + 1)
                  (k := j + 3) hlow (by omega) x hx,
                  (hall x (List.mem_of_mem_drop hx)).1,
                  (hall x (List.mem_of_mem_drop hx)).2⟩
        · left
          simp [Node.len]
        · intro w _
          left
          simp [Node.len]
        · intro w hw
          cases hw
      · -- fall back to the left neighbor
        have hred : Node.repair M (h + 1) (.mk ps cs) (j + 1) v =
            Node.repairLeft M (h + 1) (.mk ps cs) j v := by
          simp only [Node.repair, Node.children_mk, Node.pivots_mk, if_pos hR,
            if_neg hNx]
        obtain ⟨n', rr, heq, hval, htol, hbal, hlen, hdone, hunder⟩ :=
          Node.repairLeft_spec hM hEv hcl hjp1 hall hlow hchild
        exact ⟨n', rr, hred.trans heq, hval, htol, hbal, hlen, hdone, hunder⟩
    · have hred : Node.repair M (h + 1) (.mk ps cs) (j + 1) v =
          Node.repairLeft M (h + 1) (.mk ps cs) j v := by
        simp only [Node.repair, Node.children_mk, Node.pivots_mk, if_neg hR]
      obtain ⟨n', rr, heq, hval, htol, hbal, hlen, hdone, hunder⟩ :=
        Node.repairLeft_spec hM hEv hcl hjp1 hall hlow hchild
      exact ⟨n', rr, hred.trans heq, hval, htol, hbal, hlen, hdone, hunder⟩

/-! ## `List.set` bookkeeping for the remove specification -/

theorem take_set (l : List T) (i : Nat) (a : T) : (l.set i a).take i = l.take i := by
  induction l generalizing i with
  | nil => simp
  | cons x xs ih =>
    cases i with
    | zero => simp
    | succ k => simp [List.set_cons_succ, List.take_succ_cons, ih]

theorem drop_set_succ (l : List T) (i : Nat) (a : T) :
    (l.set i a).drop (i + 1) = l.drop (i + 1) := by
  induction l generalizing i with
  | nil => simp
  | cons x xs ih =>
    cases i with
    | zero => simp
    | succ k => simp [List.set_cons_succ, List.drop_succ_cons, ih]

theorem set_getD_self {l : List T} {i : Nat} (h : i < l.length) (d : T) :
    l.set i (l.getD i d) = l := by
  induction l generalizing i with
  | nil => simp at h
  | cons x xs ih =>
    cases i with
    | zero => simp
    | succ k =>
      simp only [List.getD_cons_succ, List.set_cons_succ, List.cons.injEq, true_and]
      exact ih (by simpa using h)

theorem getD_set_self {l : List T} {i : Nat} (h : i < l.length) (a d : T) :
    (l.set i a).getD i d = a := by
  rw [List.getD_eq_getElem?_getD, List.getElem?_set_self', List.getElem?_eq_getElem h]
  rfl

theorem getD_set_ne {l : List T} {i k : Nat} (h : k ≠ i) (a d : T) :
    (l.set i a).getD k d = l.getD k d := by
  rw [List.getD_eq_getElem?_getD, List.getElem?_set_ne (by omega),
    ← List.getD_eq_getElem?_getD]

/-- A node holding at least one pivot has a non-empty traversal. -/
theorem Node.toList_ne_nil {M h : Nat} {n : Node T}
    (hbal : Node.balanced M h n) (hlen : 1 ≤ n.len) :
    Node.toList h n ≠ [] := by
  cases h with
  | zero =>
    rw [Node.toList_zero]
    intro hc
    rw [Node.len, hc] at hlen
    simp at hlen
  | succ s =>
    rw [Node.toList_succ]
    intro hc
    have hsub : List.Sublist n.pivots (inorder (n.children.map (Node.toList s)) n.pivots) :=
      pivots_sublist_inorder (by
        rw [List.length_map, Node.balanced_children_length hbal, Node.len]
        omega)
    rw [hc] at hsub
    rw [Node.len, List.sublist_nil.mp hsub] at hlen
    simp at hlen

/-- Main contract of `NodeArray::remove`, by induction on the height.  A `None`
result leaves the node unchanged and certifies a genuine miss; a `Some` result
removes exactly one element from the traversal (the probed key for `Comp`, the
head for `First`, the last element for `Last`), keeps the node balanced, and
reports `Underflow` exactly when the node's own pivot count dropped below
`M/2`. -/
theorem Node.remove_spec [LinearOrder T] [Inhabited T] {M : Nat}
    (hM : 2 ≤ M) (hEv : M % 2 = 0) :
    ∀ (h : Nat) (b : Probe T) (n : Node T),
      Node.balanced M h n → (Node.toList h n).Sorted (· < ·) →
      n.len ≤ M → (h = 0 ∨ 1 ≤ n.len) →
      ∃ n' res, Node.remove M h b n = (n', res) ∧
        (res = none → n' = n ∧
          (∀ q, b = .comp q → q ∉ Node.toList h n) ∧
          (b = .first → Node.toList h n = []) ∧
          (b = .last → Node.toList h n = [])) ∧
        (∀ rr, res = some rr →
          Node.balanced M h n' ∧
          (n'.len = n.len ∨ n'.len + 1 = n.len) ∧
          (∀ w, rr = .underflow w → n'.len + 1 = n.len ∧ n'.len < M / 2) ∧
          (∀ w, rr = .done w → n'.len = n.len ∨ M / 2 ≤ n'.len) ∧
          ∃ pre suf, Node.toList h n = pre ++ rr.val :: suf ∧
            Node.toList h n' = pre ++ suf ∧
            (∀ q, b = .comp q → rr.val = q) ∧
            (b = .first → pre = []) ∧
            (b = .last → suf = [])) := by
  intro h
  induction h with
  | zero =>
    intro b n hbal hord hlenM _
    obtain ⟨ps, cs⟩ := n
    have hcs : cs = [] := hbal
    subst hcs
    have hps : ps.Sorted (· < ·) := by simpa using hord
    rcases hsearch : Probe.search b ps 0 with i | i
    · -- exact hit in the leaf
      have hi : i < ps.length := by
        cases b with
        | comp q =>
          exact (bsearch_found_spec hps (by rwa [probe_search_comp] at hsearch)).1
        | first =>
          cases ps with
          | nil => cases hsearch
          | cons x xs =>
            rw [probe_search_first_leaf (by simp)] at hsearch
            cases hsearch
            simp
        | last =>
          cases ps with
          | nil => cases hsearch
          | cons x xs =>
            rw [probe_search_last_leaf (by simp)] at hsearch
            cases hsearch
            simp
      have hsplit : ps.take i ++ ps.getD i default :: ps.drop (i + 1) = ps :=
        take_getD_drop hi default
      have herase : ps.eraseIdx i = ps.take i ++ ps.drop (i + 1) :=
        List.eraseIdx_eq_take_drop_succ ps i
      have hlen' : (ps.eraseIdx i).length + 1 = ps.length := by
        rw [List.length_eraseIdx_of_lt hi]
        omega
      refine ⟨⟨ps.eraseIdx i, []⟩,
        some (if (ps.eraseIdx i).length < M / 2
          then .underflow (ps.getD i default) else .done (ps.getD i default)),
        ?_, ?_, ?_⟩
      · simp only [Node.remove, Node.pivots_mk, Node.children_mk, hsearch]
      · intro hc
        simp at hc
      · intro rr hrr
        replace hrr := Option.some.inj hrr
        subst hrr
        have hvv : (if (ps.eraseIdx i).length < M / 2
            then RemoveResult.underflow (ps.getD i default)
            else RemoveResult.done (ps.getD i default)).val = ps.getD i default := by
          by_cases hc : (ps.eraseIdx i).length < M / 2 <;>
            simp [hc, RemoveResult.val]
        refine ⟨rfl, Or.inr (by simpa using hlen'), ?_, ?_,
          ps.take i, ps.drop (i + 1), ?_, ?_, ?_, ?_, ?_⟩
        · intro w hw
          by_cases hc : (ps.eraseIdx i).length < M / 2
          · exact ⟨by simpa using hlen', by simpa using hc⟩
          · rw [if_neg hc] at hw
            cases hw
        · intro w hw
          by_cases hc : (ps.eraseIdx i).length < M / 2
          · rw [if_pos hc] at hw
            cases hw
          · right
            simpa using not_lt.mp hc
        · rw [hvv]
          simpa using hsplit.symm
        · simpa using herase
        · intro q hbq
          subst hbq
          rw [hvv]
          exact getD_eq_of_getElem?_eq
            (bsearch_found_spec hps (by rwa [probe_search_comp] at hsearch)).2.1
        · intro hbq
          subst hbq
          cases ps with
          | nil => cases hsearch
          | cons x xs =>
            rw [probe_search_first_leaf (by simp)] at hsearch
            cases hsearch
            simp
        · intro hbq
          subst hbq
          cases ps with
          | nil => cases hsearch
          | cons x xs =>
            rw [probe_search_last_leaf (by simp)] at hsearch
            cases hsearch
            rw [List.drop_eq_nil_iff]
            simp
    · -- leaf miss
      refine ⟨⟨ps, []⟩, none, ?_, ?_, ?_⟩
      · simp only [Node.remove, Node.pivots_mk, Node.children_mk, hsearch]
      · intro _
        refine ⟨rfl, ?_, ?_, ?_⟩
        · intro q hbq
          subst hbq
          simpa using bsearch_missed_not_mem hps
            (by rwa [probe_search_comp] at hsearch)
        · intro hbq
          subst hbq
          cases ps with
          | nil => simp
          | cons x xs => rw [probe_search_first_leaf (by simp)] at hsearch; cases hsearch
        · intro hbq
          subst hbq
          cases ps with
          | nil => simp
          | cons x xs => rw [probe_search_last_leaf (by simp)] at hsearch; cases hsearch
      · intro rr hrr
        cases hrr
  | succ s ih =>
    intro b n hbal hord hlenM hpos
    obtain ⟨ps, cs⟩ := n
    have hps1 : 1 ≤ ps.length := by
      rcases hpos with h0 | h1
      · omega
      · simpa using h1
    have hcl : cs.length = ps.length + 1 := by simpa using hbal.1
    have hch : ∀ c ∈ cs, M / 2 ≤ c.len ∧ c.len ≤ M ∧ Node.balanced M s c := by
      simpa using hbal.2
    have hpsorted : ps.Sorted (· < ·) :=
      sorted_pivots_of_sorted_toList (by omega) hord
    have hm2 : 1 ≤ M / 2 := by omega
    rcases hsearch : Probe.search b ps (s + 1) with i | i
    · -- exact hit at pivot `i`: only the `Comp` probe can match here
      cases b with
      | first => rw [probe_search_first_internal] at hsearch; cases hsearch
      | last => rw [probe_search_last_internal] at hsearch; cases hsearch
      | comp q =>
        rw [probe_search_comp] at hsearch
        obtain ⟨hi, hgeti, hltq, hgtq⟩ := bsearch_found_spec hpsorted hsearch
        have hiq : ps.getD i default = q := getD_eq_of_getElem?_eq hgeti
        have hic : i < cs.length := by omega
        set c := cs.getD i default with hc
        have hcm : c ∈ cs := getD_mem hic default
        obtain ⟨hclow, hcM, hcbal⟩ := hch c hcm
        have hsplitc : cs.take i ++ c :: cs.drop (i + 1) = cs :=
          take_getD_drop hic default
        have hA : (cs.take i).length = i := by
          simp only [List.length_take]
          omega
        have hdec : Node.toList (s + 1) (.mk ps cs) =
            inorder ((cs.take i).map (Node.toList s)) (ps.take i) ++
              Node.toList s c ++
              inorderSuffix ((cs.drop (i + 1)).map (Node.toList s)) (ps.drop i) := by
          conv_lhs => rw [← hsplitc]
          exact Node.toList_decomp hA (le_of_lt hi)
        have hordd := hdec ▸ hord
        have hsc : (Node.toList s c).Sorted (· < ·) :=
          sorted_append_right (sorted_append_left hordd)
        obtain ⟨c', resc, heqc, hnonec, hsomec⟩ :=
          ih .last c hcbal hsc hcM (Or.inr (by omega))
        rcases resc with _ | rrc
        · exfalso
          exact Node.toList_ne_nil hcbal (by omega) ((hnonec rfl).2.2.2 rfl)
        obtain ⟨hbalc', hlenc', hunderc', hdonec', preC, sufC, hspanC, hspanC',
          hcompC, hfirstC, hlastC⟩ := hsomec rrc rfl
        have hsufC : sufC = [] := hlastC rfl
        subst hsufC
        have hred : Node.remove M (s + 1) (.comp q) (.mk ps cs) =
            Node.afterChildRemove M (s + 1) ⟨ps.set i rrc.val, cs.set i c'⟩ i
              (rrc.map fun _ => ps.getD i default) := by
          simp only [Node.remove, Node.pivots_mk, Node.children_mk,
            probe_search_comp, hsearch]
          rw [← hc, heqc]
        have hdrop : ps.drop i = q :: ps.drop (i + 1) := by
          rw [← hiq, List.getD_eq_getElem?_getD, List.getElem?_eq_getElem hi]
          simp only [Option.getD_some]
          exact List.drop_eq_getElem_cons hi
        have hpset : ps.set i rrc.val =
            ps.take i ++ rrc.val :: ps.drop (i + 1) :=
          set_eq_take_cons_drop rrc.val hi
        have hcset : cs.set i c' = cs.take i ++ c' :: cs.drop (i + 1) :=
          set_eq_take_cons_drop c' hic
        have hdecMid : Node.toList (s + 1) (.mk (ps.set i rrc.val) (cs.set i c')) =
            inorder ((cs.take i).map (Node.toList s)) (ps.take i) ++
              Node.toList s c' ++
              (rrc.val ::
                inorder ((cs.drop (i + 1)).map (Node.toList s)) (ps.drop (i + 1))) := by
          conv_lhs => rw [hcset]
          rw [Node.toList_decomp hA (by rw [List.length_set]; exact le_of_lt hi)]
          rw [hpset]
          rw [List.take_left' (by simp only [List.length_take]; omega),
            List.drop_left' (by simp only [List.length_take]; omega)]
          rw [inorderSuffix_cons_right]
        have hspan1 : Node.toList (s + 1) (.mk ps cs) =
            (inorder ((cs.take i).map (Node.toList s)) (ps.take i) ++ preC ++ [rrc.val]) ++
              q :: inorder ((cs.drop (i + 1)).map (Node.toList s)) (ps.drop (i + 1)) := by
          rw [hdec, hspanC, hdrop]
          simp [List.append_assoc]
        have hspan2 : Node.toList (s + 1) (.mk (ps.set i rrc.val) (cs.set i c')) =
            (inorder ((cs.take i).map (Node.toList s)) (ps.take i) ++ preC ++ [rrc.val]) ++
              inorder ((cs.drop (i + 1)).map (Node.toList s)) (ps.drop (i + 1)) := by
          rw [hdecMid, hspanC']
          simp [List.append_assoc]
        have hballMid : ∀ x ∈ cs.set i c', x.len ≤ M ∧ Node.balanced M s x := by
          intro x hx
          rcases List.mem_or_eq_of_mem_set hx with hx | rfl
          · exact ⟨(hch x hx).2.1, (hch x hx).2.2⟩
          · exact ⟨by omega, hbalc'⟩
        cases rrc with
        | done wv =>
          refine ⟨⟨ps.set i wv, cs.set i c'⟩, some (.done (ps.getD i default)),
            ?_, ?_, ?_⟩
          · rw [hred]
            rfl
          · intro hcon
            cases hcon
          intro rr hrr
          replace hrr := Option.some.inj hrr
          subst hrr
          have hc'low : M / 2 ≤ c'.len := by
            rcases hdonec' wv rfl with he | hge
            · omega
            · exact hge
          refine ⟨⟨by simp [hcl], ?_⟩, ?_, ?_, ?_,
            ⟨inorder ((cs.take i).map (Node.toList s)) (ps.take i) ++ preC ++ [wv],
             inorder ((cs.drop (i + 1)).map (Node.toList s)) (ps.drop (i + 1)),
             ?_, ?_, ?_, ?_, ?_⟩⟩
          · intro x hx
            simp only [Node.children_mk] at hx
            rcases List.mem_or_eq_of_mem_set hx with hx | rfl
            · exact hch x hx
            · exact ⟨hc'low, by omega, hbalc'⟩
          · left
            simp [Node.len]
          · intro w hw
            cases hw
          · intro w _
            left
            simp [Node.len]
          · rw [show (RemoveResult.done (ps.getD i default)).val = q from hiq]
            simpa using hspan1
          · simpa using hspan2
          · intro q' hbq
            cases hbq
            rw [show (RemoveResult.done (ps.getD i default)).val = q from hiq]
          · intro hbq
            cases hbq
          · intro hbq
            cases hbq
        | underflow wv =>
          have hc'eq : c'.len = M / 2 - 1 := by
            obtain ⟨hp1, hp2⟩ := hunderc' wv rfl
            omega
          obtain ⟨n'', rr'', heq'', hval'', htol'', hbal'', hlen'', hdone'', hunder''⟩ :=
            Node.repair_spec (i := i)
              (v := ps.getD i default) hM hEv
              (show (cs.set i c').length = (ps.set i wv).length + 1 by simp [hcl])
              (by simpa using hps1)
              (by rw [List.length_set]; exact le_of_lt hi)
              (by simpa using hballMid)
              (by
                intro k hk hki
                rw [getD_set_ne hki]
                exact (hch _ (getD_mem (by simpa using hk) default)).1)
              (by rw [getD_set_self hic]; exact hc'eq)
          refine ⟨n'', some rr'', ?_, ?_, ?_⟩
          · rw [hred]
            show Node.repair M (s + 1) _ i _ = _
            exact heq''
          · intro hcon
            cases hcon
          intro rr hrr
          replace hrr := Option.some.inj hrr
          subst hrr
          refine ⟨hbal'', ?_, ?_, ?_,
            ⟨inorder ((cs.take i).map (Node.toList s)) (ps.take i) ++ preC ++ [wv],
             inorder ((cs.drop (i + 1)).map (Node.toList s)) (ps.drop (i + 1)),
             ?_, ?_, ?_, ?_, ?_⟩⟩
          · rcases hlen'' with he | he <;>
              simp only [Node.len_mk, List.length_set] at he ⊢ <;> omega
          · intro w hw
            obtain ⟨hp1, hp2⟩ := hunder'' w hw
            simp only [Node.len_mk, List.length_set] at hp1 ⊢
            omega
          · intro w hw
            rcases hdone'' w hw with he | hge
            · left
              simp only [Node.len_mk, List.length_set] at he ⊢
              omega
            · right
              exact hge
          · rw [hval'', hiq]
            simpa using hspan1
          · rw [htol'']
            simpa using hspan2
          · intro q' hbq
            cases hbq
            rw [hval'', hiq]
          · intro hbq
            cases hbq
          · intro hbq
            cases hbq
    · -- miss at this node: recurse into child `i`
      have hi : i ≤ ps.length := by
        cases b with
        | comp q =>
          exact (bsearch_missed_spec hpsorted (by rwa [probe_search_comp] at hsearch)).1
        | first =>
          rw [probe_search_first_internal] at hsearch
          cases hsearch
          omega
        | last =>
          rw [probe_search_last_internal] at hsearch
          cases hsearch
          exact Nat.le_refl _
      have hic : i < cs.length := by omega
      set c := cs.getD i default with hc
      have hcm : c ∈ cs := getD_mem hic default
      obtain ⟨hclow, hcM, hcbal⟩ := hch c hcm
      have hsplitc : cs.take i ++ c :: cs.drop (i + 1) = cs :=
        take_getD_drop hic default
      have hA : (cs.take i).length = i := by
        simp only [List.length_take]
        omega
      have hdec : Node.toList (s + 1) (.mk ps cs) =
          inorder ((cs.take i).map (Node.toList s)) (ps.take i) ++
            Node.toList s c ++
            inorderSuffix ((cs.drop (i + 1)).map (Node.toList s)) (ps.drop i) := by
        conv_lhs => rw [← hsplitc]
        exact Node.toList_decomp hA hi
      have hordd := hdec ▸ hord
      have hsc : (Node.toList s c).Sorted (· < ·) :=
        sorted_append_right (sorted_append_left hordd)
      obtain ⟨c', resc, heqc, hnonec, hsomec⟩ :=
        ih b c hcbal hsc hcM (Or.inr (by omega))
      rcases resc with _ | rrc
      · -- the probe also missed the child: nothing changes
        obtain ⟨hceq, hqnot, hfirstN, hlastN⟩ := hnonec rfl
        have hred : Node.remove M (s + 1) b (.mk ps cs) = (⟨ps, cs.set i c'⟩, none) := by
          simp only [Node.remove, Node.pivots_mk, Node.children_mk, hsearch]
          rw [← hc, heqc]
        refine ⟨⟨ps, cs⟩, none, ?_, ?_, ?_⟩
        · rw [hred, hceq, hc, set_getD_self hic]
        · intro _
          refine ⟨rfl, ?_, ?_, ?_⟩
          · intro q hbq
            subst hbq
            rw [probe_search_comp] at hsearch
            obtain ⟨-, hltq, hgtq⟩ := bsearch_missed_spec hpsorted hsearch
            rw [hdec]
            intro hq
            rcases List.mem_append.mp hq with hq | hq
            · rcases List.mem_append.mp hq with hq | hq
              · obtain ⟨p, hp, hle⟩ := mem_inorder_le_last
                  (by simp only [List.length_map, List.length_take]; omega)
                  (sorted_append_left (sorted_append_left hordd)) hq
                exact absurd (lt_of_le_of_lt hle (hltq p hp)) (lt_irrefl q)
              · exact hqnot q rfl hq
            · obtain ⟨p, hp, hle⟩ := mem_inorderSuffix_ge_head
                (sorted_append_right hordd) hq
              exact absurd (lt_of_lt_of_le (hgtq p hp) hle) (lt_irrefl q)
          · intro hbq
            subst hbq
            exact absurd (hfirstN rfl) (Node.toList_ne_nil hcbal (by omega))
          · intro hbq
            subst hbq
            exact absurd (hlastN rfl) (Node.toList_ne_nil hcbal (by omega))
        · intro rr hrr
          cases hrr
      · -- the child removed a value
        obtain ⟨hbalc', hlenc', hunderc', hdonec', preC, sufC, hspanC, hspanC',
          hcompC, hfirstC, hlastC⟩ := hsomec rrc rfl
        have hred : Node.remove M (s + 1) b (.mk ps cs) =
            Node.afterChildRemove M (s + 1) ⟨ps, cs.set i c'⟩ i rrc := by
          simp only [Node.remove, Node.pivots_mk, Node.children_mk, hsearch]
          rw [← hc, heqc]
        have hcset : cs.set i c' = cs.take i ++ c' :: cs.drop (i + 1) :=
          set_eq_take_cons_drop c' hic
        have hdecMid : Node.toList (s + 1) (.mk ps (cs.set i c')) =
            inorder ((cs.take i).map (Node.toList s)) (ps.take i) ++
              Node.toList s c' ++
              inorderSuffix ((cs.drop (i + 1)).map (Node.toList s)) (ps.drop i) := by
          conv_lhs => rw [hcset]
          exact Node.toList_decomp hA hi
        have hspan1 : Node.toList (s + 1) (.mk ps cs) =
            (inorder ((cs.take i).map (Node.toList s)) (ps.take i) ++ preC) ++
              rrc.val :: (sufC ++
                inorderSuffix ((cs.drop (i + 1)).map (Node.toList s)) (ps.drop i)) := by
          rw [hdec, hspanC]
          simp [List.append_assoc]
        have hspan2 : Node.toList (s + 1) (.mk ps (cs.set i c')) =
            (inorder ((cs.take i).map (Node.toList s)) (ps.take i) ++ preC) ++
              (sufC ++
                inorderSuffix ((cs.drop (i + 1)).map (Node.toList s)) (ps.drop i)) := by
          rw [hdecMid, hspanC']
          simp [List.append_assoc]
        have hfirstPS : b = .first →
            inorder ((cs.take i).map (Node.toList s)) (ps.take i) ++ preC = [] := by
          intro hbq
          subst hbq
          rw [probe_search_first_internal] at hsearch
          cases hsearch
          rw [hfirstC rfl]
          simp [inorder]
        have hlastPS : b = .last →
            sufC ++
              inorderSuffix ((cs.drop (i + 1)).map (Node.toList s)) (ps.drop i) = [] := by
          intro hbq
          subst hbq
          rw [probe_search_last_internal] at hsearch
          cases hsearch
          rw [hlastC rfl]
          simp
        have hballMid : ∀ x ∈ cs.set i c', x.len ≤ M ∧ Node.balanced M s x := by
          intro x hx
          rcases List.mem_or_eq_of_mem_set hx with hx | rfl
          · exact ⟨(hch x hx).2.1, (hch x hx).2.2⟩
          · exact ⟨by omega, hbalc'⟩
        cases rrc with
        | done wv =>
          refine ⟨⟨ps, cs.set i c'⟩, some (.done wv), ?_, ?_, ?_⟩
          · rw [hred]
            rfl
          · intro hcon
            cases hcon
          intro rr hrr
          replace hrr := Option.some.inj hrr
          subst hrr
          have hc'low : M / 2 ≤ c'.len := by
            rcases hdonec' wv rfl with he | hge
            · omega
            · exact hge
          refine ⟨⟨by simp [hcl], ?_⟩, ?_, ?_, ?_,
            ⟨_, _, hspan1, hspan2, ?_, hfirstPS, hlastPS⟩⟩
          · intro x hx
            simp only [Node.children_mk] at hx
            rcases List.mem_or_eq_of_mem_set hx with hx | rfl
            · exact hch x hx
            · exact ⟨hc'low, by omega, hbalc'⟩
          · left
            simp [Node.len]
          · intro w hw
            cases hw
          · intro w _
            left
            simp [Node.len]
          · intro q hbq
            exact hcompC q hbq
        | underflow wv =>
          have hc'eq : c'.len = M / 2 - 1 := by
            obtain ⟨hp1, hp2⟩ := hunderc' wv rfl
            omega
          obtain ⟨n'', rr'', heq'', hval'', htol'', hbal'', hlen'', hdone'', hunder''⟩ :=
            Node.repair_spec (i := i) (v := wv)
              hM hEv
              (show (cs.set i c').length = ps.length + 1 by simp [hcl])
              hps1
              hi
              hballMid
              (by
                intro k hk hki
                rw [getD_set_ne hki]
                exact (hch _ (getD_mem (by simpa using hk) default)).1)
              (by rw [getD_set_self hic]; exact hc'eq)
          refine ⟨n'', some rr'', ?_, ?_, ?_⟩
          · rw [hred]
            show Node.repair M (s + 1) _ i _ = _
            exact heq''
          · intro hcon
            cases hcon
          intro rr hrr
          replace hrr := Option.some.inj hrr
          subst hrr
          refine ⟨hbal'', ?_, ?_, ?_,
            ⟨_, _, ?_, ?_, ?_, hfirstPS, hlastPS⟩⟩
          · rcases hlen'' with he | he <;>
              simp only [Node.len_mk, List.length_set] at he ⊢ <;> omega
          · intro w hw
            obtain ⟨hp1, hp2⟩ := hunder'' w hw
            simp only [Node.len_mk, List.length_set] at hp1 ⊢
            omega
          · intro w hw
            rcases hdone'' w hw with he | hge
            · left
              simp only [Node.len_mk, List.length_set] at he ⊢
              omega
            · right
              exact hge
          · rw [hval'']
            exact hspan1
          · rw [htol'']
            exact hspan2
          · intro q hbq
            rw [hval'']
            exact hcompC q hbq


/-- Removing one element from a sorted list keeps it sorted. -/
theorem sorted_of_removed [LinearOrder T] {pre suf : List T} {v : T}
    (hs : (pre ++ v :: suf).Sorted (· < ·)) : (pre ++ suf).Sorted (· < ·) :=
  List.Pairwise.sublist
    (List.Sublist.append_left (List.sublist_cons_self v suf) pre) hs

/-- Introduction form of the tree invariant for a present root. -/
theorem OkBTree.wf_mk [LinearOrder T] {d : Nat} {n : Node T} (h1 : 1 ≤ d)
    (h2 : Node.balanced 2 (d - 1) n) (h3 : (Node.toList (d - 1) n).Sorted (· < ·))
    (h4 : n.len ≤ 2) (h5 : n.len = 0 → d = 1) : OkBTree.wf ⟨some ⟨d, n⟩⟩ :=
  ⟨h1, h2, h3, h4, h5⟩

/-- Elimination form of the tree invariant for a present root. -/
theorem OkBTree.wf_elim [LinearOrder T] {d : Nat} {n : Node T}
    (h : OkBTree.wf ⟨some ⟨d, n⟩⟩) :
    1 ≤ d ∧ Node.balanced 2 (d - 1) n ∧
      (Node.toList (d - 1) n).Sorted (· < ·) ∧ n.len ≤ 2 ∧
      (n.len = 0 → d = 1) := h

/-- The traversal of a tree with a present root. -/
theorem OkBTree.toList_mk {d : Nat} {n : Node T} :
    OkBTree.toList ⟨some ⟨d, n⟩⟩ = Node.toList (d - 1) n := rfl

/-- The depth of a tree with a present root. -/
theorem OkBTree.depth_mk {d : Nat} {n : Node T} :
    OkBTree.depth (T := T) ⟨some ⟨d, n⟩⟩ = d := rfl

/-- Tree-level contract of `OkBTree::remove_inner`: the result tree is again
well-formed, the depth never grows, a `None` answer leaves the tree untouched
and certifies a miss, and a `Some v` answer removes exactly the probed
occurrence from the traversal. -/
theorem OkBTree.removeInner_spec [LinearOrder T] [Inhabited T] {t : OkBTree T}
    {b : Probe T} (hwf : t.wf) :
    ∃ t' ro, t.removeInner b = (t', ro) ∧ t'.wf ∧ t'.depth ≤ t.depth ∧
      (ro = none → t' = t ∧
        (∀ q, b = .comp q → q ∉ t.toList) ∧
        (b = .first → t.toList = []) ∧ (b = .last → t.toList = [])) ∧
      (∀ v, ro = some v →
        ∃ pre suf, t.toList = pre ++ v :: suf ∧ t'.toList = pre ++ suf ∧
          (∀ q, b = .comp q → v = q) ∧
          (b = .first → pre = []) ∧ (b = .last → suf = [])) := by
  obtain ⟨inner⟩ := t
  cases inner with
  | none =>
    refine ⟨⟨none⟩, none, rfl, trivial, le_refl _, ?_, ?_⟩
    · intro _
      refine ⟨rfl, ?_, fun _ => rfl, fun _ => rfl⟩
      intro q _
      simp [OkBTree.toList]
    · intro v hv
      cases hv
  | some i =>
    obtain ⟨d, n⟩ := i
    obtain ⟨hd1, hbal, hord, hlen2, hzero⟩ := OkBTree.wf_elim hwf
    by_cases hn0 : n.len = 0
    · have hd1' : d = 1 := hzero hn0
      subst hd1'
      have hnil : Node.toList 0 n = [] := by
        rw [Node.toList_zero]
        exact List.length_eq_zero.mp hn0
      refine ⟨⟨some ⟨1, n⟩⟩, none, ?_, hwf, le_refl _, ?_, ?_⟩
      · show (if n.len = 0 then _ else _) = _
        rw [if_pos hn0]
      · intro _
        refine ⟨rfl, ?_, fun _ => ?_, fun _ => ?_⟩
        · intro q _
          rw [OkBTree.toList_mk]
          simp [hnil]
        · rw [OkBTree.toList_mk]
          simpa using hnil
        · rw [OkBTree.toList_mk]
          simpa using hnil
      · intro v hv
        cases hv
    · obtain ⟨n', res, heq, hnone, hsome⟩ :=
        Node.remove_spec (M := 2) (by omega) (by omega) (d - 1) b n
          hbal hord hlen2 (Or.inr (by omega))
      have hred : OkBTree.removeInner b ⟨some ⟨d, n⟩⟩ =
          (match Node.remove 2 (d - 1) b n with
            | (n', none) => (⟨some ⟨d, n'⟩⟩, none)
            | (n', some (.done v)) => (⟨some ⟨d, n'⟩⟩, some v)
            | (n', some (.underflow v)) =>
              if n'.len = 0 ∧ 1 < d then
                (⟨some ⟨d - 1, n'.children.getD 0 default⟩⟩, some v)
              else (⟨some ⟨d, n'⟩⟩, some v)) := by
        show (if n.len = 0 then _ else _) = _
        rw [if_neg hn0]
      rcases res with _ | rr
      · obtain ⟨hid, hmiss, hfst, hlst⟩ := hnone rfl
        subst hid
        refine ⟨⟨some ⟨d, n'⟩⟩, none, by rw [hred, heq], hwf, le_refl _, ?_, ?_⟩
        · intro _
          exact ⟨rfl, hmiss, hfst, hlst⟩
        · intro v hv
          cases hv
      · obtain ⟨hbal', hlen', hunder', hdone', pre, suf, hspan, hspan', hcompP,
          hfirstP, hlastP⟩ := hsome rr rfl
        have hord' : (pre ++ suf).Sorted (· < ·) := by
          have hox := hord
          rw [hspan] at hox
          exact sorted_of_removed hox
        cases rr with
        | done v =>
          refine ⟨⟨some ⟨d, n'⟩⟩, some v, by rw [hred, heq], ?_, le_refl _, ?_, ?_⟩
          · refine OkBTree.wf_mk hd1 hbal' (by rw [hspan']; exact hord') ?_ ?_
            · rcases hlen' with he | he <;> omega
            · intro h0
              rcases hdone' v rfl with he | hge
              · exact hzero (by omega)
              · omega
          · intro hc
            cases hc
          · intro v' hv'
            replace hv' := Option.some.inj hv'
            subst hv'
            exact ⟨pre, suf, hspan, hspan', hcompP, hfirstP, hlastP⟩
        | underflow v =>
          obtain ⟨hl1, hl0⟩ := hunder' v rfl
          have hn'0 : n'.len = 0 := by omega
          by_cases hroot : n'.len = 0 ∧ 1 < d
          · obtain ⟨-, hdgt⟩ := hroot
            have hd2 : d - 1 = (d - 2) + 1 := by omega
            have hbal2 : Node.balanced 2 ((d - 2) + 1) n' := by
              rw [← hd2]
              exact hbal'
            have hcl0 : n'.children.length = 1 := by
              have h1 := hbal2.1
              omega
            obtain ⟨a, ha⟩ := List.length_eq_one.mp hcl0
            have hc0 : n'.children.getD 0 default = a := by
              rw [ha]
              exact List.getD_cons_zero
            obtain ⟨ha1, ha2, habal⟩ :=
              hbal2.2 a (by rw [ha]; exact List.mem_cons_self a [])
            have hpnil : n'.pivots = [] := List.length_eq_zero.mp hn'0
            have htl : Node.toList ((d - 2) + 1) n' = Node.toList (d - 2) a := by
              rw [Node.toList_succ, ha, hpnil]
              rfl
            have htl' : Node.toList (d - 2) a = pre ++ suf := by
              rw [← htl, ← hd2]
              exact hspan'
            refine ⟨⟨some ⟨d - 1, n'.children.getD 0 default⟩⟩, some v,
              ?_, ?_, ?_, ?_, ?_⟩
            · rw [hred, heq]
              show (if n'.len = 0 ∧ 1 < d then _ else _) = _
              rw [if_pos ⟨hn'0, hdgt⟩]
            · rw [hc0]
              refine OkBTree.wf_mk (by omega) ?_ ?_ (by omega) (by omega)
              · rw [show d - 1 - 1 = d - 2 from by omega]
                exact habal
              · rw [show d - 1 - 1 = d - 2 from by omega, htl']
                exact hord'
            · rw [OkBTree.depth_mk, OkBTree.depth_mk]
              omega
            · intro hc
              cases hc
            · intro v' hv'
              replace hv' := Option.some.inj hv'
              subst hv'
              refine ⟨pre, suf, hspan, ?_, hcompP, hfirstP, hlastP⟩
              rw [OkBTree.toList_mk, hc0, show d - 1 - 1 = d - 2 from by omega]
              exact htl'
          · have hd1'' : d = 1 := by
              have hx : ¬ 1 < d := fun hlt => hroot ⟨hn'0, hlt⟩
              omega
            refine ⟨⟨some ⟨d, n'⟩⟩, some v, ?_, ?_, le_refl _, ?_, ?_⟩
            · rw [hred, heq]
              show (if n'.len = 0 ∧ 1 < d then _ else _) = _
              rw [if_neg hroot]
            · refine OkBTree.wf_mk hd1 hbal' (by rw [hspan']; exact hord')
                (by omega) (fun _ => hd1'')
            · intro hc
              cases hc
            · intro v' hv'
              replace hv' := Option.some.inj hv'
              subst hv'
              exact ⟨pre, suf, hspan, hspan', hcompP, hfirstP, hlastP⟩

/-- `NodeArray::search` with the `Comp` probe acts as set membership on the
traversal: it answers `some q` exactly when `q` is stored. -/
theorem Node.search_comp_spec [LinearOrder T] [Inhabited T] {M : Nat} :
    ∀ (h : Nat) (q : T) (n : Node T),
      Node.balanced M h n → (Node.toList h n).Sorted (· < ·) →
      Node.search (.comp q) h n =
        if q ∈ Node.toList h n then some q else none := by
  intro h
  induction h with
  | zero =>
    intro q n hbal hord
    obtain ⟨ps, cs⟩ := n
    have hps : ps.Sorted (· < ·) := by simpa using hord
    rcases hbs : bsearch q ps with i | i
    · obtain ⟨hfi, hget, -, -⟩ := bsearch_found_spec hps hbs
      have hm : q ∈ ps := List.getElem?_mem hget
      show (match Probe.search (.comp q) ps 0 with
        | .found i => ps[i]?
        | .missed _ => none) = _
      rw [probe_search_comp, hbs]
      simp only [Node.toList_zero, Node.pivots_mk]
      rw [if_pos hm]
      exact hget
    · have hm : q ∉ ps := bsearch_missed_not_mem hps hbs
      show (match Probe.search (.comp q) ps 0 with
        | .found i => ps[i]?
        | .missed _ => none) = _
      rw [probe_search_comp, hbs]
      simp only [Node.toList_zero, Node.pivots_mk]
      rw [if_neg hm]
  | succ s ih =>
    intro q n hbal hord
    obtain ⟨ps, cs⟩ := n
    have hcl : cs.length = ps.length + 1 := by simpa using hbal.1
    have hpsorted : ps.Sorted (· < ·) :=
      sorted_pivots_of_sorted_toList (by omega) hord
    rcases hbs : bsearch q ps with i | i
    · obtain ⟨hfi, hget, -, -⟩ := bsearch_found_spec hpsorted hbs
      have hm : q ∈ Node.toList (s + 1) (.mk ps cs) := by
        rw [Node.toList_succ]
        exact (pivots_sublist_inorder (by simp; omega)).subset
          (by simpa using List.getElem?_mem hget)
      show (match Probe.search (.comp q) ps (s + 1) with
        | .found i => ps[i]?
        | .missed i => Node.search (.comp q) s (cs.getD i default)) = _
      rw [probe_search_comp, hbs, if_pos hm]
      exact hget
    · obtain ⟨hi, hltq, hgtq⟩ := bsearch_missed_spec hpsorted hbs
      have hic : i < cs.length := by omega
      have hsplitc : cs.take i ++ cs.getD i default :: cs.drop (i + 1) = cs :=
        take_getD_drop hic default
      have hA : (cs.take i).length = i := by
        simp only [List.length_take]
        omega
      have hdec : Node.toList (s + 1) (.mk ps cs) =
          inorder ((cs.take i).map (Node.toList s)) (ps.take i) ++
            Node.toList s (cs.getD i default) ++
            inorderSuffix ((cs.drop (i + 1)).map (Node.toList s)) (ps.drop i) := by
        conv_lhs => rw [← hsplitc]
        exact Node.toList_decomp hA hi
      have hordd := hdec ▸ hord
      have hsc : (Node.toList s (cs.getD i default)).Sorted (· < ·) :=
        sorted_append_right (sorted_append_left hordd)
      have hmemiff : q ∈ Node.toList (s + 1) (.mk ps cs) ↔
          q ∈ Node.toList s (cs.getD i default) := by
        rw [hdec]
        constructor
        · intro hq
          rcases List.mem_append.mp hq with hq | hq
          · rcases List.mem_append.mp hq with hq | hq
            · obtain ⟨p, hp, hle⟩ := mem_inorder_le_last
                (by simp only [List.length_map, List.length_take]; omega)
                (sorted_append_left (sorted_append_left hordd)) hq
              exact absurd (lt_of_le_of_lt hle (hltq p hp)) (lt_irrefl q)
            · exact hq
          · obtain ⟨p, hp, hle⟩ := mem_inorderSuffix_ge_head
              (sorted_append_right hordd) hq
            exact absurd (lt_of_lt_of_le (hgtq p hp) hle) (lt_irrefl q)
        · intro hq
          exact List.mem_append.mpr (Or.inl (List.mem_append.mpr (Or.inr hq)))
      show (match Probe.search (.comp q) ps (s + 1) with
        | .found i => ps[i]?
        | .missed i => Node.search (.comp q) s (cs.getD i default)) = _
      rw [probe_search_comp, hbs]
      show Node.search (.comp q) s (cs.getD i default) =
        if q ∈ Node.toList (s + 1) (.mk ps cs) then some q else none
      rw [ih q (cs.getD i default)
        (hbal.2 (cs.getD i default) (getD_mem hic default)).2.2 hsc]
      by_cases hq : q ∈ Node.toList s (cs.getD i default)
      · rw [if_pos hq, if_pos (hmemiff.mpr hq)]
      · rw [if_neg hq, if_neg (fun hx => hq (hmemiff.mp hx))]

/-- `NodeArray::search` with the `First` probe returns the head of the
traversal. -/
theorem Node.search_first_spec [LinearOrder T] [Inhabited T] {M : Nat}
    (hM : 2 ≤ M) :
    ∀ (h : Nat) (n : Node T), Node.balanced M h n →
      Node.search .first h n = (Node.toList h n).head? := by
  intro h
  induction h with
  | zero =>
    intro n hbal
    obtain ⟨ps, cs⟩ := n
    cases ps with
    | nil => rfl
    | cons x xs =>
      show (match Probe.search (T := T) .first (x :: xs) 0 with
        | BSearch.found i => (x :: xs)[i]?
        | BSearch.missed _ => none) = _
      rw [probe_search_first_leaf (by simp)]
      simp [List.head?_eq_getElem?]
  | succ s ih =>
    intro n hbal
    obtain ⟨ps, cs⟩ := n
    have hcl : cs.length = ps.length + 1 := by simpa using hbal.1
    cases cs with
    | nil => simp at hcl
    | cons c0 rest =>
      have hc0 : M / 2 ≤ c0.len ∧ c0.len ≤ M ∧ Node.balanced M s c0 :=
        hbal.2 c0 (List.mem_cons_self c0 rest)
      have hne : Node.toList s c0 ≠ [] :=
        Node.toList_ne_nil hc0.2.2 (by omega)
      have hstep : Node.search .first (s + 1) (.mk ps (c0 :: rest)) =
          Node.search .first s c0 := by
        show (match Probe.search .first ps (s + 1) with
          | .found i => ps[i]?
          | .missed i => Node.search .first s ((c0 :: rest).getD i default)) = _
        rw [probe_search_first_internal]
        rfl
      rw [hstep, ih c0 hc0.2.2, Node.toList_succ]
      simp only [Node.children_mk, Node.pivots_mk, List.map_cons]
      rw [inorder_eq_append_suffix]
      cases hfc : Node.toList s c0 with
      | nil => exact absurd hfc hne
      | cons y ys => simp

/-- `NodeArray::search` with the `Last` probe returns the last element of the
traversal. -/
theorem Node.search_last_spec [LinearOrder T] [Inhabited T] {M : Nat}
    (hM : 2 ≤ M) :
    ∀ (h : Nat) (n : Node T), Node.balanced M h n →
      Node.search .last h n = (Node.toList h n).getLast? := by
  intro h
  induction h with
  | zero =>
    intro n hbal
    obtain ⟨ps, cs⟩ := n
    cases ps with
    | nil => rfl
    | cons x xs =>
      show (match Probe.search .last (x :: xs) 0 with
        | .found i => (x :: xs)[i]?
        | .missed _ => none) = _
      rw [probe_search_last_leaf (by simp)]
      rw [Node.toList_zero, Node.pivots_mk, List.getLast?_eq_getElem?]
  | succ s ih =>
    intro n hbal
    obtain ⟨ps, cs⟩ := n
    have hcl : cs.length = ps.length + 1 := by simpa using hbal.1
    have hic : ps.length < cs.length := by omega
    set clast := cs.getD ps.length default with hcld
    have hclm : clast ∈ cs := getD_mem hic default
    have hcb : M / 2 ≤ clast.len ∧ clast.len ≤ M ∧ Node.balanced M s clast :=
      hbal.2 clast hclm
    have hne : Node.toList s clast ≠ [] :=
      Node.toList_ne_nil hcb.2.2 (by omega)
    have hsplitc : cs.take ps.length ++ clast :: cs.drop (ps.length + 1) = cs :=
      take_getD_drop hic default
    have hdrop : cs.drop (ps.length + 1) = [] := by
      rw [List.drop_eq_nil_iff]
      omega
    have hA : (cs.take ps.length).length = ps.length := by
      simp only [List.length_take]
      omega
    have hdec : Node.toList (s + 1) (.mk ps cs) =
        inorder ((cs.take ps.length).map (Node.toList s)) (ps.take ps.length) ++
          Node.toList s clast ++
          inorderSuffix ((cs.drop (ps.length + 1)).map (Node.toList s))
            (ps.drop ps.length) := by
      conv_lhs => rw [← hsplitc]
      exact Node.toList_decomp hA (le_refl _)
    have hsufnil : inorderSuffix ((cs.drop (ps.length + 1)).map (Node.toList s))
        (ps.drop ps.length) = [] := by
      rw [List.drop_eq_nil_iff.mpr (le_refl _)]
      rfl
    have hstep : Node.search .last (s + 1) (.mk ps cs) =
        Node.search .last s clast := by
      show (match Probe.search .last ps (s + 1) with
        | .found i => ps[i]?
        | .missed i => Node.search .last s (cs.getD i default)) = _
      rw [probe_search_last_internal]
    rw [hstep, ih clast hcb.2.2, hdec, hsufnil, List.append_nil,
      List.getLast?_append_of_ne_nil _ hne]

/-- `OkBTree::get` is set membership on the traversal. -/
theorem OkBTree.get_spec [LinearOrder T] [Inhabited T] {t : OkBTree T} (q : T)
    (hwf : t.wf) : t.get q = if q ∈ t.toList then some q else none := by
  obtain ⟨inner⟩ := t
  cases inner with
  | none => simp [OkBTree.get, OkBTree.toList]
  | some i =>
    obtain ⟨d, n⟩ := i
    obtain ⟨-, hbal, hord, -, -⟩ := OkBTree.wf_elim hwf
    exact Node.search_comp_spec (d - 1) q n hbal hord

/-- `OkBTree::first` is the head of the traversal. -/
theorem OkBTree.first_spec [LinearOrder T] [Inhabited T] {t : OkBTree T}
    (hwf : t.wf) : t.first = t.toList.head? := by
  obtain ⟨inner⟩ := t
  cases inner with
  | none => rfl
  | some i =>
    obtain ⟨d, n⟩ := i
    obtain ⟨-, hbal, -, -, -⟩ := OkBTree.wf_elim hwf
    exact Node.search_first_spec (M := 2) (by omega) (d - 1) n hbal

/-- `OkBTree::last` is the last element of the traversal. -/
theorem OkBTree.last_spec [LinearOrder T] [Inhabited T] {t : OkBTree T}
    (hwf : t.wf) : t.last = t.toList.getLast? := by
  obtain ⟨inner⟩ := t
  cases inner with
  | none => rfl
  | some i =>
    obtain ⟨d, n⟩ := i
    obtain ⟨-, hbal, -, -, -⟩ := OkBTree.wf_elim hwf
    exact Node.search_last_spec (M := 2) (by omega) (d - 1) n hbal

/-- Tree-level contract of `OkBTree::insert`: well-formedness is preserved and
the traversal becomes `insKey v` of the old traversal. -/
theorem OkBTree.insert_wf [LinearOrder T] [Inhabited T] {t : OkBTree T} (v : T)
    (hwf : t.wf) :
    (t.insert v).wf ∧ (t.insert v).toList = insKey v t.toList := by
  obtain ⟨inner⟩ := t
  cases inner with
  | none =>
    constructor
    · exact OkBTree.wf_mk (by omega) rfl (by simp) (by simp [Node.len]) (by simp [Node.len])
    · rfl
  | some i =>
    obtain ⟨d, n⟩ := i
    obtain ⟨hd1, hbal, hord, hlen2, hzero⟩ := OkBTree.wf_elim hwf
    have hins := Node.insert_spec (M := 2) (by omega) (by omega) (d - 1) v n
      hbal hord hlen2
      (by
        intro hpos
        by_contra h0
        have hz := hzero (by omega)
        omega)
    rcases heqi : Node.insert 2 v (d - 1) n with ⟨n', ir⟩
    cases ir with
    | done =>
      obtain ⟨hbal', hge, hle1, hleM, htl⟩ := hins.1 n' heqi
      have hred : OkBTree.insert v ⟨some ⟨d, n⟩⟩ = ⟨some ⟨d, n'⟩⟩ := by
        show (match Node.insert 2 v (d - 1) n with
          | (n', .done) => (⟨some ⟨d, n'⟩⟩ : OkBTree T)
          | (n', .propagate p r) => ⟨some ⟨d + 1, ⟨[p], [n', r]⟩⟩⟩) = _
        rw [heqi]
      rw [hred]
      constructor
      · refine OkBTree.wf_mk hd1 hbal'
          (by rw [htl]; exact insKey_sorted hord) hleM ?_
        intro h0
        exact hzero (by omega)
      · rw [OkBTree.toList_mk, OkBTree.toList_mk]
        exact htl
    | propagate p r =>
      obtain ⟨hful, hn'l, hrl, hbal', hbalr, htl⟩ := hins.2 n' p r heqi
      have hred : OkBTree.insert v ⟨some ⟨d, n⟩⟩ =
          ⟨some ⟨d + 1, ⟨[p], [n', r]⟩⟩⟩ := by
        show (match Node.insert 2 v (d - 1) n with
          | (n', .done) => (⟨some ⟨d, n'⟩⟩ : OkBTree T)
          | (n', .propagate p r) => ⟨some ⟨d + 1, ⟨[p], [n', r]⟩⟩⟩) = _
        rw [heqi]
      have hd' : d = (d - 1) + 1 := by omega
      have htlroot : Node.toList d (.mk [p] [n', r]) =
          Node.toList (d - 1) n' ++ p :: Node.toList (d - 1) r := by
        rw [hd', Node.toList_succ]
        rfl
      rw [hred]
      constructor
      · refine OkBTree.wf_mk (by omega) ?_ ?_ (by simp [Node.len]) (by simp [Node.len])
        · show Node.balanced 2 d (.mk [p] [n', r])
          rw [hd']
          refine ⟨by simp [Node.len], ?_⟩
          intro c hc
          simp only [Node.children_mk, List.mem_cons] at hc
          rcases hc with rfl | rfl | hc
          · exact ⟨by omega, by omega, hbal'⟩
          · exact ⟨by omega, by omega, hbalr⟩
          · simp at hc
        · show (Node.toList d (.mk [p] [n', r])).Sorted (· < ·)
          rw [htlroot, htl]
          exact insKey_sorted hord
      · rw [OkBTree.toList_mk, OkBTree.toList_mk]
        show Node.toList d (.mk [p] [n', r]) = _
        rw [htlroot, htl]

/-- When the pivot search misses at slot `i`, membership in the node's
traversal is membership in child `i`'s traversal. -/
theorem mem_toList_child_iff [LinearOrder T] [Inhabited T] {s : Nat} {q : T}
    {ps : List T} {cs : List (Node T)} {i : Nat}
    (hcl : cs.length = ps.length + 1)
    (hord : (Node.toList (s + 1) (.mk ps cs)).Sorted (· < ·))
    (hi : i ≤ ps.length)
    (hltq : ∀ x ∈ ps.take i, x < q) (hgtq : ∀ x ∈ ps.drop i, q < x) :
    q ∈ Node.toList (s + 1) (.mk ps cs) ↔
      q ∈ Node.toList s (cs.getD i default) := by
  have hic : i < cs.length := by omega
  have hsplitc : cs.take i ++ cs.getD i default :: cs.drop (i + 1) = cs :=
    take_getD_drop hic default
  have hA : (cs.take i).length = i := by
    simp only [List.length_take]
    omega
  have hdec : Node.toList (s + 1) (.mk ps cs) =
      inorder ((cs.take i).map (Node.toList s)) (ps.take i) ++
        Node.toList s (cs.getD i default) ++
        inorderSuffix ((cs.drop (i + 1)).map (Node.toList s)) (ps.drop i) := by
    conv_lhs => rw [← hsplitc]
    exact Node.toList_decomp hA hi
  have hordd := hdec ▸ hord
  rw [hdec]
  constructor
  · intro hq
    rcases List.mem_append.mp hq with hq | hq
    · rcases List.mem_append.mp hq with hq | hq
      · obtain ⟨p, hp, hle⟩ := mem_inorder_le_last
          (by simp only [List.length_map, List.length_take]; omega)
          (sorted_append_left (sorted_append_left hordd)) hq
        exact absurd (lt_of_le_of_lt hle (hltq p hp)) (lt_irrefl q)
      · exact hq
    · obtain ⟨p, hp, hle⟩ := mem_inorderSuffix_ge_head
        (sorted_append_right hordd) hq
      exact absurd (lt_of_lt_of_le (hgtq p hp) hle) (lt_irrefl q)
  · intro hq
    exact List.mem_append.mpr (Or.inl (List.mem_append.mpr (Or.inr hq)))

/-- Inserting a value that is already stored replaces it with itself: the node
is returned unchanged with `Done` (the overwrite branch of
`NodeArray::insert`). -/
theorem Node.insert_mem_eq [LinearOrder T] [Inhabited T] {M : Nat} :
    ∀ (h : Nat) (v : T) (n : Node T),
      Node.balanced M h n → (Node.toList h n).Sorted (· < ·) →
      v ∈ Node.toList h n →
      Node.insert M v h n = (n, .done) := by
  intro h
  induction h with
  | zero =>
    intro v n hbal hord hmem
    obtain ⟨ps, cs⟩ := n
    have hcs : cs = [] := hbal
    have hps : ps.Sorted (· < ·) := by simpa using hord
    obtain ⟨i, hbs⟩ := bsearch_found_of_mem hps (by simpa using hmem)
    obtain ⟨hfi, hget, -, -⟩ := bsearch_found_spec hps hbs
    simp only [Node.insert, Node.pivots_mk, Node.children_mk, hbs]
    rw [set_of_getElem?_eq hget]
  | succ s ih =>
    intro v n hbal hord hmem
    obtain ⟨ps, cs⟩ := n
    have hcl : cs.length = ps.length + 1 := by simpa using hbal.1
    have hpsorted : ps.Sorted (· < ·) :=
      sorted_pivots_of_sorted_toList (by omega) hord
    rcases hbs : bsearch v ps with i | i
    · obtain ⟨hfi, hget, -, -⟩ := bsearch_found_spec hpsorted hbs
      simp only [Node.insert, Node.pivots_mk, Node.children_mk, hbs]
      rw [set_of_getElem?_eq hget]
    · obtain ⟨hi, hltq, hgtq⟩ := bsearch_missed_spec hpsorted hbs
      have hic : i < cs.length := by omega
      have hmemc : v ∈ Node.toList s (cs.getD i default) :=
        (mem_toList_child_iff hcl hord hi hltq hgtq).mp hmem
      have hsplitc : cs.take i ++ cs.getD i default :: cs.drop (i + 1) = cs :=
        take_getD_drop hic default
      have hA : (cs.take i).length = i := by
        simp only [List.length_take]
        omega
      have hdec : Node.toList (s + 1) (.mk ps cs) =
          inorder ((cs.take i).map (Node.toList s)) (ps.take i) ++
            Node.toList s (cs.getD i default) ++
            inorderSuffix ((cs.drop (i + 1)).map (Node.toList s)) (ps.drop i) := by
        conv_lhs => rw [← hsplitc]
        exact Node.toList_decomp hA hi
      have hordd := hdec ▸ hord
      have hsc : (Node.toList s (cs.getD i default)).Sorted (· < ·) :=
        sorted_append_right (sorted_append_left hordd)
      have hrec : Node.insert M v s (cs.getD i default) = (cs.getD i default, .done) :=
        ih v (cs.getD i default)
          (hbal.2 (cs.getD i default) (getD_mem hic default)).2.2 hsc hmemc
      simp only [Node.insert, Node.pivots_mk, Node.children_mk, hbs, hrec]
      rw [set_getD_self hic]

/-- Tree level: inserting an already-stored value leaves the tree bit-for-bit
unchanged. -/
theorem OkBTree.insert_mem_id [LinearOrder T] [Inhabited T] {t : OkBTree T}
    {v : T} (hwf : t.wf) (hmem : v ∈ t.toList) : t.insert v = t := by
  obtain ⟨inner⟩ := t
  cases inner with
  | none => simp [OkBTree.toList] at hmem
  | some i =>
    obtain ⟨d, n⟩ := i
    obtain ⟨hd1, hbal, hord, -, -⟩ := OkBTree.wf_elim hwf
    have hrec := Node.insert_mem_eq (M := 2) (d - 1) v n hbal hord hmem
    show (match Node.insert 2 v (d - 1) n with
      | (n', .done) => (⟨some ⟨d, n'⟩⟩ : OkBTree T)
      | (n', .propagate p r) => ⟨some ⟨d + 1, ⟨[p], [n', r]⟩⟩⟩) = _
    rw [hrec]

/-- `remove_first` on a non-empty well-formed tree pops the head of the
traversal. -/
theorem OkBTree.removeFirst_cons [LinearOrder T] [Inhabited T] {t : OkBTree T}
    {x : T} {rest : List T} (hwf : t.wf) (htl : t.toList = x :: rest) :
    ∃ t', t.removeFirst = (t', some x) ∧ t'.wf ∧ t'.toList = rest := by
  obtain ⟨t', ro, heq, hwf', -, hnone, hsomev⟩ :=
    OkBTree.removeInner_spec (b := .first) hwf
  rcases ro with _ | v
  · obtain ⟨-, -, hfst, -⟩ := hnone rfl
    rw [htl] at hfst
    exact absurd (hfst rfl) (by simp)
  · obtain ⟨pre, suf, hspan, hspan', -, hfirstP, -⟩ := hsomev v rfl
    have hpre : pre = [] := hfirstP rfl
    subst hpre
    rw [htl] at hspan
    simp only [List.nil_append] at hspan hspan'
    obtain ⟨rfl, rfl⟩ : v = x ∧ suf = rest := by
      have h1 := List.head_eq_of_cons_eq hspan.symm
      have h2 := List.tail_eq_of_cons_eq hspan.symm
      exact ⟨h1, h2⟩
    exact ⟨t', heq, hwf', hspan'⟩

/-- `remove_first` on an empty traversal reports `None` and leaves the tree
unchanged. -/
theorem OkBTree.removeFirst_nil [LinearOrder T] [Inhabited T] {t : OkBTree T}
    (hwf : t.wf) (htl : t.toList = []) : t.removeFirst = (t, none) := by
  obtain ⟨t', ro, heq, -, -, hnone, hsomev⟩ :=
    OkBTree.removeInner_spec (b := .first) hwf
  rcases ro with _ | v
  · obtain ⟨rfl, -, -, -⟩ := hnone rfl
    exact heq
  · obtain ⟨pre, suf, hspan, -, -, -, -⟩ := hsomev v rfl
    rw [htl] at hspan
    exact absurd hspan.symm (by simp)

/-- Draining a well-formed tree with `toList.length` calls of `remove_first`
returns exactly the (sorted) traversal and empties the tree. -/
theorem OkBTree.drainFirst_spec [LinearOrder T] [Inhabited T] :
    ∀ (k : Nat) (t : OkBTree T), t.wf → t.toList.length = k →
      ∃ t', OkBTree.drainFirst k t = (t.toList, t') ∧ t'.toList = [] ∧ t'.wf := by
  intro k
  induction k with
  | zero =>
    intro t hwf hlen
    have hnil : t.toList = [] := List.length_eq_zero.mp hlen
    exact ⟨t, by rw [hnil]; rfl, hnil, hwf⟩
  | succ k ih =>
    intro t hwf hlen
    cases htl : t.toList with
    | nil =>
      rw [htl] at hlen
      simp at hlen
    | cons x rest =>
      obtain ⟨t1, heq1, hwf1, htl1⟩ := OkBTree.removeFirst_cons hwf htl
      obtain ⟨t', heq', htl', hwf'⟩ := ih t1 hwf1 (by
        rw [htl1]
        rw [htl] at hlen
        simpa using hlen)
      refine ⟨t', ?_, htl', hwf'⟩
      show (match t.removeFirst with
        | (t', none) => ([], t')
        | (t', some v) =>
          (v :: (OkBTree.drainFirst k t').1, (OkBTree.drainFirst k t').2)) = _
      rw [heq1]
      show (x :: (OkBTree.drainFirst k t1).1, (OkBTree.drainFirst k t1).2) =
        (x :: rest, t')
      rw [heq', htl1]

/-- Folding `insert` over a list starting from any well-formed tree: the tree
stays well-formed and the traversal is the `insKey` fold. -/
theorem OkBTree.foldl_insert_spec [LinearOrder T] [Inhabited T] :
    ∀ (l : List T) (t : OkBTree T), t.wf →
      (l.foldl (fun t v => t.insert v) t).wf ∧
      (l.foldl (fun t v => t.insert v) t).toList =
        l.foldl (fun a v => insKey v a) t.toList := by
  intro l
  induction l with
  | nil => intro t hwf; exact ⟨hwf, rfl⟩
  | cons v l' ih =>
    intro t hwf
    obtain ⟨hwf1, htl1⟩ := OkBTree.insert_wf v hwf
    obtain ⟨hwf2, htl2⟩ := ih (t.insert v) hwf1
    exact ⟨hwf2, by rw [List.foldl_cons, List.foldl_cons, htl2, htl1]⟩

/-- Membership in an `insKey` fold. -/
theorem mem_foldl_insKey [LinearOrder T] :
    ∀ (l acc : List T) (x : T),
      x ∈ l.foldl (fun a v => insKey v a) acc ↔ x ∈ acc ∨ x ∈ l := by
  intro l
  induction l with
  | nil => intro acc x; simp
  | cons v l' ih =>
    intro acc x
    rw [List.foldl_cons, ih]
    rw [mem_insKey]
    constructor
    · rintro ((rfl | h) | h)
      · exact Or.inr (by simp)
      · exact Or.inl h
      · exact Or.inr (by simp [h])
    · rintro (h | h)
      · exact Or.inl (Or.inr h)
      · rcases List.mem_cons.mp h with rfl | h
        · exact Or.inl (Or.inl rfl)
        · exact Or.inr h

/-- The head of a sorted list is its minimum. -/
theorem sorted_head_min [LinearOrder T] {x : T} {xs : List T}
    (hs : (x :: xs).Sorted (· < ·)) : ∀ y ∈ x :: xs, x ≤ y := by
  intro y hy
  rcases List.mem_cons.mp hy with rfl | hy
  · exact le_refl y
  · exact le_of_lt (List.rel_of_sorted_cons hs y hy)

/-- Every element of a sorted list is at most its last element. -/
theorem sorted_le_getLast [LinearOrder T] :
    ∀ {l : List T}, l.Sorted (· < ·) → ∀ (h : l ≠ []),
      ∀ y ∈ l, y ≤ l.getLast h := by
  intro l
  induction l with
  | nil => intro _ h; exact absurd rfl h
  | cons x xs ih =>
    intro hs h y hy
    cases xs with
    | nil =>
      rcases List.mem_cons.mp hy with rfl | hy
      · exact le_refl y
      · simp at hy
    | cons z zs =>
      rw [List.getLast_cons (by simp)]
      rcases List.mem_cons.mp hy with rfl | hy
      · refine le_of_lt (List.rel_of_sorted_cons hs _ ?_)
        exact List.getLast_mem (by simp)
      · exact ih hs.of_cons (by simp) y hy

/-- The first result component of `remove_inner` is always well-formed. -/
theorem OkBTree.removeInner_wf [LinearOrder T] [Inhabited T] {t : OkBTree T}
    {b : Probe T} (hwf : t.wf) : (t.removeInner b).1.wf := by
  obtain ⟨t', ro, heq, hwf', -⟩ := OkBTree.removeInner_spec (b := b) hwf
  rw [heq]
  exact hwf'

/-- The first result component of `remove_inner` never has a larger depth. -/
theorem OkBTree.removeInner_depth_le [LinearOrder T] [Inhabited T] {t : OkBTree T}
    {b : Probe T} (hwf : t.wf) : (t.removeInner b).1.depth ≤ t.depth := by
  obtain ⟨t', ro, heq, -, hdep, -⟩ := OkBTree.removeInner_spec (b := b) hwf
  rw [heq]
  exact hdep

/-- The traversal of a well-formed tree is strictly ascending. -/
theorem OkBTree.wf_toList_sorted [LinearOrder T] {t : OkBTree T} (hwf : t.wf) :
    t.toList.Sorted (· < ·) := by
  obtain ⟨inner⟩ := t
  cases inner with
  | none => exact List.sorted_nil
  | some i =>
    obtain ⟨d, n⟩ := i
    exact (OkBTree.wf_elim hwf).2.2.1

/-! ## Claim theorems -/

/-- C1: after every mutating public operation the tree satisfies the B-tree
invariant `OkBTree.wf` (in-order traversal strictly ascending, all leaves at
the same height, `len + 1` children per internal node, non-root pivot counts
in `[M/2, M]`, root pivot count in `[1, M]` when non-empty); the read-only
operations (`get`, `first`, `last`) take the tree by shared reference and
return no tree.  `new` starts well-formed. -/
theorem claim_C1_invariant_preserved [LinearOrder T] [Inhabited T]
    (t : OkBTree T) (v q : T) (hwf : t.wf) :
    OkBTree.wf (OkBTree.new (T := T)) ∧
    (t.insert v).wf ∧
    (t.remove q).1.wf ∧
    t.removeFirst.1.wf ∧
    t.removeLast.1.wf := by
  refine ⟨trivial, (OkBTree.insert_wf v hwf).1, ?_, ?_, ?_⟩ <;>
    exact OkBTree.removeInner_wf hwf

/-- C1 witness at a concrete tree. -/
theorem claim_C1_invariant_preserved_witness :
    OkBTree.wf (OkBTree.new (T := Nat)) ∧
    (OkBTree.wf (OkBTree.new (T := Nat)) ∧
      ((OkBTree.new (T := Nat)).insert 5).wf ∧
      ((OkBTree.new (T := Nat)).remove 7).1.wf ∧
      (OkBTree.new (T := Nat)).removeFirst.1.wf ∧
      (OkBTree.new (T := Nat)).removeLast.1.wf) :=
  ⟨True.intro, claim_C1_invariant_preserved OkBTree.new 5 7 True.intro⟩

/-- C6: insert is idempotent (and replaces on equal): on a well-formed tree
the second insert of the same value finds the exact match, overwrites the
pivot with itself and changes nothing, so the trees are equal bit for bit. -/
theorem claim_C6_insert_idempotent [LinearOrder T] [Inhabited T]
    (t : OkBTree T) (v : T) (hwf : t.wf) :
    (t.insert v).insert v = t.insert v ∧
    ((t.insert v).insert v).toList.length = (t.insert v).toList.length := by
  obtain ⟨hwf1, htl1⟩ := OkBTree.insert_wf v hwf
  have hmem : v ∈ (t.insert v).toList := by
    rw [htl1]
    exact mem_insKey.mpr (Or.inl rfl)
  have heq := OkBTree.insert_mem_id hwf1 hmem
  exact ⟨heq, by rw [heq]⟩

/-- C6 witness at a concrete tree. -/
theorem claim_C6_insert_idempotent_witness :
    OkBTree.wf (OkBTree.new (T := Nat)) ∧
    (((OkBTree.new (T := Nat)).insert 3).insert 3 = (OkBTree.new (T := Nat)).insert 3 ∧
      (((OkBTree.new (T := Nat)).insert 3).insert 3).toList.length =
        ((OkBTree.new (T := Nat)).insert 3).toList.length) :=
  ⟨True.intro, claim_C6_insert_idempotent OkBTree.new 3 True.intro⟩

/-- C9: removing a key that compares equal to no stored element returns `None`
and leaves the tree bit-for-bit unchanged (same nodes, pivot counts and
depth). -/
theorem claim_C9_remove_miss_unchanged [LinearOrder T] [Inhabited T]
    (t : OkBTree T) (q : T) (hwf : t.wf) (hq : q ∉ t.toList) :
    t.remove q = (t, none) := by
  obtain ⟨t', ro, heq, -, -, hnone, hsomev⟩ :=
    OkBTree.removeInner_spec (b := .comp q) hwf
  rcases ro with _ | v
  · obtain ⟨rfl, -, -, -⟩ := hnone rfl
    exact heq
  · obtain ⟨pre, suf, hspan, -, hcq, -, -⟩ := hsomev v rfl
    have hvq : v = q := hcq q rfl
    subst hvq
    exact absurd (by rw [hspan]; simp : v ∈ t.toList) hq

/-- C9 witness at a concrete tree. -/
theorem claim_C9_remove_miss_unchanged_witness :
    (OkBTree.wf (OkBTree.new (T := Nat)) ∧ 7 ∉ (OkBTree.new (T := Nat)).toList) ∧
    (OkBTree.new (T := Nat)).remove 7 = (OkBTree.new, none) :=
  ⟨⟨True.intro, by simp [OkBTree.toList, OkBTree.new]⟩,
   claim_C9_remove_miss_unchanged OkBTree.new 7 True.intro
     (by simp [OkBTree.toList, OkBTree.new])⟩

/-- C4: after inserting any list of distinct keys into an empty tree, `get`
finds exactly the inserted keys (and answers `None` on every other probe),
`first` is the minimum stored element and `last` the maximum. -/
theorem claim_C4_query_semantics [LinearOrder T] [Inhabited T]
    (l : List T) (hnd : l.Nodup) :
    (∀ k ∈ l, (OkBTree.insertAll l).get k = some k) ∧
    (∀ k, k ∉ l → (OkBTree.insertAll l).get k = none) ∧
    (l ≠ [] → ∃ m, (OkBTree.insertAll l).first = some m ∧ m ∈ l ∧
      ∀ x ∈ l, m ≤ x) ∧
    (l ≠ [] → ∃ m, (OkBTree.insertAll l).last = some m ∧ m ∈ l ∧
      ∀ x ∈ l, x ≤ m) := by
  obtain ⟨hwf0, htl⟩ := OkBTree.foldl_insert_spec l OkBTree.new trivial
  have hwf : (OkBTree.insertAll l).wf := hwf0
  have hmem : ∀ x, x ∈ (OkBTree.insertAll l).toList ↔ x ∈ l := by
    intro x
    show x ∈ (l.foldl (fun t v => t.insert v) OkBTree.new).toList ↔ _
    rw [htl]
    show x ∈ l.foldl (fun a v => insKey v a) (OkBTree.toList OkBTree.new) ↔ _
    rw [show OkBTree.toList (OkBTree.new (T := T)) = [] from rfl, mem_foldl_insKey]
    simp
  have hsorted : (OkBTree.insertAll l).toList.Sorted (· < ·) :=
    OkBTree.wf_toList_sorted hwf
  refine ⟨?_, ?_, ?_, ?_⟩
  · intro k hk
    rw [OkBTree.get_spec k hwf, if_pos ((hmem k).mpr hk)]
  · intro k hk
    rw [OkBTree.get_spec k hwf, if_neg (fun hx => hk ((hmem k).mp hx))]
  · intro hne
    obtain ⟨x, hx⟩ := List.exists_mem_of_ne_nil l hne
    have hxin : x ∈ (OkBTree.insertAll l).toList := (hmem x).mpr hx
    cases hcase : (OkBTree.insertAll l).toList with
    | nil => rw [hcase] at hxin; simp at hxin
    | cons m rest =>
      refine ⟨m, ?_, ?_, ?_⟩
      · rw [OkBTree.first_spec hwf, hcase]
        rfl
      · exact (hmem m).mp (by rw [hcase]; simp)
      · intro y hy
        have hys : y ∈ m :: rest := by rw [← hcase]; exact (hmem y).mpr hy
        exact sorted_head_min (hcase ▸ hsorted) y hys
  · intro hne
    obtain ⟨x, hx⟩ := List.exists_mem_of_ne_nil l hne
    have hxin : x ∈ (OkBTree.insertAll l).toList := (hmem x).mpr hx
    have hlne : (OkBTree.insertAll l).toList ≠ [] := by
      intro hc
      rw [hc] at hxin
      simp at hxin
    refine ⟨(OkBTree.insertAll l).toList.getLast hlne, ?_, ?_, ?_⟩
    · rw [OkBTree.last_spec hwf]
      exact List.getLast?_eq_getLast _ hlne
    · exact (hmem _).mp (List.getLast_mem hlne)
    · intro y hy
      exact sorted_le_getLast hsorted hlne y ((hmem y).mpr hy)

/-- C4 witness at a concrete key list. -/
theorem claim_C4_query_semantics_witness :
    ([3, 1, 2] : List Nat).Nodup ∧
    ((∀ k ∈ ([3, 1, 2] : List Nat), (OkBTree.insertAll [3, 1, 2]).get k = some k) ∧
    (∀ k, k ∉ ([3, 1, 2] : List Nat) → (OkBTree.insertAll [3, 1, 2]).get k = none) ∧
    (([3, 1, 2] : List Nat) ≠ [] → ∃ m,
      (OkBTree.insertAll [3, 1, 2]).first = some m ∧ m ∈ ([3, 1, 2] : List Nat) ∧
      ∀ x ∈ ([3, 1, 2] : List Nat), m ≤ x) ∧
    (([3, 1, 2] : List Nat) ≠ [] → ∃ m,
      (OkBTree.insertAll [3, 1, 2]).last = some m ∧ m ∈ ([3, 1, 2] : List Nat) ∧
      ∀ x ∈ ([3, 1, 2] : List Nat), x ≤ m)) :=
  ⟨by decide, claim_C4_query_semantics [3, 1, 2] (by decide)⟩

/-- C5: inserting any sequence of keys and then calling `remove_first` once
per stored element returns exactly the ascending sorted sequence of the stored
elements and empties the tree. -/
theorem claim_C5_drain_ascending [LinearOrder T] [Inhabited T] (l : List T) :
    ∃ out t',
      OkBTree.drainFirst (OkBTree.insertAll l).toList.length
        (OkBTree.insertAll l) = (out, t') ∧
      out.Sorted (· < ·) ∧ (∀ x, x ∈ out ↔ x ∈ l) ∧ t'.toList = [] := by
  obtain ⟨hwf0, htl⟩ := OkBTree.foldl_insert_spec l OkBTree.new trivial
  have hwf : (OkBTree.insertAll l).wf := hwf0
  obtain ⟨t', heq, htl', -⟩ :=
    OkBTree.drainFirst_spec (OkBTree.insertAll l).toList.length
      (OkBTree.insertAll l) hwf rfl
  refine ⟨(OkBTree.insertAll l).toList, t', heq, OkBTree.wf_toList_sorted hwf,
    ?_, htl'⟩
  intro x
  show x ∈ (l.foldl (fun t v => t.insert v) OkBTree.new).toList ↔ _
  rw [htl]
  rw [show OkBTree.toList (OkBTree.new (T := T)) = [] from rfl, mem_foldl_insKey]
  simp

/-- C5 witness at a concrete key list. -/
theorem claim_C5_drain_ascending_witness :
    ∃ out t',
      OkBTree.drainFirst (OkBTree.insertAll ([2, 1] : List Nat)).toList.length
        (OkBTree.insertAll [2, 1]) = (out, t') ∧
      out.Sorted (· < ·) ∧ (∀ x, x ∈ out ↔ x ∈ ([2, 1] : List Nat)) ∧
      t'.toList = [] :=
  claim_C5_drain_ascending [2, 1]

/-- C7: insert is the only depth-increasing operation.  On an empty tree it
creates a single leaf of depth 1; when the root's insert propagates a split it
installs exactly the new root `⟨[p], (head = old_root, tail[0] = r)⟩` with the
depth incremented; when it completes in place the depth is unchanged; and
`remove_inner` (hence `remove`, `remove_first`, `remove_last`) never increases
the depth. -/
theorem claim_C7_depth_increase [LinearOrder T] [Inhabited T]
    (t : OkBTree T) (v : T) (b : Probe T) (hwf : t.wf) :
    (t.inner = none → t.insert v = ⟨some ⟨1, ⟨[v], []⟩⟩⟩ ∧ (t.insert v).depth = 1) ∧
    (∀ i n' p r, t.inner = some i →
      Node.insert 2 v (i.depth - 1) i.node = (n', .propagate p r) →
      t.insert v = ⟨some ⟨i.depth + 1, ⟨[p], [n', r]⟩⟩⟩ ∧
      (t.insert v).depth = t.depth + 1) ∧
    (∀ i n', t.inner = some i →
      Node.insert 2 v (i.depth - 1) i.node = (n', .done) →
      (t.insert v).depth = t.depth) ∧
    (t.removeInner b).1.depth ≤ t.depth := by
  obtain ⟨inner⟩ := t
  refine ⟨?_, ?_, ?_, OkBTree.removeInner_depth_le hwf⟩
  · intro hno
    cases inner with
    | some i => cases hno
    | none => exact ⟨rfl, rfl⟩
  · intro i n' p r hsome heqi
    cases inner with
    | none => cases hsome
    | some i0 =>
      replace hsome := Option.some.inj hsome
      subst hsome
      constructor
      · show (match Node.insert 2 v (i0.depth - 1) i0.node with
          | (n', .done) => (⟨some ⟨i0.depth, n'⟩⟩ : OkBTree T)
          | (n', .propagate p r) => ⟨some ⟨i0.depth + 1, ⟨[p], [n', r]⟩⟩⟩) = _
        rw [heqi]
      · show OkBTree.depth (match Node.insert 2 v (i0.depth - 1) i0.node with
          | (n', .done) => (⟨some ⟨i0.depth, n'⟩⟩ : OkBTree T)
          | (n', .propagate p r) => ⟨some ⟨i0.depth + 1, ⟨[p], [n', r]⟩⟩⟩) = _
        rw [heqi]
        rfl
  · intro i n' hsome heqi
    cases inner with
    | none => cases hsome
    | some i0 =>
      replace hsome := Option.some.inj hsome
      subst hsome
      show OkBTree.depth (match Node.insert 2 v (i0.depth - 1) i0.node with
        | (n', .done) => (⟨some ⟨i0.depth, n'⟩⟩ : OkBTree T)
        | (n', .propagate p r) => ⟨some ⟨i0.depth + 1, ⟨[p], [n', r]⟩⟩⟩) = _
      rw [heqi]
      rfl

/-- C7 witness at a concrete tree. -/
theorem claim_C7_depth_increase_witness :
    OkBTree.wf (OkBTree.new (T := Nat)) ∧
    (((OkBTree.new (T := Nat)).inner = none →
      (OkBTree.new (T := Nat)).insert 5 = ⟨some ⟨1, ⟨[5], []⟩⟩⟩ ∧
      ((OkBTree.new (T := Nat)).insert 5).depth = 1) ∧
    (∀ i n' p r, (OkBTree.new (T := Nat)).inner = some i →
      Node.insert 2 5 (i.depth - 1) i.node = (n', .propagate p r) →
      (OkBTree.new (T := Nat)).insert 5 = ⟨some ⟨i.depth + 1, ⟨[p], [n', r]⟩⟩⟩ ∧
      ((OkBTree.new (T := Nat)).insert 5).depth = (OkBTree.new (T := Nat)).depth + 1) ∧
    (∀ i n', (OkBTree.new (T := Nat)).inner = some i →
      Node.insert 2 5 (i.depth - 1) i.node = (n', .done) →
      ((OkBTree.new (T := Nat)).insert 5).depth = (OkBTree.new (T := Nat)).depth) ∧
    ((OkBTree.new (T := Nat)).removeInner .first).1.depth ≤
      (OkBTree.new (T := Nat)).depth) :=
  ⟨True.intro, claim_C7_depth_increase OkBTree.new 5 .first True.intro⟩

/-- C8: when the root's remove reports `Underflow(v)` on a non-empty tree, the
tree re-roots to the root's head child with the depth decremented exactly when
the root emptied (`len = 0`) at depth `> 1`; otherwise the underfull root is
kept; either way the call returns `some v`. -/
theorem claim_C8_root_underflow [LinearOrder T] [Inhabited T]
    (t : OkBTree T) (b : Probe T) (i : BTreeInner T) (n' : Node T) (v : T)
    (hinner : t.inner = some i) (hne : i.node.len ≠ 0)
    (hrem : Node.remove 2 (i.depth - 1) b i.node = (n', some (.underflow v))) :
    t.removeInner b =
      (if n'.len = 0 ∧ 1 < i.depth then
        ⟨some ⟨i.depth - 1, n'.children.getD 0 default⟩⟩
      else ⟨some ⟨i.depth, n'⟩⟩, some v) := by
  obtain ⟨inner⟩ := t
  cases inner with
  | none => cases hinner
  | some i0 =>
    replace hinner := Option.some.inj hinner
    subst hinner
    show (if i0.node.len = 0 then _ else _) = _
    rw [if_neg hne]
    show (match Node.remove 2 (i0.depth - 1) b i0.node with
      | (n', none) => ((⟨some ⟨i0.depth, n'⟩⟩ : OkBTree T), none)
      | (n', some (.done v)) => (⟨some ⟨i0.depth, n'⟩⟩, some v)
      | (n', some (.underflow v)) =>
        if n'.len = 0 ∧ 1 < i0.depth then
          (⟨some ⟨i0.depth - 1, n'.children.getD 0 default⟩⟩, some v)
        else (⟨some ⟨i0.depth, n'⟩⟩, some v)) = _
    rw [hrem]
    show (if n'.len = 0 ∧ 1 < i0.depth then
        ((⟨some ⟨i0.depth - 1, n'.children.getD 0 default⟩⟩ : OkBTree T), some v)
      else (⟨some ⟨i0.depth, n'⟩⟩, some v)) = _
    by_cases hc : n'.len = 0 ∧ 1 < i0.depth
    · rw [if_pos hc, if_pos hc]
    · rw [if_neg hc, if_neg hc]

/-- C8 witness: removing `1` from the two-level tree `[[1], 2, [3]]` empties
the root, re-roots to the merged leaf `[2, 3]` and decrements the depth. -/
theorem claim_C8_root_underflow_witness :
    ((OkBTree.mk (T := Nat)
        (some ⟨2, .mk [2] [.mk [1] [], .mk [3] []]⟩)).inner =
          some ⟨2, .mk [2] [.mk [1] [], .mk [3] []]⟩ ∧
      (BTreeInner.mk (T := Nat) 2 (.mk [2] [.mk [1] [], .mk [3] []])).node.len ≠ 0 ∧
      Node.remove 2 (2 - 1) (.comp 1)
        (Node.mk (T := Nat) [2] [.mk [1] [], .mk [3] []]) =
        (.mk [] [.mk [2, 3] []], some (.underflow 1))) ∧
    (OkBTree.mk (T := Nat)
        (some ⟨2, .mk [2] [.mk [1] [], .mk [3] []]⟩)).removeInner (.comp 1) =
      (if (Node.mk (T := Nat) [] [.mk [2, 3] []]).len = 0 ∧
          1 < (BTreeInner.mk (T := Nat) 2
            (.mk [2] [.mk [1] [], .mk [3] []])).depth then
        ⟨some ⟨(BTreeInner.mk (T := Nat) 2
            (.mk [2] [.mk [1] [], .mk [3] []])).depth - 1,
          (Node.mk (T := Nat) [] [.mk [2, 3] []]).children.getD 0 default⟩⟩
      else ⟨some ⟨2, .mk [] [.mk [2, 3] []]⟩⟩, some 1) :=
  ⟨⟨rfl, by decide, rfl⟩,
   claim_C8_root_underflow _ (.comp 1) ⟨2, .mk [2] [.mk [1] [], .mk [3] []]⟩
     (.mk [] [.mk [2, 3] []]) 1 rfl (by decide) rfl⟩

/-- C10: removing the last element of a depth-1 tree keeps the root allocated
as an empty leaf (`some` root with `len = 0`) instead of dropping it, and on
that state `get`, `first`, `last` and every remove variant answer `None`
without changing the tree. -/
theorem claim_C10_empty_leaf_root [LinearOrder T] [Inhabited T]
    (t : OkBTree T) (q : T) (b : Probe T) :
    (∀ n, t.inner = some ⟨1, n⟩ → t.wf → t.toList.length = 1 →
      ∀ t' v, t.removeInner b = (t', some v) →
        t' = ⟨some ⟨1, .mk [] []⟩⟩) ∧
    (∀ n, t.inner = some ⟨1, n⟩ → n.len = 0 →
      t.get q = none ∧ t.first = none ∧ t.last = none ∧
        t.removeInner b = (t, none)) := by
  obtain ⟨inner⟩ := t
  constructor
  · intro n hin hwf hlen1 t' v hre
    cases inner with
    | none => cases hin
    | some i0 =>
      replace hin := Option.some.inj hin
      subst hin
      obtain ⟨-, hbal, -, -, -⟩ := OkBTree.wf_elim hwf
      obtain ⟨ps, cs⟩ := n
      have hcs : cs = [] := hbal
      subst hcs
      have hlen1' : ps.length = 1 := by simpa using hlen1
      obtain ⟨w, hw⟩ := List.length_eq_one.mp hlen1'
      subst hw
      rcases hs : Probe.search b [w] 0 with i | i
      · have hi0 : i = 0 := by
          cases b with
          | comp q0 =>
            have h1 := (bsearch_found_spec (List.sorted_singleton w)
              (by rwa [probe_search_comp] at hs)).1
            simp only [List.length_cons, List.length_nil] at h1
            omega
          | first =>
            rw [probe_search_first_leaf (by simp)] at hs
            cases hs
            rfl
          | last =>
            rw [probe_search_last_leaf (by simp)] at hs
            cases hs
            rfl
        subst hi0
        have hremove : Node.remove 2 0 b (.mk [w] []) =
            (.mk [] [], some (.underflow w)) := by
          simp only [Node.remove, Node.pivots_mk, Node.children_mk, hs]
          rfl
        have hfull : OkBTree.removeInner b (⟨some ⟨1, .mk [w] []⟩⟩ : OkBTree T) =
            (⟨some ⟨1, .mk [] []⟩⟩, some w) := by
          show (if (Node.mk [w] ([] : List (Node T))).len = 0 then
              ((⟨some ⟨1, .mk [w] []⟩⟩ : OkBTree T), (none : Option T))
            else
              match Node.remove 2 0 b (.mk [w] []) with
              | (n', none) => ((⟨some ⟨1, n'⟩⟩ : OkBTree T), none)
              | (n', some (.done v)) => (⟨some ⟨1, n'⟩⟩, some v)
              | (n', some (.underflow v)) =>
                if n'.len = 0 ∧ 1 < 1 then
                  (⟨some ⟨0, n'.children.getD 0 default⟩⟩, some v)
                else (⟨some ⟨1, n'⟩⟩, some v)) = _
          rw [if_neg (by simp [Node.len]), hremove]
          rfl
        have hcomb := hfull.symm.trans hre
        exact (Prod.mk.inj hcomb).1.symm
      · have hremove : Node.remove 2 0 b (.mk [w] []) = (.mk [w] [], none) := by
          simp only [Node.remove, Node.pivots_mk, Node.children_mk, hs]
        have hfull : OkBTree.removeInner b (⟨some ⟨1, .mk [w] []⟩⟩ : OkBTree T) =
            (⟨some ⟨1, .mk [w] []⟩⟩, none) := by
          show (if (Node.mk [w] ([] : List (Node T))).len = 0 then
              ((⟨some ⟨1, .mk [w] []⟩⟩ : OkBTree T), (none : Option T))
            else
              match Node.remove 2 0 b (.mk [w] []) with
              | (n', none) => ((⟨some ⟨1, n'⟩⟩ : OkBTree T), none)
              | (n', some (.done v)) => (⟨some ⟨1, n'⟩⟩, some v)
              | (n', some (.underflow v)) =>
                if n'.len = 0 ∧ 1 < 1 then
                  (⟨some ⟨0, n'.children.getD 0 default⟩⟩, some v)
                else (⟨some ⟨1, n'⟩⟩, some v)) = _
          rw [if_neg (by simp [Node.len]), hremove]
        have hcomb := hfull.symm.trans hre
        exact absurd (Prod.mk.inj hcomb).2 (by simp)
  · intro n hin hn0
    cases inner with
    | none => cases hin
    | some i0 =>
      replace hin := Option.some.inj hin
      subst hin
      obtain ⟨ps, cs⟩ := n
      have hps : ps = [] := by
        simpa using List.length_eq_zero.mp (by simpa [Node.len] using hn0)
      subst hps
      refine ⟨rfl, rfl, rfl, ?_⟩
      show (if (Node.mk ([] : List T) cs).len = 0 then
          ((⟨some ⟨1, .mk [] cs⟩⟩ : OkBTree T), (none : Option T))
        else
          match Node.remove 2 0 b (.mk [] cs) with
          | (n', none) => ((⟨some ⟨1, n'⟩⟩ : OkBTree T), none)
          | (n', some (.done v)) => (⟨some ⟨1, n'⟩⟩, some v)
          | (n', some (.underflow v)) =>
            if n'.len = 0 ∧ 1 < 1 then
              (⟨some ⟨0, n'.children.getD 0 default⟩⟩, some v)
            else (⟨some ⟨1, n'⟩⟩, some v)) = _
      rw [if_pos hn0]

/-- C10 witness at a concrete singleton tree. -/
theorem claim_C10_empty_leaf_root_witness :
    ((OkBTree.mk (T := Nat) (some ⟨1, .mk [5] []⟩)).inner = some ⟨1, .mk [5] []⟩ ∧
      (OkBTree.mk (T := Nat) (some ⟨1, .mk [5] []⟩)).wf ∧
      (OkBTree.mk (T := Nat) (some ⟨1, .mk [5] []⟩)).toList.length = 1 ∧
      (OkBTree.mk (T := Nat) (some ⟨1, .mk [5] []⟩)).removeInner .first =
        (⟨some ⟨1, .mk [] []⟩⟩, some 5)) ∧
    (⟨some ⟨1, .mk [] []⟩⟩ : OkBTree Nat) = ⟨some ⟨1, .mk [] []⟩⟩ :=
  ⟨⟨rfl, ⟨le_refl 1, rfl, by simp [Node.ordered], by simp [Node.len], fun _ => rfl⟩,
      rfl, rfl⟩,
   (claim_C10_empty_leaf_root (OkBTree.mk (some ⟨1, .mk [5] []⟩)) 0 .first).1
     (.mk [5] []) rfl
     ⟨le_refl 1, rfl, by simp [Node.ordered], by simp [Node.len], fun _ => rfl⟩ rfl
     ⟨some ⟨1, .mk [] []⟩⟩ 5 rfl⟩

/-- C3: the split contract.  `insert_split` (callable whenever `len = M`)
produces the median dictated by the insertion index against `m = M/2` (the
incoming value at `i = m`, the original pivot at `m - 1` for `i < m`, at `m`
for `i > m`), leaves both nodes with exactly `m` pivots (and `m + 1` children
each when internal), the three parts concatenating to the pivot sequence with
the value inserted; and `insert` splits only when it reaches a full node:
a `Propagate` result certifies `len = M`, both halves balanced with `M/2`
pivots, and the two nodes around the median still strictly ascending. -/
theorem claim_C3_split_contract [LinearOrder T] [Inhabited T] {M : Nat}
    (hM : 2 ≤ M) (hEv : M % 2 = 0) :
    (∀ (n : Node T) (index : Nat) (value : T) (child : Option (Node T)),
      n.pivots.length = M → index ≤ M →
      ∃ n' mid right,
        n.insertSplit M index value child = (n', .propagate mid right) ∧
        mid = (if index = M / 2 then value
               else if index < M / 2 then n.pivots.getD (M / 2 - 1) default
               else n.pivots.getD (M / 2) default) ∧
        n'.pivots.length = M / 2 ∧ right.pivots.length = M / 2 ∧
        n'.pivots ++ mid :: right.pivots = n.pivots.insertIdx index value ∧
        (∀ c, child = some c → n.children.length = M + 1 →
          n'.children.length = M / 2 + 1 ∧ right.children.length = M / 2 + 1)) ∧
    (∀ (h : Nat) (v : T) (n n' : Node T) (p : T) (r : Node T),
      Node.balanced M h n → (Node.toList h n).Sorted (· < ·) → n.len ≤ M →
      (0 < h → 0 < n.len) →
      Node.insert M v h n = (n', .propagate p r) →
      n.len = M ∧ n'.len = M / 2 ∧ r.len = M / 2 ∧
        Node.balanced M h n' ∧ Node.balanced M h r ∧
        (Node.toList h n' ++ p :: Node.toList h r).Sorted (· < ·)) := by
  constructor
  · intro n index value child hlen hi
    obtain ⟨n', mid, right, heq, hpiv, hl, hr, hnone, hsome, hmid⟩ :=
      @Node.insertSplit_spec T _ M index value child n hM hEv hlen hi
    exact ⟨n', mid, right, heq, hmid, hl, hr, hpiv,
      fun c hc hcl => (hsome c hc hcl).2⟩
  · intro h v n n' p r hbal hord hlenM hpos heq
    obtain ⟨hful, hn'l, hrl, hbal', hbalr, htl⟩ :=
      (Node.insert_spec hM hEv h v n hbal hord hlenM hpos).2 n' p r heq
    exact ⟨hful, hn'l, hrl, hbal', hbalr, by rw [htl]; exact insKey_sorted hord⟩

/-- C3 witness at `M = 2`. -/
theorem claim_C3_split_contract_witness :
    (2 ≤ 2 ∧ 2 % 2 = 0) ∧
    ((∀ (n : Node Nat) (index : Nat) (value : Nat) (child : Option (Node Nat)),
      n.pivots.length = 2 → index ≤ 2 →
      ∃ n' mid right,
        n.insertSplit 2 index value child = (n', .propagate mid right) ∧
        mid = (if index = 2 / 2 then value
               else if index < 2 / 2 then n.pivots.getD (2 / 2 - 1) default
               else n.pivots.getD (2 / 2) default) ∧
        n'.pivots.length = 2 / 2 ∧ right.pivots.length = 2 / 2 ∧
        n'.pivots ++ mid :: right.pivots = n.pivots.insertIdx index value ∧
        (∀ c, child = some c → n.children.length = 2 + 1 →
          n'.children.length = 2 / 2 + 1 ∧ right.children.length = 2 / 2 + 1)) ∧
    (∀ (h : Nat) (v : Nat) (n n' : Node Nat) (p : Nat) (r : Node Nat),
      Node.balanced 2 h n → (Node.toList h n).Sorted (· < ·) → n.len ≤ 2 →
      (0 < h → 0 < n.len) →
      Node.insert 2 v h n = (n', .propagate p r) →
      n.len = 2 ∧ n'.len = 2 / 2 ∧ r.len = 2 / 2 ∧
        Node.balanced 2 h n' ∧ Node.balanced 2 h r ∧
        (Node.toList h n' ++ p :: Node.toList h r).Sorted (· < ·))) :=
  ⟨⟨by decide, by decide⟩, claim_C3_split_contract (by decide) (by decide)⟩

/-- C2 (corrected): the repair order the source implements.  For the head
child (`i = 0`) only the right neighbor exists: rotate-left from it if it can
lend, else merge the pair (this is the only merge with a right neighbor).
For `i = j + 1` the right neighbor is tried first for a rotation, then the
left; but when neither neighbor can lend the merge is always into the LEFT
neighbor — even when a right neighbor exists, contrary to the claim's
"merge with the right one if it exists else the left". -/
theorem claim_C2_repair_order [Inhabited T] (M hp : Nat) (n : Node T)
    (j : Nat) (v : T) :
    (Node.repair M hp n 0 v =
      if M / 2 < (n.children.getD 1 default).len then
        (⟨n.pivots.set 0 (Node.rotateLeft M hp (n.children.getD 0 default)
            (n.pivots.getD 0 default) (n.children.getD 1 default)).2.1,
          (n.children.set 0 (Node.rotateLeft M hp (n.children.getD 0 default)
            (n.pivots.getD 0 default) (n.children.getD 1 default)).1).set 1
            (Node.rotateLeft M hp (n.children.getD 0 default)
              (n.pivots.getD 0 default) (n.children.getD 1 default)).2.2⟩,
         some (.done v))
      else
        (⟨n.pivots.eraseIdx 0,
          Node.mergeLeft M hp (n.children.getD 0 default)
            (n.pivots.getD 0 default) (n.children.getD 1 default) ::
              n.children.drop 2⟩,
         some (if (n.pivots.eraseIdx 0).length < M / 2 then .underflow v
               else .done v))) ∧
    (Node.repair M hp n (j + 1) v =
      if j + 1 < n.pivots.length ∧
          M / 2 < (n.children.getD (j + 2) default).len then
        (⟨n.pivots.set (j + 1) (Node.rotateLeft M hp
            (n.children.getD (j + 1) default) (n.pivots.getD (j + 1) default)
            (n.children.getD (j + 2) default)).2.1,
          (n.children.set (j + 1) (Node.rotateLeft M hp
            (n.children.getD (j + 1) default) (n.pivots.getD (j + 1) default)
            (n.children.getD (j + 2) default)).1).set (j + 2)
            (Node.rotateLeft M hp (n.children.getD (j + 1) default)
              (n.pivots.getD (j + 1) default)
              (n.children.getD (j + 2) default)).2.2⟩,
         some (.done v))
      else if M / 2 < (n.children.getD j default).len then
        (⟨n.pivots.set j (Node.rotateRight M hp (n.children.getD j default)
            (n.pivots.getD j default) (n.children.getD (j + 1) default)).2.1,
          (n.children.set j (Node.rotateRight M hp (n.children.getD j default)
            (n.pivots.getD j default) (n.children.getD (j + 1) default)).1).set
            (j + 1) (Node.rotateRight M hp (n.children.getD j default)
              (n.pivots.getD j default)
              (n.children.getD (j + 1) default)).2.2⟩,
         some (.done v))
      else
        (⟨n.pivots.eraseIdx j,
          (n.children.eraseIdx (j + 1)).set j
            (Node.mergeRight M hp (n.children.getD j default)
              (n.pivots.getD j default) (n.children.getD (j + 1) default))⟩,
         some (if (n.pivots.eraseIdx j).length < M / 2 then .underflow v
               else .done v))) := by
  constructor
  · by_cases h1 : M / 2 < (n.children.getD 1 default).len
    · rw [if_pos h1]
      simp only [Node.repair]
      rw [if_pos h1]
    · rw [if_neg h1]
      simp only [Node.repair]
      rw [if_neg h1]
      rfl
  · by_cases h1 : j + 1 < n.pivots.length
    · by_cases h2 : M / 2 < (n.children.getD (j + 2) default).len
      · rw [if_pos ⟨h1, h2⟩]
        simp only [Node.repair]
        rw [if_pos h1, if_pos h2]
      · rw [if_neg (fun hc => h2 hc.2)]
        simp only [Node.repair]
        rw [if_pos h1, if_neg h2]
        by_cases h3 : M / 2 < (n.children.getD j default).len
        · rw [if_pos h3]
          simp only [Node.repairLeft]
          rw [if_pos h3]
        · rw [if_neg h3]
          simp only [Node.repairLeft]
          rw [if_neg h3]
          rfl
    · rw [if_neg (fun hc => h1 hc.1)]
      simp only [Node.repair]
      rw [if_neg h1]
      by_cases h3 : M / 2 < (n.children.getD j default).len
      · rw [if_pos h3]
        simp only [Node.repairLeft]
        rw [if_pos h3]
      · rw [if_neg h3]
        simp only [Node.repairLeft]
        rw [if_neg h3]
        rfl

/-- C2 witness at a concrete node. -/
theorem claim_C2_repair_order_witness :
    Node.repair 2 1 (Node.mk (T := Nat) [2, 4]
        [.mk [1] [], .mk [] [], .mk [5] []]) (0 + 1) 0 =
      (if 0 + 1 < (Node.mk (T := Nat) [2, 4]
            [.mk [1] [], .mk [] [], .mk [5] []]).pivots.length ∧
          2 / 2 < ((Node.mk (T := Nat) [2, 4]
            [.mk [1] [], .mk [] [], .mk [5] []]).children.getD (0 + 2)
              default).len then
        (⟨(Node.mk (T := Nat) [2, 4]
            [.mk [1] [], .mk [] [], .mk [5] []]).pivots.set (0 + 1)
              (Node.rotateLeft 2 1 ((Node.mk (T := Nat) [2, 4]
                [.mk [1] [], .mk [] [], .mk [5] []]).children.getD (0 + 1)
                  default)
                ((Node.mk (T := Nat) [2, 4]
                  [.mk [1] [], .mk [] [], .mk [5] []]).pivots.getD (0 + 1)
                    default)
                ((Node.mk (T := Nat) [2, 4]
                  [.mk [1] [], .mk [] [], .mk [5] []]).children.getD (0 + 2)
                    default)).2.1,
          ((Node.mk (T := Nat) [2, 4]
            [.mk [1] [], .mk [] [], .mk [5] []]).children.set (0 + 1)
              (Node.rotateLeft 2 1 ((Node.mk (T := Nat) [2, 4]
                [.mk [1] [], .mk [] [], .mk [5] []]).children.getD (0 + 1)
                  default)
                ((Node.mk (T := Nat) [2, 4]
                  [.mk [1] [], .mk [] [], .mk [5] []]).pivots.getD (0 + 1)
                    default)
                ((Node.mk (T := Nat) [2, 4]
                  [.mk [1] [], .mk [] [], .mk [5] []]).children.getD (0 + 2)
                    default)).1).set (0 + 2)
              (Node.rotateLeft 2 1 ((Node.mk (T := Nat) [2, 4]
                [.mk [1] [], .mk [] [], .mk [5] []]).children.getD (0 + 1)
                  default)
                ((Node.mk (T := Nat) [2, 4]
                  [.mk [1] [], .mk [] [], .mk [5] []]).pivots.getD (0 + 1)
                    default)
                ((Node.mk (T := Nat) [2, 4]
                  [.mk [1] [], .mk [] [], .mk [5] []]).children.getD (0 + 2)
                    default)).2.2⟩,
         some (.done 0))
      else if 2 / 2 < ((Node.mk (T := Nat) [2, 4]
          [.mk [1] [], .mk [] [], .mk [5] []]).children.getD 0 default).len then
        (⟨(Node.mk (T := Nat) [2, 4]
            [.mk [1] [], .mk [] [], .mk [5] []]).pivots.set 0
              (Node.rotateRight 2 1 ((Node.mk (T := Nat) [2, 4]
                [.mk [1] [], .mk [] [], .mk [5] []]).children.getD 0 default)
                ((Node.mk (T := Nat) [2, 4]
                  [.mk [1] [], .mk [] [], .mk [5] []]).pivots.getD 0 default)
                ((Node.mk (T := Nat) [2, 4]
                  [.mk [1] [], .mk [] [], .mk [5] []]).children.getD (0 + 1)
                    default)).2.1,
          ((Node.mk (T := Nat) [2, 4]
            [.mk [1] [], .mk [] [], .mk [5] []]).children.set 0
              (Node.rotateRight 2 1 ((Node.mk (T := Nat) [2, 4]
                [.mk [1] [], .mk [] [], .mk [5] []]).children.getD 0 default)
                ((Node.mk (T := Nat) [2, 4]
                  [.mk [1] [], .mk [] [], .mk [5] []]).pivots.getD 0 default)
                ((Node.mk (T := Nat) [2, 4]
                  [.mk [1] [], .mk [] [], .mk [5] []]).children.getD (0 + 1)
                    default)).1).set (0 + 1)
              (Node.rotateRight 2 1 ((Node.mk (T := Nat) [2, 4]
                [.mk [1] [], .mk [] [], .mk [5] []]).children.getD 0 default)
                ((Node.mk (T := Nat) [2, 4]
                  [.mk [1] [], .mk [] [], .mk [5] []]).pivots.getD 0 default)
                ((Node.mk (T := Nat) [2, 4]
                  [.mk [1] [], .mk [] [], .mk [5] []]).children.getD (0 + 1)
                    default)).2.2⟩,
         some (.done 0))
      else
        (⟨(Node.mk (T := Nat) [2, 4]
            [.mk [1] [], .mk [] [], .mk [5] []]).pivots.eraseIdx 0,
          ((Node.mk (T := Nat) [2, 4]
            [.mk [1] [], .mk [] [], .mk [5] []]).children.eraseIdx (0 + 1)).set 0
              (Node.mergeRight 2 1 ((Node.mk (T := Nat) [2, 4]
                [.mk [1] [], .mk [] [], .mk [5] []]).children.getD 0 default)
                ((Node.mk (T := Nat) [2, 4]
                  [.mk [1] [], .mk [] [], .mk [5] []]).pivots.getD 0 default)
                ((Node.mk (T := Nat) [2, 4]
                  [.mk [1] [], .mk [] [], .mk [5] []]).children.getD (0 + 1)
                    default))⟩,
         some (if ((Node.mk (T := Nat) [2, 4]
              [.mk [1] [], .mk [] [], .mk [5] []]).pivots.eraseIdx 0).length <
                2 / 2 then .underflow 0
               else .done 0))) :=
  (claim_C2_repair_order 2 1
    (Node.mk [2, 4] [.mk [1] [], .mk [] [], .mk [5] []]) 0 0).2

/-- C2 counterexample: at the node `⟨[2, 4], [[1], [], [5]]⟩` with the middle
child underflowed and neither neighbor able to lend, the source merges into
the LEFT neighbor (root pivots become `[4]`), while the claim's words (merge
with the right neighbor when it exists, modelled by `Node.repairClaimed`)
produce root pivots `[2]`. -/
theorem claim_C2_repair_order_counterexample :
    Node.repair 2 1 (Node.mk (T := Nat) [2, 4]
        [.mk [1] [], .mk [] [], .mk [5] []]) 1 0 =
      (.mk [4] [.mk [1, 2] [], .mk [5] []], some (.done 0)) ∧
    Node.repairClaimed 2 1 (Node.mk (T := Nat) [2, 4]
        [.mk [1] [], .mk [] [], .mk [5] []]) 1 0 =
      (.mk [2] [.mk [1] [], .mk [4, 5] []], some (.done 0)) ∧
    (Node.repair 2 1 (Node.mk (T := Nat) [2, 4]
        [.mk [1] [], .mk [] [], .mk [5] []]) 1 0).1.pivots ≠
      (Node.repairClaimed 2 1 (Node.mk (T := Nat) [2, 4]
        [.mk [1] [], .mk [] [], .mk [5] []]) 1 0).1.pivots := by
  refine ⟨rfl, rfl, ?_⟩
  intro hcontra
  simp only [show (Node.repair 2 1 (Node.mk (T := Nat) [2, 4]
      [.mk [1] [], .mk [] [], .mk [5] []]) 1 0).1.pivots = [4] from rfl,
    show (Node.repairClaimed 2 1 (Node.mk (T := Nat) [2, 4]
      [.mk [1] [], .mk [] [], .mk [5] []]) 1 0).1.pivots = [2] from rfl] at hcontra
  cases hcontra
